import Mathlib

/-!
Verification of the LSOracle / mockturtle cut-rewriting core against its
natural-language specification.

The development shallowly embeds the relevant C++ sources:

* `mockturtle::node_map<T, Ntk, std::vector<T>>`  (utils/node_map.hpp)
* `mockturtle::detail::graph` and the two independent-set selectors
  (cut_rewriting.hpp)
* the k-LUT network (`klut_network`, klut.hpp): node table, structural hash,
  fan-out counters, `create_pi` / `create_po` / `_create_node` /
  `create_node` / `clone_node` / `substitute_node`
* `cleanup_dangling` (cleanup.hpp)
* `detail::compute_reconvergence_driven_cut_impl` (reconv_cut.hpp)
* `detail::cut_rewriting_impl::recursive_deref` / `recursive_ref`
  (cut_rewriting.hpp)

Machine integers are modelled as `Nat` / `Int` / `ZMod (2^32)` as appropriate;
where a counter's 32-bit wrap-around is semantically relevant (the scratch
reference counters of the MFFC walk) we use `ZMod (2^32)`, whose subtraction
and addition agree with `uint32_t` arithmetic.
-/

set_option maxHeartbeats 1000000

/-! ## Vector-backed node map (`node_map<T, Ntk, std::vector<T>>::resize`)

The map's backing store is a `std::vector<T>`; the network's current size is
the only datum of the network that `resize` consults.  `std::vector::resize`
to a larger size appends value-initialized copies of the given value and
keeps the existing prefix untouched. -/

namespace NodeMapVec

/-- Embedding of `node_map<T, Ntk, std::vector<T>>::resize(init_value)`
(node_map.hpp, lines 180-186): if the network has grown past the store,
grow the store to the network's size, filling the new slots with
`init_value`; otherwise do nothing. -/
def resize {T : Type} (ntkSize : Nat) (data : List T) (initValue : T) : List T :=
  if ntkSize > data.length then data ++ List.replicate (ntkSize - data.length) initValue
  else data

theorem resize_length_of_gt {T : Type} (ntkSize : Nat) (data : List T) (v : T)
    (h : data.length < ntkSize) : (resize ntkSize data v).length = ntkSize := by
  simp only [resize, if_pos h, List.length_append, List.length_replicate]
  omega

theorem resize_eq_of_le {T : Type} (ntkSize : Nat) (data : List T) (v : T)
    (h : ntkSize ≤ data.length) : resize ntkSize data v = data := by
  simp only [resize]
  rw [if_neg]
  omega

theorem resize_get_old {T : Type} (ntkSize : Nat) (data : List T) (v : T)
    (i : Nat) (hi : i < data.length) :
    (resize ntkSize data v).getD i v = data.getD i v := by
  unfold resize
  split
  · rw [List.getD_eq_getElem?_getD, List.getD_eq_getElem?_getD,
      List.getElem?_append_left hi]
  · rfl

theorem resize_get_new {T : Type} (ntkSize : Nat) (data : List T) (v : T)
    (i : Nat) (hlo : data.length ≤ i) (hhi : i < ntkSize) :
    (resize ntkSize data v).getD i v = v := by
  unfold resize
  rw [if_pos (by omega)]
  rw [List.getD_eq_getElem?_getD, List.getElem?_append_right hlo]
  rcases Nat.lt_or_ge (i - data.length) (ntkSize - data.length) with h | h
  · rw [List.getElem?_eq_getElem (by simpa using h)]
    simp
  · omega

end NodeMapVec

/-- Claim C10: `node_map` vector `resize(init_value)` leaves every previously
stored value unchanged, grows the backing store to the network's current size
filling only the new slots with `init_value` when the network has grown, and
is a no-op when the network's size is not larger than the store. -/
theorem C10_node_map_resize {T : Type} (ntkSize : Nat) (data : List T) (v : T) :
    (∀ i, i < data.length →
      (NodeMapVec.resize ntkSize data v).getD i v = data.getD i v) ∧
    (data.length < ntkSize →
      (NodeMapVec.resize ntkSize data v).length = ntkSize ∧
      ∀ i, data.length ≤ i → i < ntkSize →
        (NodeMapVec.resize ntkSize data v).getD i v = v) ∧
    (ntkSize ≤ data.length → NodeMapVec.resize ntkSize data v = data) := by
  refine ⟨fun i hi => NodeMapVec.resize_get_old ntkSize data v i hi,
    fun h => ⟨NodeMapVec.resize_length_of_gt ntkSize data v h,
      fun i hlo hhi => NodeMapVec.resize_get_new ntkSize data v i hlo hhi⟩,
    fun h => NodeMapVec.resize_eq_of_le ntkSize data v h⟩

theorem C10_node_map_resize_witness :
    (NodeMapVec.resize 3 [5, 6] 0).getD 1 0 = [5, 6].getD 1 0 ∧
    (NodeMapVec.resize 3 [5, 6] 0).length = 3 ∧
    NodeMapVec.resize 2 [5, 6] 0 = [5, 6] := by
  exact ⟨(C10_node_map_resize 3 [5, 6] 0).1 1 (by decide),
    ((C10_node_map_resize 3 [5, 6] 0).2.1 (by decide)).1,
    (C10_node_map_resize 2 [5, 6] 0).2.2 (by decide)⟩

/-! ## Conflict graph (`mockturtle::detail::graph`, cut_rewriting.hpp)

`_adjacent` is a `std::vector<std::set<uint32_t>>`; each `std::set` is
modelled as a strictly sorted `List Nat` (which is also how the set iterates).
`_weights` is a `std::vector<int32_t>` (modelled as `List Int`; `add_vertex`
receives a `uint32_t` that is converted to `int32_t` on storage).
`_num_vertices` is `uint32_t` and `_num_edges` is `std::size_t`; both are
modelled as `Nat` (their wrap-around would require more vertices than any
sequence of vector pushes can address, and the claims are about the counting
discipline). -/

namespace CutGraph

/-- Sorted insertion without duplicates: `std::set<uint32_t>::insert`. -/
def setInsert (x : Nat) : List Nat → List Nat
  | [] => [x]
  | y :: ys => if x < y then x :: y :: ys else if x = y then y :: ys else y :: setInsert x ys

/-- Removal of the (at most one) occurrence: `std::set<uint32_t>::erase`. -/
def setErase (x : Nat) : List Nat → List Nat
  | [] => []
  | y :: ys => if x = y then ys else y :: setErase x ys

theorem mem_setInsert {a x : Nat} : ∀ {l : List Nat}, a ∈ setInsert x l ↔ a = x ∨ a ∈ l
  | [] => by simp [setInsert]
  | y :: ys => by
    unfold setInsert
    split
    · simp
    · split
      · subst_vars; simp
      · simp only [List.mem_cons, mem_setInsert (l := ys)]; tauto

theorem setInsert_sorted {x : Nat} : ∀ {l : List Nat},
    l.Sorted (· < ·) → (setInsert x l).Sorted (· < ·)
  | [], _ => by simp [setInsert]
  | y :: ys, h => by
    unfold setInsert
    rcases List.sorted_cons.1 h with ⟨hy, hys⟩
    split
    · refine List.sorted_cons.2 ⟨?_, h⟩
      intro b hb
      rcases List.mem_cons.1 hb with rfl | hb
      · assumption
      · have := hy b hb; omega
    · split
      · exact h
      · refine List.sorted_cons.2 ⟨?_, setInsert_sorted hys⟩
        intro b hb
        rcases mem_setInsert.1 hb with rfl | hb
        · omega
        · exact hy b hb


theorem setInsert_length_of_not_mem {x : Nat} : ∀ {l : List Nat}, x ∉ l →
    (setInsert x l).length = l.length + 1
  | [], _ => rfl
  | y :: ys, h => by
    unfold setInsert
    have hxy : x ≠ y := fun hc => h (hc ▸ List.mem_cons_self y ys)
    have hxys : x ∉ ys := fun hc => h (List.mem_cons_of_mem y hc)
    by_cases h1 : x < y
    · rw [if_pos h1]; rfl
    · rw [if_neg h1, if_neg hxy]
      simp [setInsert_length_of_not_mem hxys]

theorem setInsert_length_of_mem {x : Nat} : ∀ {l : List Nat}, l.Sorted (· < ·) → x ∈ l →
    (setInsert x l).length = l.length
  | [], _, h => absurd h (List.not_mem_nil x)
  | y :: ys, hs, h => by
    unfold setInsert
    rcases List.sorted_cons.1 hs with ⟨hy, hys⟩
    rcases List.mem_cons.1 h with rfl | hmem
    · rw [if_neg (lt_irrefl x), if_pos rfl]
    · have : y < x := hy x hmem
      rw [if_neg (by omega), if_neg (by omega)]
      simp [setInsert_length_of_mem hys hmem]

theorem setErase_sublist (x : Nat) : ∀ (l : List Nat), (setErase x l).Sublist l
  | [] => List.Sublist.refl []
  | y :: ys => by
    unfold setErase
    split
    · exact List.sublist_cons_self y ys
    · exact List.Sublist.cons₂ y (setErase_sublist x ys)

theorem setErase_sorted {x : Nat} {l : List Nat} (h : l.Sorted (· < ·)) :
    (setErase x l).Sorted (· < ·) :=
  h.sublist (setErase_sublist x l)

theorem mem_setErase_of_mem {a x : Nat} : ∀ {l : List Nat}, a ∈ l → a ≠ x → a ∈ setErase x l
  | [], h, _ => absurd h (List.not_mem_nil a)
  | y :: ys, h, hne => by
    unfold setErase
    rcases List.mem_cons.1 h with rfl | hmem
    · rw [if_neg (fun hc => hne hc.symm)]; exact List.mem_cons_self a _
    · split
      · subst_vars; exact hmem
      · exact List.mem_cons_of_mem y (mem_setErase_of_mem hmem hne)

theorem mem_of_mem_setErase {a x : Nat} {l : List Nat} (h : a ∈ setErase x l) : a ∈ l :=
  (setErase_sublist x l).mem h

theorem not_mem_setErase_self {x : Nat} : ∀ {l : List Nat}, l.Nodup → x ∉ setErase x l
  | [], _ => List.not_mem_nil x
  | y :: ys, hnd => by
    unfold setErase
    rcases List.nodup_cons.1 hnd with ⟨hy, hys⟩
    split
    · subst_vars; exact hy
    · intro hmem
      rcases List.mem_cons.1 hmem with rfl | hmem
      · simp_all
      · exact not_mem_setErase_self hys hmem

theorem setErase_length_of_mem {x : Nat} : ∀ {l : List Nat}, x ∈ l →
    (setErase x l).length + 1 = l.length
  | [], h => absurd h (List.not_mem_nil x)
  | y :: ys, h => by
    unfold setErase
    split
    · rfl
    · have hmem : x ∈ ys := by
        rcases List.mem_cons.1 h with rfl | hmem
        · simp_all
        · exact hmem
      simp [setErase_length_of_mem hmem]

theorem setErase_of_not_mem {x : Nat} : ∀ {l : List Nat}, x ∉ l → setErase x l = l
  | [], _ => rfl
  | y :: ys, h => by
    unfold setErase
    have hxy : x ≠ y := fun hc => h (hc ▸ List.mem_cons_self y ys)
    rw [if_neg hxy, setErase_of_not_mem (fun hc => h (List.mem_cons_of_mem y hc))]

/-- `int32_t` value obtained by converting a `uint32_t`. -/
def int32OfUInt32 (w : Nat) : Int :=
  if w % 2 ^ 32 < 2 ^ 31 then ((w % 2 ^ 32 : Nat) : Int) else ((w % 2 ^ 32 : Nat) : Int) - 2 ^ 32


theorem getD_set_self {α : Type} (l : List α) (i : Nat) (a d : α) (h : i < l.length) :
    (l.set i a).getD i d = a := by
  induction l generalizing i with
  | nil => simp at h
  | cons x xs ih =>
    cases i with
    | zero => rfl
    | succ n => exact ih n (by simpa using h)

theorem getD_set_ne {α : Type} (l : List α) (i j : Nat) (a d : α) (h : i ≠ j) :
    (l.set i a).getD j d = l.getD j d := by
  induction l generalizing i j with
  | nil => simp [List.set]
  | cons x xs ih =>
    cases i with
    | zero =>
      cases j with
      | zero => exact absurd rfl h
      | succ m => rfl
    | succ n =>
      cases j with
      | zero => rfl
      | succ m => exact ih n m (fun hc => h (by omega))

theorem sum_map_length_set (l : List (List Nat)) (i : Nat) (a : List Nat)
    (h : i < l.length) :
    ((l.set i a).map List.length).sum + (l.getD i []).length
      = (l.map List.length).sum + a.length := by
  induction l generalizing i with
  | nil => simp at h
  | cons x xs ih =>
    cases i with
    | zero => simp [List.getD_cons_zero]; omega
    | succ n =>
      have := ih n (by simpa using h)
      simp only [List.set, List.map_cons, List.sum_cons, List.getD_cons_succ]
      omega

theorem countP_set (p : Int → Bool) (l : List Int) (i : Nat) (x : Int)
    (h : i < l.length) :
    (l.set i x).countP p + (if p (l.getD i 0) then 1 else 0)
      = l.countP p + (if p x then 1 else 0) := by
  induction l generalizing i with
  | nil => simp at h
  | cons y ys ih =>
    cases i with
    | zero =>
      simp only [List.set, List.countP_cons, List.getD_cons_zero]
      by_cases h1 : p y <;> by_cases h2 : p x <;> simp [h1, h2]
    | succ n =>
      have hih := ih n (by simpa using h)
      simp only [List.set, List.countP_cons, List.getD_cons_succ,
        List.getD_eq_getElem?_getD] at hih ⊢
      by_cases h1 : p y <;> simp [h1] <;> omega

/-- The neighbor-cleanup loop of `graph::remove_vertex`: for each `w` in the
removed vertex's adjacency set, erase `v` from `w`'s adjacency set. -/
def eraseAll (v : Nat) (a : List Nat) (adj : List (List Nat)) : List (List Nat) :=
  a.foldl (fun adj w => adj.set w (setErase v (adj.getD w []))) adj

theorem eraseAll_nil (v : Nat) (adj : List (List Nat)) : eraseAll v [] adj = adj := rfl

theorem eraseAll_cons (v w : Nat) (a : List Nat) (adj : List (List Nat)) :
    eraseAll v (w :: a) adj = eraseAll v a (adj.set w (setErase v (adj.getD w []))) := rfl

theorem length_eraseAll (v : Nat) : ∀ (a : List Nat) (adj : List (List Nat)),
    (eraseAll v a adj).length = adj.length
  | [], adj => rfl
  | w :: a, adj => by rw [eraseAll_cons, length_eraseAll v a]; simp

theorem getD_eraseAll_of_not_mem (v u : Nat) : ∀ (a : List Nat) (adj : List (List Nat)),
    u ∉ a → (eraseAll v a adj).getD u [] = adj.getD u []
  | [], adj, _ => rfl
  | w :: a, adj, h => by
    rw [eraseAll_cons, getD_eraseAll_of_not_mem v u a _ (fun hc => h (List.mem_cons_of_mem w hc)),
      getD_set_ne _ _ _ _ _ (fun hc => h (by rw [hc]; exact List.mem_cons_self u a))]

theorem getD_eraseAll_of_mem (v u : Nat) : ∀ (a : List Nat) (adj : List (List Nat)),
    a.Nodup → u ∈ a → u < adj.length →
    (eraseAll v a adj).getD u [] = setErase v (adj.getD u [])
  | [], _, _, h, _ => absurd h (List.not_mem_nil u)
  | w :: a, adj, hnd, h, hu => by
    rcases List.nodup_cons.1 hnd with ⟨hw, ha⟩
    rw [eraseAll_cons]
    rcases List.mem_cons.1 h with rfl | hmem
    · rw [getD_eraseAll_of_not_mem v u a _ hw, getD_set_self _ _ _ _ hu]
    · have hne : w ≠ u := fun hc => hw (by rw [hc]; exact hmem)
      rw [getD_eraseAll_of_mem v u a _ ha hmem (by simpa using hu), getD_set_ne _ _ _ _ _ hne]

theorem sum_eraseAll (v : Nat) : ∀ (a : List Nat) (adj : List (List Nat)),
    a.Nodup → (∀ w ∈ a, w < adj.length ∧ v ∈ adj.getD w []) →
    ((eraseAll v a adj).map List.length).sum + a.length = (adj.map List.length).sum
  | [], adj, _, _ => rfl
  | w :: a, adj, hnd, h => by
    rcases List.nodup_cons.1 hnd with ⟨hw, ha⟩
    obtain ⟨hlt, hv⟩ := h w (List.mem_cons_self w a)
    rw [eraseAll_cons]
    have hrec := sum_eraseAll v a (adj.set w (setErase v (adj.getD w []))) ha ?_
    · have hset := sum_map_length_set adj w (setErase v (adj.getD w [])) hlt
      have herl := setErase_length_of_mem hv
      simp only [List.length_cons]
      omega
    · intro u hu
      obtain ⟨hul, huv⟩ := h u (List.mem_cons_of_mem w hu)
      refine ⟨by simpa using hul, ?_⟩
      rw [getD_set_ne _ _ _ _ _ (fun hc => hw (by rw [hc]; exact hu))]
      exact huv

/-- Embedding of `mockturtle::detail::graph` (cut_rewriting.hpp, lines 451-529). -/
structure Graph where
  adjacent : List (List Nat)
  weights : List Int
  numVertices : Nat
  numEdges : Nat
deriving DecidableEq, Repr

/-- The empty graph (default-constructed `detail::graph`). -/
def Graph.init : Graph := ⟨[], [], 0, 0⟩

/-- The adjacency set of a vertex (out-of-range access reads as empty). -/
def Graph.adj (g : Graph) (v : Nat) : List Nat := g.adjacent.getD v []

/-- `graph::weight`. -/
def Graph.weight (g : Graph) (v : Nat) : Int := g.weights.getD v (-1)

/-- `graph::degree`. -/
def Graph.degree (g : Graph) (v : Nat) : Nat := (g.adj v).length

/-- `graph::has_vertex`: `_weights[vertex] >= 0`. -/
def Graph.hasVertex (g : Graph) (v : Nat) : Prop := 0 ≤ g.weight v

instance (g : Graph) (v : Nat) : Decidable (g.hasVertex v) := by
  unfold Graph.hasVertex; infer_instance

/-- `graph::add_vertex`: appends the weight (converted to `int32_t`) and an
empty adjacency set, increments `_num_vertices`, returns the new index. -/
def Graph.addVertex (g : Graph) (w : Nat) : Nat × Graph :=
  (g.weights.length,
    { adjacent := g.adjacent ++ [[]]
      weights := g.weights ++ [int32OfUInt32 w]
      numVertices := g.numVertices + 1
      numEdges := g.numEdges })

/-- `graph::add_edge`: no-op on a self-loop or an already-present edge;
otherwise inserts each endpoint into the other's adjacency set and increments
`_num_edges`. -/
def Graph.addEdge (g : Graph) (v1 v2 : Nat) : Graph :=
  if v1 = v2 then g
  else if v2 ∈ g.adj v1 then g
  else
    let adj1 := g.adjacent.set v1 (setInsert v2 (g.adj v1))
    { adjacent := adj1.set v2 (setInsert v1 (adj1.getD v2 []))
      weights := g.weights
      numVertices := g.numVertices
      numEdges := g.numEdges + 1 }

/-- `graph::remove_vertex`: marks the weight `-1`, subtracts the vertex's
degree from `_num_edges`, erases the vertex from each neighbor's adjacency
set, clears its own set, and decrements `_num_vertices`. -/
def Graph.removeVertex (g : Graph) (v : Nat) : Graph :=
  let a := g.adj v
  { adjacent := (eraseAll v a g.adjacent).set v []
    weights := g.weights.set v (-1)
    numVertices := g.numVertices - 1
    numEdges := g.numEdges - a.length }

theorem getD_default_irrel {α : Type} (l : List α) (i : Nat) (d1 d2 : α)
    (h : i < l.length) : l.getD i d1 = l.getD i d2 := by
  rw [List.getD_eq_getElem?_getD, List.getD_eq_getElem?_getD,
    List.getElem?_eq_getElem h]
  rfl

theorem getD_append_sing {α : Type} (l : List α) (x : α) (v : Nat) (d : α) :
    (l ++ [x]).getD v d = if v = l.length then x else l.getD v d := by
  rcases Nat.lt_trichotomy v l.length with h | h | h
  · rw [if_neg (by omega), List.getD_eq_getElem?_getD, List.getElem?_append_left h,
      ← List.getD_eq_getElem?_getD]
  · subst h
    rw [if_pos rfl, List.getD_eq_getElem?_getD, List.getElem?_append_right (le_refl _)]
    simp
  · rw [if_neg (by omega), List.getD_eq_getElem?_getD,
      List.getElem?_eq_none (by simp; omega),
      List.getD_eq_getElem?_getD, List.getElem?_eq_none (by omega)]

/-- One mutation of a `detail::graph`: the public mutating interface. -/
inductive GOp where
  | addV (w : Nat)
  | addE (v1 v2 : Nat)
  | remV (v : Nat)
deriving DecidableEq, Repr

/-- Apply one graph operation. -/
def Graph.stepOp (g : Graph) : GOp → Graph
  | .addV w => (g.addVertex w).2
  | .addE v1 v2 => g.addEdge v1 v2
  | .remV v => g.removeVertex v

/-- Apply a sequence of graph operations. -/
def Graph.runOps (g : Graph) (ops : List GOp) : Graph := ops.foldl Graph.stepOp g

/-- Validity of one call exactly as claim C9 demands it: indices must be in
range (out-of-range subscripts are undefined behaviour in the source) and
removals happen only on present vertices.  `add_vertex` takes a `uint32_t`. -/
def GOp.okAsStated (g : Graph) : GOp → Prop
  | .addV w => w < 2 ^ 32
  | .addE v1 v2 => v1 < g.adjacent.length ∧ v2 < g.adjacent.length
  | .remV v => v < g.adjacent.length ∧ g.hasVertex v

/-- Validity as the amended claim demands it: additionally, edges may only be
added between present vertices, and vertex weights must fit a non-negative
`int32_t`. -/
def GOp.okAmended (g : Graph) : GOp → Prop
  | .addV w => w < 2 ^ 31
  | .addE v1 v2 => v1 < g.adjacent.length ∧ v2 < g.adjacent.length ∧
      g.hasVertex v1 ∧ g.hasVertex v2
  | .remV v => v < g.adjacent.length ∧ g.hasVertex v

instance (g : Graph) (op : GOp) : Decidable (op.okAsStated g) := by
  cases op <;> (unfold GOp.okAsStated; infer_instance)

instance (g : Graph) (op : GOp) : Decidable (op.okAmended g) := by
  cases op <;> (unfold GOp.okAmended; infer_instance)

/-- Every operation of the sequence is valid in the state it is applied to. -/
def SeqOK (P : Graph → GOp → Prop) : Graph → List GOp → Prop
  | _, [] => True
  | g, op :: ops => P g op ∧ SeqOK P (g.stepOp op) ops

instance instDecSeqOK (P : Graph → GOp → Prop) [∀ g op, Decidable (P g op)] :
    ∀ (g : Graph) (ops : List GOp), Decidable (SeqOK P g ops)
  | _, [] => isTrue trivial
  | g, op :: ops =>
    have := instDecSeqOK P (g.stepOp op) ops
    by unfold SeqOK; infer_instance

/-- The data-structure invariant of `detail::graph`. -/
structure Graph.WF (g : Graph) : Prop where
  hlen : g.adjacent.length = g.weights.length
  hsort : ∀ v, (g.adj v).Sorted (· < ·)
  hrange : ∀ v, ∀ w ∈ g.adj v, w < g.adjacent.length
  hirr : ∀ v, v ∉ g.adj v
  hsym : ∀ v w, w ∈ g.adj v → v ∈ g.adj w
  hpres : ∀ v w, w ∈ g.adj v → g.hasVertex v ∧ g.hasVertex w
  hneg : ∀ v, v < g.weights.length → 0 ≤ g.weight v ∨ g.weight v = -1
  hcount : g.numVertices = g.weights.countP (fun x => decide (0 ≤ x))
  hedge : 2 * g.numEdges = (g.adjacent.map List.length).sum

theorem WF_init : Graph.init.WF := by
  constructor <;> simp [Graph.init, Graph.adj, Graph.weight, SeqOK]

theorem adj_addVertex (g : Graph) (w v : Nat) : (g.addVertex w).2.adj v = g.adj v := by
  show (g.adjacent ++ [[]]).getD v [] = g.adjacent.getD v []
  rw [getD_append_sing]
  split
  · rw [List.getD_eq_default]; omega
  · rfl

theorem weight_addVertex (g : Graph) (w v : Nat) :
    (g.addVertex w).2.weight v =
      if v = g.weights.length then int32OfUInt32 w else g.weight v := by
  show (g.weights ++ [int32OfUInt32 w]).getD v (-1) = _
  rw [getD_append_sing]
  rfl

theorem hasVertex_addVertex (g : Graph) (hg : g.WF) (w v : Nat) (hv : v < g.adjacent.length) :
    ((g.addVertex w).2.hasVertex v ↔ g.hasVertex v) := by
  unfold Graph.hasVertex
  have := hg.hlen
  rw [weight_addVertex, if_neg (by omega)]

theorem WF_addVertex (g : Graph) (hg : g.WF) (w : Nat) (hw : w < 2 ^ 31) :
    (g.addVertex w).2.WF := by
  have hnn : (0 : Int) ≤ int32OfUInt32 w := by
    unfold int32OfUInt32
    rw [if_pos (by omega)]
    positivity
  constructor
  · show (g.adjacent ++ [[]]).length = (g.weights ++ [int32OfUInt32 w]).length
    simp [hg.hlen]
  · intro v; rw [adj_addVertex]; exact hg.hsort v
  · intro v x hx
    rw [adj_addVertex] at hx
    have := hg.hrange v x hx
    show x < (g.adjacent ++ [[]]).length
    simp; omega
  · intro v; rw [adj_addVertex]; exact hg.hirr v
  · intro v x hx
    rw [adj_addVertex] at hx
    rw [adj_addVertex]
    exact hg.hsym v x hx
  · intro v x hx
    rw [adj_addVertex] at hx
    obtain ⟨h1, h2⟩ := hg.hpres v x hx
    constructor
    · rw [hasVertex_addVertex g hg w v ?_]
      · exact h1
      · by_contra hc
        rw [Graph.adj, List.getD_eq_default _ _ (by omega)] at hx
        exact absurd hx (List.not_mem_nil x)
    · rw [hasVertex_addVertex g hg w x (hg.hrange v x hx)]
      exact h2
  · intro v hv
    have hlen2 : (g.addVertex w).2.weights.length = g.weights.length + 1 := by
      show (g.weights ++ [int32OfUInt32 w]).length = _
      simp
    rw [weight_addVertex]
    split
    · left; exact hnn
    · show _ ∨ _
      refine hg.hneg v ?_
      omega
  · show g.numVertices + 1 = (g.weights ++ [int32OfUInt32 w]).countP _
    rw [List.countP_append, hg.hcount]
    simp [hnn]
  · have h1 : (g.addVertex w).2.numEdges = g.numEdges := rfl
    have h2 : (g.addVertex w).2.adjacent = g.adjacent ++ [[]] := rfl
    rw [h1, h2]
    simp [hg.hedge]

theorem addEdge_of_eq (g : Graph) (v : Nat) : g.addEdge v v = g := by
  unfold Graph.addEdge
  rw [if_pos rfl]

theorem addEdge_of_mem (g : Graph) (v1 v2 : Nat) (h : v2 ∈ g.adj v1) :
    g.addEdge v1 v2 = g := by
  unfold Graph.addEdge
  by_cases h1 : v1 = v2
  · rw [if_pos h1]
  · rw [if_neg h1, if_pos h]

theorem adj_addEdge (g : Graph) (v1 v2 : Nat) (hne : v1 ≠ v2) (hnm : v2 ∉ g.adj v1)
    (h1 : v1 < g.adjacent.length) (h2 : v2 < g.adjacent.length) (u : Nat) :
    (g.addEdge v1 v2).adj u =
      if u = v1 then setInsert v2 (g.adj v1)
      else if u = v2 then setInsert v1 (g.adj v2) else g.adj u := by
  unfold Graph.addEdge
  rw [if_neg hne, if_neg hnm]
  show ((g.adjacent.set v1 (setInsert v2 (g.adj v1))).set v2
      (setInsert v1 ((g.adjacent.set v1 (setInsert v2 (g.adj v1))).getD v2 []))).getD u []
    = _
  by_cases hu2 : u = v2
  · subst hu2
    rw [getD_set_self _ _ _ _ (by simpa using h2), if_neg (fun hc => hne hc.symm), if_pos rfl,
      getD_set_ne _ _ _ _ _ hne]
    rfl
  · rw [getD_set_ne _ _ _ _ _ (fun hc => hu2 hc.symm)]
    by_cases hu1 : u = v1
    · subst hu1
      rw [getD_set_self _ _ _ _ h1, if_pos rfl]
    · rw [getD_set_ne _ _ _ _ _ (fun hc => hu1 hc.symm), if_neg hu1, if_neg hu2]
      rfl

theorem weights_addEdge (g : Graph) (v1 v2 : Nat) : (g.addEdge v1 v2).weights = g.weights := by
  unfold Graph.addEdge
  by_cases h1 : v1 = v2
  · rw [if_pos h1]
  · rw [if_neg h1]
    by_cases h2 : v2 ∈ g.adj v1
    · rw [if_pos h2]
    · rw [if_neg h2]

theorem numVertices_addEdge (g : Graph) (v1 v2 : Nat) :
    (g.addEdge v1 v2).numVertices = g.numVertices := by
  unfold Graph.addEdge
  by_cases h1 : v1 = v2
  · rw [if_pos h1]
  · rw [if_neg h1]
    by_cases h2 : v2 ∈ g.adj v1
    · rw [if_pos h2]
    · rw [if_neg h2]

theorem hasVertex_addEdge (g : Graph) (v1 v2 u : Nat) :
    ((g.addEdge v1 v2).hasVertex u ↔ g.hasVertex u) := by
  unfold Graph.hasVertex Graph.weight
  rw [weights_addEdge]

theorem WF_addEdge (g : Graph) (hg : g.WF) (v1 v2 : Nat)
    (h1 : v1 < g.adjacent.length) (h2 : v2 < g.adjacent.length)
    (hp1 : g.hasVertex v1) (hp2 : g.hasVertex v2) :
    (g.addEdge v1 v2).WF := by
  by_cases hne : v1 = v2
  · rw [hne, addEdge_of_eq]; exact hg
  by_cases hnm : v2 ∈ g.adj v1
  · rw [addEdge_of_mem g v1 v2 hnm]; exact hg
  have hnm' : v1 ∉ g.adj v2 := fun hc => hnm (hg.hsym v2 v1 hc)
  have hadj := adj_addEdge g v1 v2 hne hnm h1 h2
  have hlenadj : (g.addEdge v1 v2).adjacent.length = g.adjacent.length := by
    unfold Graph.addEdge
    rw [if_neg hne, if_neg hnm]
    simp
  have hmemadj : ∀ u x, x ∈ (g.addEdge v1 v2).adj u →
      (x ∈ g.adj u ∨ (u = v1 ∧ x = v2) ∨ (u = v2 ∧ x = v1)) := by
    intro u x hx
    rw [hadj u] at hx
    by_cases hu1 : u = v1
    · subst hu1
      rw [if_pos rfl] at hx
      rcases mem_setInsert.1 hx with rfl | hx
      · right; left; exact ⟨rfl, rfl⟩
      · left; exact hx
    · rw [if_neg hu1] at hx
      by_cases hu2 : u = v2
      · subst hu2
        rw [if_pos rfl] at hx
        rcases mem_setInsert.1 hx with rfl | hx
        · right; right; exact ⟨rfl, rfl⟩
        · left; exact hx
      · rw [if_neg hu2] at hx
        left; exact hx
  have hedges : (g.addEdge v1 v2).numEdges = g.numEdges + 1 := by
    unfold Graph.addEdge
    rw [if_neg hne, if_neg hnm]
  constructor
  · rw [hlenadj, weights_addEdge]; exact hg.hlen
  · intro u
    rw [hadj u]
    split
    · exact setInsert_sorted (hg.hsort v1)
    · split
      · exact setInsert_sorted (hg.hsort v2)
      · exact hg.hsort u
  · intro u x hx
    rw [hlenadj]
    rcases hmemadj u x hx with hx | ⟨_, hb⟩ | ⟨_, hb⟩
    · exact hg.hrange u x hx
    · rw [hb]; exact h2
    · rw [hb]; exact h1
  · intro u hu
    rcases hmemadj u u hu with hx | ⟨ha, hb⟩ | ⟨ha, hb⟩
    · exact hg.hirr u hx
    · exact hne (ha ▸ hb ▸ rfl)
    · exact hne (hb ▸ ha ▸ rfl)
  · intro u x hx
    rcases hmemadj u x hx with hx' | ⟨ha, hb⟩ | ⟨ha, hb⟩
    · rw [hadj x]
      by_cases hx1 : x = v1
      · subst hx1
        rw [if_pos rfl]
        exact mem_setInsert.2 (Or.inr (hg.hsym u x hx'))
      · rw [if_neg hx1]
        by_cases hx2 : x = v2
        · subst hx2
          rw [if_pos rfl]
          exact mem_setInsert.2 (Or.inr (hg.hsym u x hx'))
        · rw [if_neg hx2]
          exact hg.hsym u x hx'
    · rw [hb, hadj v2, if_neg (fun hc => hne hc.symm), if_pos rfl]
      exact mem_setInsert.2 (Or.inl ha)
    · rw [hb, hadj v1, if_pos rfl]
      exact mem_setInsert.2 (Or.inl ha)
  · intro u x hx
    rw [hasVertex_addEdge, hasVertex_addEdge]
    rcases hmemadj u x hx with hx' | ⟨ha, hb⟩ | ⟨ha, hb⟩
    · exact hg.hpres u x hx'
    · rw [ha, hb]; exact ⟨hp1, hp2⟩
    · rw [ha, hb]; exact ⟨hp2, hp1⟩
  · intro u hu
    show 0 ≤ (g.addEdge v1 v2).weight u ∨ (g.addEdge v1 v2).weight u = -1
    unfold Graph.weight
    rw [weights_addEdge] at hu ⊢
    exact hg.hneg u hu
  · rw [numVertices_addEdge, weights_addEdge]
    exact hg.hcount
  · rw [hedges]
    have hstep : (g.addEdge v1 v2).adjacent
        = (g.adjacent.set v1 (setInsert v2 (g.adj v1))).set v2
            (setInsert v1 ((g.adjacent.set v1 (setInsert v2 (g.adj v1))).getD v2 [])) := by
      unfold Graph.addEdge
      rw [if_neg hne, if_neg hnm]
    rw [hstep]
    have e1 := sum_map_length_set g.adjacent v1 (setInsert v2 (g.adj v1)) h1
    have e2 := sum_map_length_set (g.adjacent.set v1 (setInsert v2 (g.adj v1))) v2
      (setInsert v1 ((g.adjacent.set v1 (setInsert v2 (g.adj v1))).getD v2 [])) (by simpa using h2)
    have hn1 : (setInsert v2 (g.adj v1)).length = (g.adj v1).length + 1 :=
      setInsert_length_of_not_mem hnm
    have hgd : (g.adjacent.set v1 (setInsert v2 (g.adj v1))).getD v2 [] = g.adj v2 :=
      getD_set_ne _ _ _ _ _ hne
    have hdef : ∀ v, g.adjacent.getD v [] = g.adj v := fun _ => rfl
    have hn2 : (setInsert v1 (g.adj v2)).length = (g.adj v2).length + 1 :=
      setInsert_length_of_not_mem hnm'
    have hg2 := hg.hedge
    simp only [hgd, hdef] at e1 e2 ⊢
    omega

theorem adjacent_removeVertex (g : Graph) (v : Nat) :
    (g.removeVertex v).adjacent = (eraseAll v (g.adj v) g.adjacent).set v [] := rfl

theorem weights_removeVertex (g : Graph) (v : Nat) :
    (g.removeVertex v).weights = g.weights.set v (-1) := rfl

theorem length_adjacent_removeVertex (g : Graph) (v : Nat) :
    (g.removeVertex v).adjacent.length = g.adjacent.length := by
  rw [adjacent_removeVertex]
  simp [length_eraseAll]

theorem weight_removeVertex (g : Graph) (hg : g.WF) (v u : Nat)
    (hv : v < g.adjacent.length) :
    (g.removeVertex v).weight u = if u = v then -1 else g.weight u := by
  show (g.weights.set v (-1)).getD u (-1) = _
  by_cases hu : u = v
  · subst hu
    rw [if_pos rfl, getD_set_self _ _ _ _ (by rw [← hg.hlen]; exact hv)]
  · rw [if_neg hu, getD_set_ne _ _ _ _ _ (fun hc => hu hc.symm)]
    rfl

theorem adj_removeVertex (g : Graph) (hg : g.WF) (v u : Nat)
    (hv : v < g.adjacent.length) :
    (g.removeVertex v).adj u =
      if u = v then []
      else if u ∈ g.adj v then setErase v (g.adj u) else g.adj u := by
  have hnd : (g.adj v).Nodup := (hg.hsort v).nodup
  show ((eraseAll v (g.adj v) g.adjacent).set v []).getD u [] = _
  by_cases hu : u = v
  · subst hu
    rw [if_pos rfl, getD_set_self _ _ _ _ (by rw [length_eraseAll]; exact hv)]
  · rw [if_neg hu, getD_set_ne _ _ _ _ _ (fun hc => hu hc.symm)]
    by_cases hmem : u ∈ g.adj v
    · rw [if_pos hmem, getD_eraseAll_of_mem v u (g.adj v) g.adjacent hnd hmem
        (hg.hrange v u hmem)]
      rfl
    · rw [if_neg hmem, getD_eraseAll_of_not_mem v u (g.adj v) g.adjacent hmem]
      rfl

theorem WF_removeVertex (g : Graph) (hg : g.WF) (v : Nat)
    (hv : v < g.adjacent.length) (hpv : g.hasVertex v) :
    (g.removeVertex v).WF := by
  have hnd : (g.adj v).Nodup := (hg.hsort v).nodup
  have hadj := adj_removeVertex g hg v
  have hwt := weight_removeVertex g hg v
  have hmemadj : ∀ u x, x ∈ (g.removeVertex v).adj u → u ≠ v ∧ x ≠ v ∧ x ∈ g.adj u := by
    intro u x hx
    rw [hadj u hv] at hx
    by_cases hu : u = v
    · rw [if_pos hu] at hx
      exact absurd hx (List.not_mem_nil x)
    · rw [if_neg hu] at hx
      refine ⟨hu, ?_⟩
      by_cases hmem : u ∈ g.adj v
      · rw [if_pos hmem] at hx
        have hxu : x ∈ g.adj u := mem_of_mem_setErase hx
        refine ⟨?_, hxu⟩
        intro hxv
        subst hxv
        exact not_mem_setErase_self (hg.hsort u).nodup hx
      · rw [if_neg hmem] at hx
        refine ⟨?_, hx⟩
        intro hxv
        subst hxv
        exact hmem (hg.hsym u x hx)
  constructor
  · rw [length_adjacent_removeVertex, weights_removeVertex]
    simp [hg.hlen]
  · intro u
    rw [hadj u hv]
    by_cases hu : u = v
    · rw [if_pos hu]; exact List.sorted_nil
    · rw [if_neg hu]
      by_cases hmem : u ∈ g.adj v
      · rw [if_pos hmem]; exact setErase_sorted (hg.hsort u)
      · rw [if_neg hmem]; exact hg.hsort u
  · intro u x hx
    obtain ⟨_, _, hxu⟩ := hmemadj u x hx
    rw [length_adjacent_removeVertex]
    exact hg.hrange u x hxu
  · intro u hu
    obtain ⟨_, _, hxu⟩ := hmemadj u u hu
    exact hg.hirr u hxu
  · intro u x hx
    obtain ⟨huv, hxv, hxu⟩ := hmemadj u x hx
    rw [hadj x hv, if_neg hxv]
    have hux : u ∈ g.adj x := hg.hsym u x hxu
    by_cases hmem : x ∈ g.adj v
    · rw [if_pos hmem]
      exact mem_setErase_of_mem hux huv
    · rw [if_neg hmem]
      exact hux
  · intro u x hx
    obtain ⟨huv, hxv, hxu⟩ := hmemadj u x hx
    obtain ⟨h1, h2⟩ := hg.hpres u x hxu
    unfold Graph.hasVertex
    constructor
    · rw [hwt u hv, if_neg huv]; exact h1
    · rw [hwt x hv, if_neg hxv]; exact h2
  · intro u hu
    rw [weights_removeVertex] at hu
    simp only [List.length_set] at hu
    rw [hwt u hv]
    by_cases huv : u = v
    · rw [if_pos huv]; right; rfl
    · rw [if_neg huv]; exact hg.hneg u hu
  · have hcv : (fun x => decide ((0:Int) ≤ x)) (g.weights.getD v 0) = true := by
      have hdi : g.weights.getD v 0 = g.weights.getD v (-1) :=
        getD_default_irrel _ _ _ _ (by rw [← hg.hlen]; exact hv)
      have hpv' : (0:Int) ≤ g.weights.getD v (-1) := hpv
      rw [hdi]
      simpa using hpv'
    have hcs := countP_set (fun x => decide ((0:Int) ≤ x)) g.weights v (-1)
      (by rw [← hg.hlen]; exact hv)
    rw [hcv] at hcs
    have hz : (if (fun x => decide ((0:Int) ≤ x)) (-1) = true then 1 else 0) = 0 := by
      norm_num
    rw [hz] at hcs
    simp only [if_true] at hcs
    show g.numVertices - 1 = (g.weights.set v (-1)).countP _
    rw [hg.hcount]
    omega
  · have hsum := sum_eraseAll v (g.adj v) g.adjacent hnd ?_
    · have hself : (eraseAll v (g.adj v) g.adjacent).getD v [] = g.adj v :=
        getD_eraseAll_of_not_mem v v (g.adj v) g.adjacent (hg.hirr v)
      have hset := sum_map_length_set (eraseAll v (g.adj v) g.adjacent) v []
        (by rw [length_eraseAll]; exact hv)
      rw [hself] at hset
      have hg2 := hg.hedge
      show 2 * (g.numEdges - (g.adj v).length) =
        ((((eraseAll v (g.adj v) g.adjacent)).set v []).map List.length).sum
      simp only [List.length_nil] at hset
      omega
    · intro w hw
      exact ⟨hg.hrange v w hw, hg.hsym v w hw⟩

theorem WF_runOps : ∀ (ops : List GOp) (g : Graph), g.WF →
    SeqOK GOp.okAmended g ops → (g.runOps ops).WF
  | [], _, hg, _ => hg
  | op :: ops, g, hg, hok => by
    obtain ⟨h1, h2⟩ := hok
    have hstep : (g.stepOp op).WF := by
      cases op with
      | addV w => exact WF_addVertex g hg w h1
      | addE v1 v2 => exact WF_addEdge g hg v1 v2 h1.1 h1.2.1 h1.2.2.1 h1.2.2.2
      | remV v => exact WF_removeVertex g hg v h1.1 h1.2
    exact WF_runOps ops (g.stepOp op) hstep h2

end CutGraph

/-- Claim C9 (amended): after any sequence of `add_vertex`, `add_edge` and
`remove_vertex` calls in which removals happen only on present vertices,
edges are only added between present vertices, and vertex weights fit a
non-negative `int32_t`, the adjacency relation is symmetric and irreflexive,
a non-present (removed) vertex has weight `-1` and an empty adjacency list,
`num_vertices` equals the number of vertex slots with non-negative weight,
and `num_edges` equals half the sum of all adjacency-list sizes. -/
theorem C9_graph_invariants (ops : List CutGraph.GOp)
    (hok : CutGraph.SeqOK CutGraph.GOp.okAmended CutGraph.Graph.init ops) :
    (∀ v w, w ∈ (CutGraph.Graph.init.runOps ops).adj v →
        v ∈ (CutGraph.Graph.init.runOps ops).adj w) ∧
    (∀ v, v ∉ (CutGraph.Graph.init.runOps ops).adj v) ∧
    (∀ v, v < (CutGraph.Graph.init.runOps ops).weights.length →
        ¬ (CutGraph.Graph.init.runOps ops).hasVertex v →
        (CutGraph.Graph.init.runOps ops).weight v = -1 ∧
        (CutGraph.Graph.init.runOps ops).adj v = []) ∧
    (CutGraph.Graph.init.runOps ops).numVertices =
      (CutGraph.Graph.init.runOps ops).weights.countP (fun x => decide (0 ≤ x)) ∧
    2 * (CutGraph.Graph.init.runOps ops).numEdges =
      ((CutGraph.Graph.init.runOps ops).adjacent.map List.length).sum := by
  have hwf := CutGraph.WF_runOps ops CutGraph.Graph.init CutGraph.WF_init hok
  refine ⟨hwf.hsym, hwf.hirr, ?_, hwf.hcount, hwf.hedge⟩
  intro v hv hnp
  refine ⟨?_, ?_⟩
  · rcases hwf.hneg v hv with h | h
    · exact absurd h hnp
    · exact h
  · rw [List.eq_nil_iff_forall_not_mem]
    intro w hw
    exact hnp (hwf.hpres v w hw).1

theorem C9_graph_invariants_witness :
    (CutGraph.Graph.init.runOps
        [CutGraph.GOp.addV 5, CutGraph.GOp.addV 7, CutGraph.GOp.addE 0 1,
          CutGraph.GOp.remV 0]).numVertices =
      (CutGraph.Graph.init.runOps
        [CutGraph.GOp.addV 5, CutGraph.GOp.addV 7, CutGraph.GOp.addE 0 1,
          CutGraph.GOp.remV 0]).weights.countP (fun x => decide (0 ≤ x)) :=
  (C9_graph_invariants
    [CutGraph.GOp.addV 5, CutGraph.GOp.addV 7, CutGraph.GOp.addE 0 1,
      CutGraph.GOp.remV 0] (by decide)).2.2.2.1

/-- Claim C9 as stated is false: the sequence
`add_vertex 1; add_vertex 1; remove_vertex 0; add_edge 0 1` removes vertex 0
only while it is present (as the claim demands), yet afterwards the removed
vertex 0 has weight `-1` but the non-empty adjacency list `[1]`, because
`add_edge` happily re-links a removed vertex. -/
theorem C9_graph_invariants_counterexample :
    CutGraph.SeqOK CutGraph.GOp.okAsStated CutGraph.Graph.init
      [CutGraph.GOp.addV 1, CutGraph.GOp.addV 1, CutGraph.GOp.remV 0,
        CutGraph.GOp.addE 0 1] ∧
    ¬ (CutGraph.Graph.init.runOps
        [CutGraph.GOp.addV 1, CutGraph.GOp.addV 1, CutGraph.GOp.remV 0,
          CutGraph.GOp.addE 0 1]).hasVertex 0 ∧
    (CutGraph.Graph.init.runOps
        [CutGraph.GOp.addV 1, CutGraph.GOp.addV 1, CutGraph.GOp.remV 0,
          CutGraph.GOp.addE 0 1]).weight 0 = -1 ∧
    (CutGraph.Graph.init.runOps
        [CutGraph.GOp.addV 1, CutGraph.GOp.addV 1, CutGraph.GOp.remV 0,
          CutGraph.GOp.addE 0 1]).adj 0 = [1] := by
  decide

namespace CutGraph

/-! ### Independent-set selectors (cut_rewriting.hpp, lines 531-587)

Both selectors scan a fixed list of vertex indices, and for each index that
is still present, select it and remove it together with all of its current
neighbors (collected before the removal, in `std::set` iteration order). -/

/-- Select a vertex: remove it and then each of its (pre-removal) neighbors. -/
def removeClosed (g : Graph) (v : Nat) : Graph :=
  (g.adj v).foldl (fun h w => h.removeVertex w) (g.removeVertex v)

/-- The common scan-and-remove loop of both selectors. -/
def scanRemove (g : Graph) : List Nat → List Nat × Graph
  | [] => ([], g)
  | v :: vs =>
    if g.hasVertex v then
      let p := scanRemove (removeClosed g v) vs
      (v :: p.1, p.2)
    else scanRemove g vs

/-- `graph::gwmin_value`: `(double)weight(v) / (degree(v) + 1)`.  The `double`
division is modelled as exact rational division; for the weight/degree ranges
arising from cut rewriting the comparisons coincide (`int32_t` weights and
small degrees are far inside the 53-bit mantissa). -/
def gwminValue (g : Graph) (v : Nat) : ℚ :=
  (g.weight v : ℚ) / (g.degree v + 1)

theorem gwminValue_lt_iff (g : Graph) (u v : Nat) :
    gwminValue g u < gwminValue g v ↔
      g.weight u * (g.degree v + 1) < g.weight v * (g.degree u + 1) := by
  unfold gwminValue
  rw [div_lt_div_iff (by positivity) (by positivity)]
  constructor <;> intro h <;> exact_mod_cast h

theorem gwminValue_eq_iff (g : Graph) (u v : Nat) :
    gwminValue g u = gwminValue g v ↔
      g.weight u * (g.degree v + 1) = g.weight v * (g.degree u + 1) := by
  unfold gwminValue
  rw [div_eq_div_iff (by positivity) (by positivity)]
  constructor <;> intro h <;> exact_mod_cast h

theorem gwminValue_le_iff (g : Graph) (u v : Nat) :
    gwminValue g u ≤ gwminValue g v ↔
      g.weight u * (g.degree v + 1) ≤ g.weight v * (g.degree u + 1) := by
  unfold gwminValue
  rw [div_le_div_iff (by positivity) (by positivity)]
  constructor <;> intro h <;> exact_mod_cast h

/-- `double` comparisons of gwmin values are decided by integer
cross-multiplication (exact rational comparison). -/
instance (g : Graph) (u v : Nat) : Decidable (gwminValue g u < gwminValue g v) :=
  decidable_of_iff _ (gwminValue_lt_iff g u v).symm

instance (g : Graph) (u v : Nat) : Decidable (gwminValue g u = gwminValue g v) :=
  decidable_of_iff _ (gwminValue_eq_iff g u v).symm

instance (g : Graph) (u v : Nat) : Decidable (gwminValue g u ≤ gwminValue g v) :=
  decidable_of_iff _ (gwminValue_le_iff g u v).symm

/-- The strict comparator passed to `std::stable_sort` by
`maximum_weighted_independent_set_gwmin`. -/
def gwminLt (g : Graph) (v w : Nat) : Prop :=
  gwminValue g v > gwminValue g w ∨
    (gwminValue g v = gwminValue g w ∧ g.degree v > g.degree w)

instance (g : Graph) (v w : Nat) : Decidable (gwminLt g v w) := by
  unfold gwminLt
  exact instDecidableOr

/-- The non-strict order in which `std::stable_sort` leaves the vertex list:
`v` may stay before `w` iff `w` is not strictly smaller.  A stable sort is
uniquely determined by a strict weak order, so `List.insertionSort` (a stable
sort) with this relation models `std::stable_sort` with `gwminLt`. -/
def gwminLe (g : Graph) (v w : Nat) : Prop := ¬ gwminLt g w v

instance (g : Graph) (v w : Nat) : Decidable (gwminLe g v w) := by
  unfold gwminLe; infer_instance

/-- The sorted vertex scan order of the GWMIN selector:
`iota` over `[0, num_vertices)`, stably sorted by decreasing gwmin value with
ties broken by higher degree. -/
def gwminOrder (g : Graph) : List Nat :=
  List.insertionSort (gwminLe g) (List.range g.numVertices)

/-- `maximum_weighted_independent_set_gwmin` (cut_rewriting.hpp 531-562):
returns the selected vertices (in selection order) and the emptied graph. -/
def maximum_weighted_independent_set_gwmin (g : Graph) : List Nat × Graph :=
  scanRemove g (gwminOrder g)

/-- `maximal_weighted_independent_set` (cut_rewriting.hpp 564-587): plain
greedy scan in index order. -/
def maximal_weighted_independent_set (g : Graph) : List Nat × Graph :=
  scanRemove g (List.range g.numVertices)

theorem hasVertex_lt_length {g : Graph} {v : Nat} (h : g.hasVertex v) :
    v < g.weights.length := by
  by_contra hc
  unfold Graph.hasVertex Graph.weight at h
  rw [List.getD_eq_default _ _ (by omega)] at h
  omega

theorem hasVertex_of_removeVertex {g : Graph} {x u : Nat}
    (h : (g.removeVertex x).hasVertex u) : g.hasVertex u := by
  unfold Graph.hasVertex Graph.weight at h ⊢
  rw [weights_removeVertex] at h
  by_cases hux : u = x
  · subst hux
    by_cases hr : u < g.weights.length
    · rw [getD_set_self _ _ _ _ hr] at h
      omega
    · rw [List.set_eq_of_length_le (by omega)] at h
      exact h
  · rw [getD_set_ne _ _ _ _ _ (fun hc => hux hc.symm)] at h
    exact h

theorem hasVertex_of_foldRemove {u : Nat} : ∀ {l : List Nat} {g : Graph},
    ((l.foldl (fun h w => h.removeVertex w) g).hasVertex u) → g.hasVertex u := by
  intro l
  induction l with
  | nil => intro g h; exact h
  | cons x xs ih =>
    intro g h
    exact hasVertex_of_removeVertex (ih h)

theorem hasVertex_of_removeClosed {g : Graph} {v u : Nat}
    (h : (removeClosed g v).hasVertex u) : g.hasVertex u :=
  hasVertex_of_removeVertex (hasVertex_of_foldRemove h)

theorem not_hasVertex_removeVertex_self (g : Graph) (v : Nat) :
    ¬ (g.removeVertex v).hasVertex v := by
  intro h
  unfold Graph.hasVertex Graph.weight at h
  rw [weights_removeVertex] at h
  by_cases hr : v < g.weights.length
  · rw [getD_set_self _ _ _ _ hr] at h
    omega
  · rw [List.set_eq_of_length_le (by omega), List.getD_eq_default _ _ (by omega)] at h
    omega

theorem hasVertex_removeVertex_of_ne {g : Graph} {x u : Nat} (hne : u ≠ x)
    (h : g.hasVertex u) : (g.removeVertex x).hasVertex u := by
  unfold Graph.hasVertex Graph.weight at h ⊢
  rw [weights_removeVertex, getD_set_ne _ _ _ _ _ (fun hc => hne hc.symm)]
  exact h

theorem foldRemove_kills {v : Nat} : ∀ {l : List Nat} {g : Graph}, v ∈ l →
    ¬ (l.foldl (fun h w => h.removeVertex w) g).hasVertex v := by
  intro l
  induction l with
  | nil => intro g h; exact absurd h (List.not_mem_nil v)
  | cons x xs ih =>
    intro g h hcon
    rcases List.mem_cons.1 h with rfl | hmem
    · by_cases hxs : v ∈ xs
      · exact ih hxs hcon
      · exact not_hasVertex_removeVertex_self g v
          (hasVertex_of_foldRemove (l := xs) hcon)
    · exact ih hmem hcon

theorem removeClosed_kills {g : Graph} {v w : Nat} (h : w = v ∨ w ∈ g.adj v) :
    ¬ (removeClosed g v).hasVertex w := by
  rcases h with rfl | h
  · intro hcon
    exact not_hasVertex_removeVertex_self g w (hasVertex_of_foldRemove hcon)
  · exact foldRemove_kills h

end CutGraph

namespace CutGraph

theorem adjacent_removeVertex_oob (g : Graph) (x : Nat)
    (h : g.adjacent.length ≤ x) : (g.removeVertex x).adjacent = g.adjacent := by
  rw [adjacent_removeVertex]
  have hadjx : g.adj x = [] := List.getD_eq_default _ _ h
  rw [hadjx, eraseAll_nil, List.set_eq_of_length_le h]

theorem mem_adj_removeVertex {g : Graph} (hg : g.WF) {x u w : Nat}
    (hu : (g.removeVertex x).hasVertex u) (hw : (g.removeVertex x).hasVertex w)
    (hmem : w ∈ g.adj u) : w ∈ (g.removeVertex x).adj u := by
  have hux : u ≠ x := fun hc => not_hasVertex_removeVertex_self g x (hc ▸ hu)
  have hwx : w ≠ x := fun hc => not_hasVertex_removeVertex_self g x (hc ▸ hw)
  by_cases hr : x < g.adjacent.length
  · rw [adj_removeVertex g hg x u hr, if_neg hux]
    by_cases hm : u ∈ g.adj x
    · rw [if_pos hm]
      exact mem_setErase_of_mem hmem hwx
    · rw [if_neg hm]
      exact hmem
  · show w ∈ (g.removeVertex x).adjacent.getD u []
    rw [adjacent_removeVertex_oob g x (by omega)]
    exact hmem

/-- Through a fold of `remove_vertex` over pairwise distinct, present
vertices, the invariant is preserved and edges between surviving vertices
survive. -/
theorem foldRemove_WF_keep : ∀ (l : List Nat) (h : Graph), h.WF → l.Nodup →
    (∀ x ∈ l, h.hasVertex x) →
    (l.foldl (fun a w => a.removeVertex w) h).WF ∧
    (∀ u w, (l.foldl (fun a w => a.removeVertex w) h).hasVertex u →
      (l.foldl (fun a w => a.removeVertex w) h).hasVertex w →
      w ∈ h.adj u → w ∈ (l.foldl (fun a w => a.removeVertex w) h).adj u)
  | [], h, hwf, _, _ => ⟨hwf, fun _ _ _ _ hm => hm⟩
  | x :: xs, h, hwf, hnd, hpr => by
    rcases List.nodup_cons.1 hnd with ⟨hx, hxs⟩
    have hpx : h.hasVertex x := hpr x (List.mem_cons_self x xs)
    have hxr : x < h.adjacent.length := by
      rw [hwf.hlen]; exact hasVertex_lt_length hpx
    have hwf1 : (h.removeVertex x).WF := WF_removeVertex h hwf x hxr hpx
    have hpr1 : ∀ y ∈ xs, (h.removeVertex x).hasVertex y := by
      intro y hy
      exact hasVertex_removeVertex_of_ne (fun hc => hx (hc ▸ hy))
        (hpr y (List.mem_cons_of_mem x hy))
    obtain ⟨hwff, hkeep⟩ := foldRemove_WF_keep xs (h.removeVertex x) hwf1 hxs hpr1
    refine ⟨hwff, ?_⟩
    intro u w hu hw hmem
    exact hkeep u w hu hw
      (mem_adj_removeVertex hwf (hasVertex_of_foldRemove (l := xs) hu)
        (hasVertex_of_foldRemove (l := xs) hw) hmem)

theorem removeClosed_WF_keep (h : Graph) (hwf : h.WF) (v : Nat) (hv : h.hasVertex v) :
    (removeClosed h v).WF ∧
    (∀ u w, (removeClosed h v).hasVertex u → (removeClosed h v).hasVertex w →
      w ∈ h.adj u → w ∈ (removeClosed h v).adj u) := by
  have hvr : v < h.adjacent.length := by
    rw [hwf.hlen]; exact hasVertex_lt_length hv
  have hwf1 : (h.removeVertex v).WF := WF_removeVertex h hwf v hvr hv
  have hnd : (h.adj v).Nodup := (hwf.hsort v).nodup
  have hpr1 : ∀ y ∈ h.adj v, (h.removeVertex v).hasVertex y := by
    intro y hy
    exact hasVertex_removeVertex_of_ne
      (fun hc => hwf.hirr v (hc ▸ hy)) (hwf.hpres v y hy).2
  obtain ⟨hwff, hkeep⟩ := foldRemove_WF_keep (h.adj v) (h.removeVertex v) hwf1 hnd hpr1
  refine ⟨hwff, ?_⟩
  intro u w hu hw hmem
  exact hkeep u w hu hw
    (mem_adj_removeVertex hwf (hasVertex_of_foldRemove (l := h.adj v) hu)
      (hasVertex_of_foldRemove (l := h.adj v) hw) hmem)

theorem scanRemove_picks_present : ∀ (order : List Nat) (h : Graph),
    ∀ b ∈ (scanRemove h order).1, h.hasVertex b
  | [], _, b, hb => absurd hb (List.not_mem_nil b)
  | v :: vs, h, b, hb => by
    unfold scanRemove at hb
    by_cases hpv : h.hasVertex v
    · rw [if_pos hpv] at hb
      rcases List.mem_cons.1 hb with rfl | hb
      · exact hpv
      · exact hasVertex_of_removeClosed
          (scanRemove_picks_present vs (removeClosed h v) b hb)
    · rw [if_neg hpv] at hb
      exact scanRemove_picks_present vs h b hb

/-- Core independence lemma: whatever the scan order, if edges of the
reference graph `g0` between vertices still present in `h` are present in
`h`, then the selected vertices are pairwise non-adjacent in `g0`. -/
theorem scanRemove_indep : ∀ (order : List Nat) (h g0 : Graph), h.WF →
    (∀ u w, h.hasVertex u → h.hasVertex w → w ∈ g0.adj u → w ∈ h.adj u) →
    List.Pairwise (fun a b => b ∉ g0.adj a) (scanRemove h order).1
  | [], _, _, _, _ => List.Pairwise.nil
  | v :: vs, h, g0, hwf, hkeep => by
    unfold scanRemove
    by_cases hpv : h.hasVertex v
    · rw [if_pos hpv]
      obtain ⟨hwf1, hkeep1⟩ := removeClosed_WF_keep h hwf v hpv
      have hkeep0 : ∀ u w, (removeClosed h v).hasVertex u →
          (removeClosed h v).hasVertex w → w ∈ g0.adj u → w ∈ (removeClosed h v).adj u := by
        intro u w hu hw hmem
        exact hkeep1 u w hu hw
          (hkeep u w (hasVertex_of_removeClosed hu) (hasVertex_of_removeClosed hw) hmem)
      refine List.Pairwise.cons ?_ (scanRemove_indep vs (removeClosed h v) g0 hwf1 hkeep0)
      intro b hb hcon
      have hbp : (removeClosed h v).hasVertex b :=
        scanRemove_picks_present vs (removeClosed h v) b hb
      have hbh : h.hasVertex b := hasVertex_of_removeClosed hbp
      have : b ∈ h.adj v := hkeep v b hpv hbh hcon
      exact removeClosed_kills (Or.inr this) hbp
    · rw [if_neg hpv]
      exact scanRemove_indep vs h g0 hwf hkeep

end CutGraph

namespace CutGraph

theorem gwminLe_iff (g : Graph) (v w : Nat) :
    gwminLe g v w ↔ gwminValue g w < gwminValue g v ∨
      (gwminValue g w = gwminValue g v ∧ g.degree w ≤ g.degree v) := by
  unfold gwminLe gwminLt
  constructor
  · intro h
    push_neg at h
    obtain ⟨h1, h2⟩ := h
    rcases lt_or_eq_of_le h1 with h | h
    · exact Or.inl h
    · exact Or.inr ⟨h, h2 h⟩
  · intro h
    push_neg
    rcases h with h | ⟨h1, h2⟩
    · exact ⟨le_of_lt h, fun hc => absurd (hc ▸ h) (lt_irrefl _)⟩
    · exact ⟨le_of_eq h1, fun _ => h2⟩

theorem value_le_of_gwminLe {g : Graph} {v w : Nat} (h : gwminLe g v w) :
    gwminValue g w ≤ gwminValue g v := by
  rcases (gwminLe_iff g v w).1 h with h | ⟨h, _⟩
  · exact le_of_lt h
  · exact le_of_eq h

instance (g : Graph) : IsTotal Nat (gwminLe g) := by
  constructor
  intro a b
  rw [gwminLe_iff, gwminLe_iff]
  rcases lt_trichotomy (gwminValue g a) (gwminValue g b) with h | h | h
  · right; exact Or.inl h
  · rcases Nat.le_total (g.degree b) (g.degree a) with hd | hd
    · left; exact Or.inr ⟨h.symm, hd⟩
    · right; exact Or.inr ⟨h, hd⟩
  · left; exact Or.inl h

instance (g : Graph) : IsTrans Nat (gwminLe g) := by
  constructor
  intro a b c hab hbc
  rw [gwminLe_iff] at hab hbc ⊢
  rcases hab with h1 | ⟨h1, h1d⟩ <;> rcases hbc with h2 | ⟨h2, h2d⟩
  · exact Or.inl (lt_trans h2 h1)
  · exact Or.inl (h2 ▸ h1)
  · exact Or.inl (h1 ▸ h2)
  · exact Or.inr ⟨h2.trans h1, le_trans h2d h1d⟩

theorem gwminOrder_sorted (g : Graph) : (gwminOrder g).Sorted (gwminLe g) :=
  List.sorted_insertionSort (gwminLe g) (List.range g.numVertices)

theorem mem_gwminOrder (g : Graph) (u : Nat) (hu : u < g.numVertices) :
    u ∈ gwminOrder g :=
  (List.perm_insertionSort (gwminLe g) (List.range g.numVertices)).mem_iff.2
    (List.mem_range.2 hu)

/-- Whatever graph the scan runs on, if the scan order is sorted by
non-increasing initial gwmin value and contains every present vertex, then
every selected vertex maximizes the initial gwmin value among the vertices
still present when it is selected. -/
theorem scanRemove_max (g0 : Graph) : ∀ (order : List Nat) (h : Graph),
    order.Sorted (gwminLe g0) →
    (∀ u, h.hasVertex u → u ∈ order) →
    ∀ k, k < (scanRemove h order).1.length →
    ∀ u, (((scanRemove h order).1.take k).foldl removeClosed h).hasVertex u →
      gwminValue g0 u ≤ gwminValue g0 ((scanRemove h order).1.getD k 0)
  | [], h, _, _, k, hk, u, hu => by
    simp [scanRemove] at hk
  | v :: vs, h, hsorted, hsub, k, hk, u, hu => by
    rcases List.sorted_cons.1 hsorted with ⟨hhead, htail⟩
    unfold scanRemove at hk hu ⊢
    by_cases hpv : h.hasVertex v
    · rw [if_pos hpv] at hk hu ⊢
      cases k with
      | zero =>
        simp only [List.take_zero, List.foldl_nil] at hu
        simp only [List.getD_cons_zero]
        rcases List.mem_cons.1 (hsub u hu) with rfl | humem
        · exact le_refl _
        · exact value_le_of_gwminLe (hhead u humem)
      | succ j =>
        simp only [List.take_succ_cons, List.foldl_cons, List.getD_cons_succ] at hu ⊢
        refine scanRemove_max g0 vs (removeClosed h v) htail ?_ j ?_ u hu
        · intro x hx
          have hxh : h.hasVertex x := hasVertex_of_removeClosed hx
          rcases List.mem_cons.1 (hsub x hxh) with rfl | hxmem
          · exact absurd hx (removeClosed_kills (Or.inl rfl))
          · exact hxmem
        · simpa using hk
    · rw [if_neg hpv] at hk hu ⊢
      refine scanRemove_max g0 vs h htail ?_ k hk u hu
      intro x hx
      rcases List.mem_cons.1 (hsub x hx) with rfl | hxmem
      · exact absurd hx hpv
      · exact hxmem

end CutGraph

namespace CutGraph

/-- The property claim C5 states: each successively selected vertex of the
GWMIN selector maximizes `weight / (degree + 1)` (computed on the graph as
it stands after the earlier removals) among the vertices still present at
its selection.  The graph state before the `k`-th selection is the fold of
closed-neighborhood removals of the earlier selections. -/
def GwminClaimHolds (g : Graph) : Prop :=
  ∀ k, k < (maximum_weighted_independent_set_gwmin g).1.length →
    ∀ u, u < g.weights.length →
      (((maximum_weighted_independent_set_gwmin g).1.take k).foldl removeClosed g).hasVertex u →
      gwminValue (((maximum_weighted_independent_set_gwmin g).1.take k).foldl removeClosed g) u ≤
        gwminValue (((maximum_weighted_independent_set_gwmin g).1.take k).foldl removeClosed g)
          ((maximum_weighted_independent_set_gwmin g).1.getD k 0)

instance (g : Graph) : Decidable (GwminClaimHolds g) := by
  unfold GwminClaimHolds; infer_instance

/-- A five-vertex conflict graph on which the stale sorted order of the
GWMIN implementation disagrees with the claimed always-current maximization:
weights 10, 2, 6, 4, 1 with edges 0-1, 1-2, 1-4 (all gwmin values are dyadic
rationals, so `double` division is exact on them). -/
def gwminExample : Graph :=
  Graph.init.runOps
    [GOp.addV 10, GOp.addV 2, GOp.addV 6, GOp.addV 4, GOp.addV 1,
      GOp.addE 0 1, GOp.addE 1 2, GOp.addE 1 4]

end CutGraph

/-- Claim C5 as stated is false: on `gwminExample` the selector picks
vertex 0 (initial value 5), removing its neighbor 1; the second pick is
vertex 3 (value 4), although vertex 2 is still present and, in the graph as
it stands after the first removal, has value 6/1 = 6 > 4 — the code sorts by
the values of the original graph once and never re-evaluates them. -/
theorem C5_gwmin_counterexample :
    (CutGraph.maximum_weighted_independent_set_gwmin CutGraph.gwminExample).1
        = [0, 3, 2, 4] ∧
    ¬ CutGraph.GwminClaimHolds CutGraph.gwminExample := by
  constructor
  · decide
  · decide

/-- Claim C5 (amended): the GWMIN selector computes each vertex's
`weight / (degree + 1)` once, on the initial graph, sorts the vertices by
this value in decreasing order (ties towards higher degree, stably), and
scans that fixed order, selecting every vertex still present and removing it
together with its current neighbors; consequently each successively selected
vertex maximizes the INITIAL (not current) `weight / (degree + 1)` among the
vertices still present at its selection. -/
theorem C5_gwmin_selection (g : CutGraph.Graph) (hwf : g.WF)
    (hfresh : g.weights.length = g.numVertices) :
    ∀ k, k < (CutGraph.maximum_weighted_independent_set_gwmin g).1.length →
    ∀ u, (((CutGraph.maximum_weighted_independent_set_gwmin g).1.take k).foldl
        CutGraph.removeClosed g).hasVertex u →
      CutGraph.gwminValue g u ≤
        CutGraph.gwminValue g
          ((CutGraph.maximum_weighted_independent_set_gwmin g).1.getD k 0) := by
  intro k hk u hu
  refine CutGraph.scanRemove_max g (CutGraph.gwminOrder g) g
    (CutGraph.gwminOrder_sorted g) ?_ k hk u hu
  intro x hx
  refine CutGraph.mem_gwminOrder g x ?_
  rw [← hfresh]
  exact CutGraph.hasVertex_lt_length hx

theorem C5_gwmin_selection_witness :
    CutGraph.gwminValue CutGraph.gwminExample 2 ≤
      CutGraph.gwminValue CutGraph.gwminExample
        ((CutGraph.maximum_weighted_independent_set_gwmin CutGraph.gwminExample).1.getD 1 0) :=
  C5_gwmin_selection CutGraph.gwminExample
    (CutGraph.WF_runOps _ _ CutGraph.WF_init (by decide)) (by decide) 1 (by decide) 2 (by decide)

namespace CutGraph

/-! ### Conflict-graph construction (`network_cuts_graph`, cut_rewriting.hpp 594-663)

A retained candidate is a pair of its gain (the vertex weight passed to
`add_vertex`) and the list of internal nodes enumerated by its cut view
(`cut_view<Ntk>::foreach_gate`; cut_view.hpp is not among the sources, so the
touched-node list is carried as data).  Vertex `i` of the graph is candidate
`i` — the source keeps the same correspondence in `vertex_to_cut_addr`.  For
every network node, every pair of distinct candidates touching it gets an
edge (the double loop over `conflicts[n]`). -/

/-- Add an edge between every pair of elements of `l`. -/
def addPairs : Graph → List Nat → Graph
  | g, [] => g
  | g, x :: xs => addPairs (xs.foldl (fun h y => h.addEdge x y) g) xs

/-- The candidates touching node `m`, in vertex order (= `conflicts[m]`). -/
def vertsTouching (cands : List (Nat × List Nat)) (m : Nat) : List Nat :=
  (List.range cands.length).filter (fun i => decide (m ∈ (cands.getD i (0, [])).2))

/-- `network_cuts_graph`: one vertex per retained candidate (weight = the
candidate's gain), one edge per pair of distinct candidates that touch a
common internal node. -/
def network_cuts_graph (cands : List (Nat × List Nat)) (numNodes : Nat) : Graph :=
  (List.range numNodes).foldl (fun g m => addPairs g (vertsTouching cands m))
    (cands.foldl (fun g c => (g.addVertex c.1).2) Graph.init)

/-- Every vertex below the weight-table size is present. -/
def AllPresent (g : Graph) : Prop := ∀ v, v < g.weights.length → g.hasVertex v

theorem hasVertex_addVertex_new (g : Graph) (w : Nat) (hw : w < 2 ^ 31) :
    (g.addVertex w).2.hasVertex g.weights.length := by
  unfold Graph.hasVertex
  rw [weight_addVertex, if_pos rfl]
  unfold int32OfUInt32
  rw [if_pos (by omega)]
  positivity

theorem addVerts_props : ∀ (cs : List (Nat × List Nat)) (g : Graph), g.WF →
    (∀ c ∈ cs, c.1 < 2 ^ 31) → AllPresent g →
    (cs.foldl (fun g c => (g.addVertex c.1).2) g).WF ∧
    (cs.foldl (fun g c => (g.addVertex c.1).2) g).weights.length
      = g.weights.length + cs.length ∧
    AllPresent (cs.foldl (fun g c => (g.addVertex c.1).2) g)
  | [], g, hwf, _, hap => ⟨hwf, by simp, hap⟩
  | c :: cs, g, hwf, hws, hap => by
    have hc : c.1 < 2 ^ 31 := hws c (List.mem_cons_self c cs)
    have hwf1 : (g.addVertex c.1).2.WF := WF_addVertex g hwf c.1 hc
    have hlen1 : (g.addVertex c.1).2.weights.length = g.weights.length + 1 := by
      show (g.weights ++ [int32OfUInt32 c.1]).length = _
      simp
    have hap1 : AllPresent (g.addVertex c.1).2 := by
      intro v hv
      rw [hlen1] at hv
      rcases Nat.lt_or_ge v g.weights.length with h | h
      · rw [hasVertex_addVertex g hwf c.1 v (by rw [hwf.hlen]; exact h)]
        exact hap v h
      · have : v = g.weights.length := by omega
        rw [this]
        exact hasVertex_addVertex_new g c.1 hc
    obtain ⟨h1, h2, h3⟩ := addVerts_props cs (g.addVertex c.1).2 hwf1
      (fun d hd => hws d (List.mem_cons_of_mem c hd)) hap1
    refine ⟨h1, ?_, h3⟩
    rw [List.foldl_cons, h2, hlen1, List.length_cons]
    omega

theorem length_adjacent_addEdge (g : Graph) (a b : Nat) :
    (g.addEdge a b).adjacent.length = g.adjacent.length := by
  unfold Graph.addEdge
  by_cases h1 : a = b
  · rw [if_pos h1]
  · rw [if_neg h1]
    by_cases h2 : b ∈ g.adj a
    · rw [if_pos h2]
    · rw [if_neg h2]
      simp

theorem getD_set_superset (l : List (List Nat)) (i : Nat) (a : List Nat)
    (h : ∀ x, x ∈ l.getD i [] → x ∈ a) (u x : Nat) (hx : x ∈ l.getD u []) :
    x ∈ (l.set i a).getD u [] := by
  by_cases hui : u = i
  · subst hui
    by_cases hr : u < l.length
    · rw [getD_set_self _ _ _ _ hr]
      exact h x hx
    · rw [List.set_eq_of_length_le (by omega)]
      exact hx
  · rw [getD_set_ne _ _ _ _ _ (fun hc => hui hc.symm)]
    exact hx

theorem mem_adj_addEdge_mono (g : Graph) (a b u w : Nat) (h : w ∈ g.adj u) :
    w ∈ (g.addEdge a b).adj u := by
  unfold Graph.addEdge
  by_cases h1 : a = b
  · rw [if_pos h1]; exact h
  · rw [if_neg h1]
    by_cases h2 : b ∈ g.adj a
    · rw [if_pos h2]; exact h
    · rw [if_neg h2]
      show w ∈ ((g.adjacent.set a (setInsert b (g.adj a))).set b _).getD u []
      refine getD_set_superset _ _ _ (fun x hx => mem_setInsert.2 (Or.inr hx)) u w ?_
      refine getD_set_superset _ _ _ (fun x hx => mem_setInsert.2 (Or.inr hx)) u w h

theorem mem_adj_foldAddEdge_mono (z u w : Nat) : ∀ (ys : List Nat) (g : Graph),
    w ∈ g.adj u → w ∈ ((ys.foldl (fun h y => h.addEdge z y) g).adj u)
  | [], _, h => h
  | y :: ys, g, h =>
    mem_adj_foldAddEdge_mono z u w ys (g.addEdge z y) (mem_adj_addEdge_mono g z y u w h)

theorem mem_adj_addPairs_mono (u w : Nat) : ∀ (l : List Nat) (g : Graph),
    w ∈ g.adj u → w ∈ ((addPairs g l).adj u)
  | [], _, h => h
  | z :: zs, g, h =>
    mem_adj_addPairs_mono u w zs _ (mem_adj_foldAddEdge_mono z u w zs g h)

theorem mem_adj_nodesFold_mono (cands : List (Nat × List Nat)) (u w : Nat) :
    ∀ (ms : List Nat) (g : Graph), w ∈ g.adj u →
    w ∈ ((ms.foldl (fun g m => addPairs g (vertsTouching cands m)) g).adj u)
  | [], _, h => h
  | m :: ms, g, h =>
    mem_adj_nodesFold_mono cands u w ms _ (mem_adj_addPairs_mono u w _ g h)

theorem mem_adj_addEdge_self (g : Graph) (hwf : g.WF) (a b : Nat)
    (ha : a < g.adjacent.length) (hb : b < g.adjacent.length) (hne : a ≠ b) :
    b ∈ (g.addEdge a b).adj a ∧ a ∈ (g.addEdge a b).adj b := by
  by_cases hm : b ∈ g.adj a
  · rw [addEdge_of_mem g a b hm]
    exact ⟨hm, hwf.hsym a b hm⟩
  · rw [adj_addEdge g a b hne hm ha hb a, adj_addEdge g a b hne hm ha hb b,
      if_pos rfl, if_neg (fun hc => hne hc.symm), if_pos rfl]
    exact ⟨mem_setInsert.2 (Or.inl rfl), mem_setInsert.2 (Or.inl rfl)⟩

theorem WF_addEdge_ap (g : Graph) (hwf : g.WF) (hap : AllPresent g) (a b : Nat)
    (ha : a < g.adjacent.length) (hb : b < g.adjacent.length) :
    (g.addEdge a b).WF ∧ AllPresent (g.addEdge a b) ∧
      (g.addEdge a b).adjacent.length = g.adjacent.length := by
  have hpa : g.hasVertex a := hap a (by rw [← hwf.hlen]; exact ha)
  have hpb : g.hasVertex b := hap b (by rw [← hwf.hlen]; exact hb)
  refine ⟨WF_addEdge g hwf a b ha hb hpa hpb, ?_, length_adjacent_addEdge g a b⟩
  intro v hv
  rw [hasVertex_addEdge]
  refine hap v ?_
  rw [weights_addEdge] at hv
  exact hv

theorem foldAddEdge_step : ∀ (ys : List Nat) (g : Graph) (z : Nat), g.WF →
    AllPresent g → z < g.adjacent.length → (∀ y ∈ ys, y < g.adjacent.length) →
    (ys.foldl (fun h y => h.addEdge z y) g).WF ∧
    AllPresent (ys.foldl (fun h y => h.addEdge z y) g) ∧
    (ys.foldl (fun h y => h.addEdge z y) g).adjacent.length = g.adjacent.length ∧
    (∀ b ∈ ys, z ≠ b →
      b ∈ (ys.foldl (fun h y => h.addEdge z y) g).adj z ∧
      z ∈ (ys.foldl (fun h y => h.addEdge z y) g).adj b)
  | [], g, z, hwf, hap, _, _ => ⟨hwf, hap, rfl, fun b hb => absurd hb (List.not_mem_nil b)⟩
  | y :: ys, g, z, hwf, hap, hz, hys => by
    have hy : y < g.adjacent.length := hys y (List.mem_cons_self y ys)
    obtain ⟨hwf1, hap1, hlen1⟩ := WF_addEdge_ap g hwf hap z y hz hy
    obtain ⟨h1, h2, h3, h4⟩ := foldAddEdge_step ys (g.addEdge z y) z hwf1 hap1
      (by rw [hlen1]; exact hz)
      (fun b hb => by rw [hlen1]; exact hys b (List.mem_cons_of_mem y hb))
    refine ⟨h1, h2, by rw [List.foldl_cons, h3, hlen1], ?_⟩
    intro b hb hneb
    rcases List.mem_cons.1 hb with rfl | hbmem
    · by_cases hbys : b ∈ ys
      · exact h4 b hbys hneb
      · obtain ⟨m1, m2⟩ := mem_adj_addEdge_self g hwf z b hz hy hneb
        exact ⟨mem_adj_foldAddEdge_mono z z b ys _ m1,
          mem_adj_foldAddEdge_mono z b z ys _ m2⟩
    · exact h4 b hbmem hneb

theorem addPairs_step : ∀ (l : List Nat) (g : Graph), g.WF → AllPresent g →
    (∀ x ∈ l, x < g.adjacent.length) →
    (addPairs g l).WF ∧ AllPresent (addPairs g l) ∧
    (addPairs g l).adjacent.length = g.adjacent.length ∧
    (∀ a b, a ∈ l → b ∈ l → a ≠ b → b ∈ (addPairs g l).adj a)
  | [], g, hwf, hap, _ => ⟨hwf, hap, rfl, by intro a b ha; exact absurd ha (List.not_mem_nil a)⟩
  | z :: zs, g, hwf, hap, hl => by
    have hz : z < g.adjacent.length := hl z (List.mem_cons_self z zs)
    obtain ⟨hwf1, hap1, hlen1, hhits⟩ := foldAddEdge_step zs g z hwf hap hz
      (fun y hy => hl y (List.mem_cons_of_mem z hy))
    obtain ⟨h1, h2, h3, h4⟩ := addPairs_step zs (zs.foldl (fun h y => h.addEdge z y) g)
      hwf1 hap1 (fun x hx => by rw [hlen1]; exact hl x (List.mem_cons_of_mem z hx))
    refine ⟨h1, h2, by
      show (addPairs (zs.foldl (fun h y => h.addEdge z y) g) zs).adjacent.length = _
      rw [h3, hlen1], ?_⟩
    intro a b haz hbz hne
    rcases List.mem_cons.1 haz with rfl | hamem
    · rcases List.mem_cons.1 hbz with rfl | hbmem
      · exact absurd rfl hne
      · exact mem_adj_addPairs_mono a b zs _ (hhits b hbmem hne).1
    · rcases List.mem_cons.1 hbz with rfl | hbmem
      · exact mem_adj_addPairs_mono a b zs _ (hhits a hamem (fun hc => hne hc.symm)).2
      · exact h4 a b hamem hbmem hne

theorem mem_vertsTouching (cands : List (Nat × List Nat)) (m i : Nat) :
    i ∈ vertsTouching cands m ↔ i < cands.length ∧ m ∈ (cands.getD i (0, [])).2 := by
  unfold vertsTouching
  simp [List.mem_filter]

theorem nodesFold_step : ∀ (ms : List Nat) (g : Graph)
    (cands : List (Nat × List Nat)), g.WF → AllPresent g →
    cands.length ≤ g.adjacent.length →
    (ms.foldl (fun g m => addPairs g (vertsTouching cands m)) g).WF ∧
    AllPresent (ms.foldl (fun g m => addPairs g (vertsTouching cands m)) g) ∧
    (ms.foldl (fun g m => addPairs g (vertsTouching cands m)) g).adjacent.length
      = g.adjacent.length ∧
    (∀ m a b, m ∈ ms → a ∈ vertsTouching cands m → b ∈ vertsTouching cands m → a ≠ b →
      b ∈ ((ms.foldl (fun g m => addPairs g (vertsTouching cands m)) g).adj a))
  | [], g, cands, hwf, hap, _ =>
    ⟨hwf, hap, rfl, fun m a b hm => absurd hm (List.not_mem_nil m)⟩
  | m0 :: ms, g, cands, hwf, hap, hle => by
    have hbound : ∀ x ∈ vertsTouching cands m0, x < g.adjacent.length := by
      intro x hx
      have := ((mem_vertsTouching cands m0 x).1 hx).1
      omega
    obtain ⟨hwf1, hap1, hlen1, hhits⟩ := addPairs_step (vertsTouching cands m0) g hwf hap hbound
    obtain ⟨h1, h2, h3, h4⟩ := nodesFold_step ms (addPairs g (vertsTouching cands m0)) cands
      hwf1 hap1 (by rw [hlen1]; exact hle)
    refine ⟨h1, h2, by rw [List.foldl_cons, h3, hlen1], ?_⟩
    intro m a b hm ha hb hne
    rcases List.mem_cons.1 hm with rfl | hmmem
    · exact mem_adj_nodesFold_mono cands a b ms _ (hhits a b ha hb hne)
    · exact h4 m a b hmmem ha hb hne

theorem weights_foldAddEdge (z : Nat) : ∀ (ys : List Nat) (g : Graph),
    (ys.foldl (fun h y => h.addEdge z y) g).weights = g.weights
  | [], _ => rfl
  | y :: ys, g => by
    rw [List.foldl_cons, weights_foldAddEdge z ys, weights_addEdge]

theorem weights_addPairs : ∀ (l : List Nat) (g : Graph),
    (addPairs g l).weights = g.weights
  | [], _ => rfl
  | z :: zs, g => by
    show (addPairs (zs.foldl (fun h y => h.addEdge z y) g) zs).weights = _
    rw [weights_addPairs zs, weights_foldAddEdge]

theorem weights_nodesFold (cands : List (Nat × List Nat)) : ∀ (ms : List Nat) (g : Graph),
    (ms.foldl (fun g m => addPairs g (vertsTouching cands m)) g).weights = g.weights
  | [], _ => rfl
  | m :: ms, g => by
    rw [List.foldl_cons, weights_nodesFold cands ms, weights_addPairs]

theorem network_cuts_graph_spec (cands : List (Nat × List Nat)) (numNodes : Nat)
    (hw : ∀ c ∈ cands, c.1 < 2 ^ 31) :
    (network_cuts_graph cands numNodes).WF ∧
    (network_cuts_graph cands numNodes).weights.length = cands.length ∧
    (∀ m a b, m < numNodes → a ∈ vertsTouching cands m → b ∈ vertsTouching cands m →
      a ≠ b → b ∈ ((network_cuts_graph cands numNodes).adj a)) := by
  obtain ⟨hwf0, hlen0, hap0⟩ := addVerts_props cands Graph.init WF_init hw
    (by intro v hv; simp [Graph.init] at hv)
  have hlen0' : (cands.foldl (fun g c => (g.addVertex c.1).2) Graph.init).weights.length
      = cands.length := by
    rw [hlen0]; simp [Graph.init]
  obtain ⟨h1, h2, h3, h4⟩ := nodesFold_step (List.range numNodes)
    (cands.foldl (fun g c => (g.addVertex c.1).2) Graph.init) cands hwf0 hap0
    (by rw [hwf0.hlen, hlen0'])
  refine ⟨h1, ?_, ?_⟩
  · show (network_cuts_graph cands numNodes).weights.length = _
    unfold network_cuts_graph
    rw [weights_nodesFold]
    exact hlen0'
  · intro m a b hm ha hb hne
    exact h4 m a b (List.mem_range.2 hm) ha hb hne

end CutGraph

namespace CutGraph

theorem getD_mem {α : Type} (l : List α) (i : Nat) (d : α) (h : i < l.length) :
    l.getD i d ∈ l := by
  rw [List.getD_eq_getElem?_getD, List.getElem?_eq_getElem h]
  exact List.getElem_mem h

/-- Any scan order: selected candidates touch pairwise disjoint node sets. -/
theorem scan_disjoint_touch (cands : List (Nat × List Nat)) (numNodes : Nat)
    (hw : ∀ c ∈ cands, c.1 < 2 ^ 31)
    (ht : ∀ c ∈ cands, ∀ m ∈ c.2, m < numNodes) (order : List Nat) :
    ∀ u v, u ∈ (scanRemove (network_cuts_graph cands numNodes) order).1 →
      v ∈ (scanRemove (network_cuts_graph cands numNodes) order).1 → u ≠ v →
      ∀ m, m ∈ (cands.getD u (0, [])).2 → m ∉ (cands.getD v (0, [])).2 := by
  obtain ⟨hwf, hlen, hedge⟩ := network_cuts_graph_spec cands numNodes hw
  have hpw := scanRemove_indep order (network_cuts_graph cands numNodes)
    (network_cuts_graph cands numNodes) hwf (fun _ _ _ _ h => h)
  have hsymR : Symmetric (fun a b => b ∉ (network_cuts_graph cands numNodes).adj a) :=
    fun a b hab hcon => hab (hwf.hsym b a hcon)
  have hall := hpw.forall hsymR
  intro u v hu hv hne m hmu hmv
  have hup : u < cands.length := by
    have := hasVertex_lt_length (scanRemove_picks_present order _ u hu)
    omega
  have hvp : v < cands.length := by
    have := hasVertex_lt_length (scanRemove_picks_present order _ v hv)
    omega
  have hmn : m < numNodes := ht (cands.getD u (0, [])) (getD_mem cands u (0, []) hup) m hmu
  have hedg : v ∈ (network_cuts_graph cands numNodes).adj u :=
    hedge m u v hmn ((mem_vertsTouching cands m u).2 ⟨hup, hmu⟩)
      ((mem_vertsTouching cands m v).2 ⟨hvp, hmv⟩) hne
  exact hall hu hv hne hedg

end CutGraph

/-- Claim C6: under either candidate-selection strategy, any two distinct
candidates selected in the same batch touch disjoint sets of internal nodes
(the gates enumerated by each candidate's cut view); equivalently, the
returned vertex set is an independent set of the conflict graph built by
`network_cuts_graph`. -/
theorem C6_batch_disjoint (cands : List (Nat × List Nat)) (numNodes : Nat)
    (hw : ∀ c ∈ cands, c.1 < 2 ^ 31)
    (ht : ∀ c ∈ cands, ∀ m ∈ c.2, m < numNodes) :
    (∀ u v,
      u ∈ (CutGraph.maximum_weighted_independent_set_gwmin
            (CutGraph.network_cuts_graph cands numNodes)).1 →
      v ∈ (CutGraph.maximum_weighted_independent_set_gwmin
            (CutGraph.network_cuts_graph cands numNodes)).1 → u ≠ v →
      ∀ m, m ∈ (cands.getD u (0, [])).2 → m ∉ (cands.getD v (0, [])).2) ∧
    (∀ u v,
      u ∈ (CutGraph.maximal_weighted_independent_set
            (CutGraph.network_cuts_graph cands numNodes)).1 →
      v ∈ (CutGraph.maximal_weighted_independent_set
            (CutGraph.network_cuts_graph cands numNodes)).1 → u ≠ v →
      ∀ m, m ∈ (cands.getD u (0, [])).2 → m ∉ (cands.getD v (0, [])).2) :=
  ⟨CutGraph.scan_disjoint_touch cands numNodes hw ht
      (CutGraph.gwminOrder (CutGraph.network_cuts_graph cands numNodes)),
    CutGraph.scan_disjoint_touch cands numNodes hw ht
      (List.range (CutGraph.network_cuts_graph cands numNodes).numVertices)⟩

theorem C6_batch_disjoint_witness :
    (1 : Nat) ∉ (([((5 : Nat), [1, 2]), (3, [2, 3]), (4, [7])]).getD 2
        ((0 : Nat), ([] : List Nat))).2 :=
  (C6_batch_disjoint [(5, [1, 2]), (3, [2, 3]), (4, [7])] 8 (by decide) (by decide)).1
    0 2 (by decide) (by decide) (by decide) 1 (by decide)

/-! ## The k-LUT network (`klut_network`, klut.hpp)

A node stores its fanin list (`children`; a klut signal is a plain node
index, there is no complementation), the literal of its function in the
shared truth-table cache (`data[1].h1`) and its fan-out counter
(`data[0].h1`, a `uint32_t` modelled as `Nat`: the counting discipline is
the content of the claims and a 2^32-reference overflow cannot arise from a
node table addressable by `uint32_t` sizes).  The application-specific value
and visited fields (`data[0].h2`, `data[2].h2`) play no role in the claims
about this structure and are omitted. -/

namespace Klut

/-- A truth table: bit `j` is the function value on input assignment `j`. -/
abbrev TT := List Bool

def ttComplement (t : TT) : TT := t.map (fun b => !b)

/-- Modelled from the spec: the shared truth-table cache
(utils/truth_table_cache.hpp is not among the sources; the spec says small
functions are interned by value and nodes store an integer literal into the
cache).  The cache stores each function in canonical form, with the bit for
input assignment 0 cleared; a literal is twice the cache index plus the
complementation bit.  This reproduces the literals klut.hpp relies on:
0 and 1 for the constants, 2 for primary inputs, 3 for `create_not`,
4 for `create_and`. -/
def cacheCanon (t : TT) : TT × Bool :=
  if t.getD 0 false then (ttComplement t, true) else (t, false)

/-- `truth_table_cache::insert`: return the literal of the function,
extending the cache when the canonical form is new. -/
def cacheInsert (cache : List TT) (t : TT) : Nat × List TT :=
  let c := cacheCanon t
  match cache.findIdx? (fun x => x == c.1) with
  | some i => (2 * i + (if c.2 then 1 else 0), cache)
  | none => (2 * cache.length + (if c.2 then 1 else 0), cache ++ [c.1])

/-- `truth_table_cache::operator[]`: the function of a literal. -/
def cacheAt (cache : List TT) (lit : Nat) : TT :=
  let t := cache.getD (lit / 2) []
  if lit % 2 = 1 then ttComplement t else t

/-- One `klut_storage_node`. -/
structure KNode where
  children : List Nat
  fn : Nat
  fanout : Nat
deriving DecidableEq, Repr

instance : Inhabited KNode := ⟨⟨[], 0, 0⟩⟩

/-- The `klut_network` state: node table, primary inputs and outputs,
structural-hash index from `(children, function literal)` to node index
(`std::unordered_map` modelled as an association list with unique keys) and
the truth-table cache. -/
structure KlutNtk where
  nodes : List KNode
  inputs : List Nat
  outputs : List Nat
  hash : List ((List Nat × Nat) × Nat)
  cache : List TT
deriving DecidableEq, Repr

/-- A freshly constructed `klut_network`: the two constant nodes (function
literals 0 and 1) and the preloaded cache entries for the constant-0,
NOT and AND functions. -/
def klutInit : KlutNtk :=
  { nodes := [⟨[], 0, 0⟩, ⟨[], 1, 0⟩]
    inputs := []
    outputs := []
    hash := []
    cache := [[false], [false, true], [false, false, false, true]] }

/-- Increment a node's fan-out counter (`data[0].h1++`). -/
def bumpFanout (nodes : List KNode) (f : Nat) : List KNode :=
  nodes.set f { nodes.getD f default with fanout := (nodes.getD f default).fanout + 1 }

/-- `klut_network::create_pi`: appends a fresh node with function literal 2
and registers it as an input; returns its index. -/
def create_pi (n : KlutNtk) : Nat × KlutNtk :=
  (n.nodes.length,
    { n with nodes := n.nodes ++ [(⟨[], 2, 0⟩ : KNode)], inputs := n.inputs ++ [n.nodes.length] })

/-- `klut_network::create_po`: bumps the driver's fan-out counter and
registers the output. -/
def create_po (n : KlutNtk) (f : Nat) : KlutNtk :=
  { n with nodes := bumpFanout n.nodes f, outputs := n.outputs ++ [f] }

/-- `klut_network::_create_node`: structural-hash lookup of
`(children, literal)`; on a hit the existing index is returned unchanged, on
a miss the node is appended, registered in the hash, and each child's
fan-out counter is incremented (once per fanin slot). -/
def _create_node (n : KlutNtk) (children : List Nat) (literal : Nat) : Nat × KlutNtk :=
  match n.hash.lookup (children, literal) with
  | some idx => (idx, n)
  | none =>
    let index := n.nodes.length
    let nodes1 := n.nodes ++ [⟨children, literal, 0⟩]
    ( index,
      { n with
          nodes := children.foldl bumpFanout nodes1
          hash := n.hash ++ [((children, literal), index)] } )

/-- `klut_network::create_node`: intern the function, then `_create_node`. -/
def create_node (n : KlutNtk) (children : List Nat) (f : TT) : Nat × KlutNtk :=
  let p := cacheInsert n.cache f
  _create_node { n with cache := p.2 } children p.1

/-- `klut_network::clone_node`: re-create a node with the function of
`source` (a node of the network `src`) over new children. -/
def clone_node (dest : KlutNtk) (src : KlutNtk) (source : Nat) (children : List Nat) :
    Nat × KlutNtk :=
  create_node dest children (cacheAt src.cache (src.nodes.getD source default).fn)

/-- One node's fanin scan of `substitute_node`: walk the fanin slots left to
right; whenever a slot holds `o`, snapshot the current fanin list (earlier
slots already rewritten), then write `s` into the slot.  Returns the final
fanin list and the snapshots in slot order. -/
def substGo (o s : Nat) (pre : List Nat) : List Nat → List Nat × List (List Nat)
  | [] => (pre.reverse, [])
  | c :: rest =>
    if c = o then
      let p := substGo o s (s :: pre) rest
      (p.1, (pre.reverse ++ c :: rest) :: p.2)
    else
      let p := substGo o s (c :: pre) rest
      (p.1, p.2)

/-- Increment a fan-out counter `k` times. -/
def bumpFanoutN (nodes : List KNode) (f : Nat) : Nat → List KNode
  | 0 => nodes
  | k + 1 => bumpFanout (bumpFanoutN nodes f k) f

/-- The node loop of `substitute_node`: process node indices `i, i+1, ...`
(`rem` many); for each, rewrite its fanin slots (bumping `s`'s fan-out once
per rewritten slot) and emit one `on_modified` event per rewritten slot
carrying the snapshot fanin list. -/
def substPass (o s : Nat) : Nat → Nat → List KNode → List KNode × List (Nat × List Nat)
  | _, 0, nodes => (nodes, [])
  | i, rem + 1, nodes =>
    let nd := nodes.getD i default
    let p := substGo o s [] nd.children
    let nodes2 := bumpFanoutN (nodes.set i { nd with children := p.1 }) s p.2.length
    let q := substPass o s (i + 1) rem nodes2
    (q.1, p.2.map (fun l => (i, l)) ++ q.2)

/-- `klut_network::substitute_node` (klut.hpp, lines 668-707): rewrite every
fanin reference to `old_node` to `new_signal` (bumping `new_signal`'s
fan-out per reference and firing `on_modified` per reference), rewrite every
output reference likewise, and finally reset `old_node`'s fan-out counter to
zero.  Returns the new network and the `on_modified` event list. -/
def substitute_node (n : KlutNtk) (o s : Nat) : KlutNtk × List (Nat × List Nat) :=
  let p := substPass o s 0 n.nodes.length n.nodes
  let outCount := n.outputs.count o
  let nodes2 := bumpFanoutN p.1 s outCount
  let nodes3 := nodes2.set o { nodes2.getD o default with fanout := 0 }
  ( { n with
        nodes := nodes3
        outputs := n.outputs.map (fun f => if f = o then s else f) },
    p.2 )

end Klut

namespace Klut

theorem cache_create_node (m : KlutNtk) (c : List Nat) (l : Nat) :
    (_create_node m c l).2.cache = m.cache := by
  unfold _create_node
  cases m.hash.lookup (c, l) <;> rfl

theorem cacheInsert_idem (cache : List TT) (t : TT) :
    cacheInsert (cacheInsert cache t).2 t = cacheInsert cache t := by
  unfold cacheInsert
  rcases hf : cache.findIdx? (fun x => x == (cacheCanon t).1) with _ | i
  · simp only [hf, List.findIdx?_append, hf, Option.none_or]
    have h1 : List.findIdx? (fun x => x == (cacheCanon t).1) [(cacheCanon t).1] = some 0 := by
      simp [List.findIdx?]
    rw [h1]
    simp
  · simp only [hf]

theorem lookup_create_node (m : KlutNtk) (c : List Nat) (l : Nat) :
    (_create_node m c l).2.hash.lookup (c, l) = some (_create_node m c l).1 := by
  unfold _create_node
  rcases hl : m.hash.lookup (c, l) with _ | idx
  · simp only [hl, List.lookup_append, hl, Option.none_or]
    simp [List.lookup]
  · simp only [hl]

theorem cache_update_self (m : KlutNtk) (v : List TT) (h : m.cache = v) :
    { m with cache := v } = m := by
  cases m
  cases h
  rfl

theorem _create_node_second (m : KlutNtk) (c : List Nat) (l : Nat) :
    _create_node (_create_node m c l).2 c l
      = ((_create_node m c l).1, (_create_node m c l).2) := by
  have hl := lookup_create_node m c l
  generalize hr : _create_node m c l = r at hl ⊢
  unfold _create_node
  rw [hl]

theorem create_node_second (n : KlutNtk) (c : List Nat) (f : TT) :
    create_node (create_node n c f).2 c f = create_node n c f := by
  show (let p := cacheInsert (create_node n c f).2.cache f;
    _create_node { (create_node n c f).2 with cache := p.2 } c p.1) = create_node n c f
  have hcc : (create_node n c f).2.cache = (cacheInsert n.cache f).2 :=
    cache_create_node { n with cache := (cacheInsert n.cache f).2 } c (cacheInsert n.cache f).1
  simp only [hcc, cacheInsert_idem]
  rw [cache_update_self _ _ hcc]
  show _create_node
      (_create_node { n with cache := (cacheInsert n.cache f).2 } c (cacheInsert n.cache f).1).2
      c (cacheInsert n.cache f).1
    = _create_node { n with cache := (cacheInsert n.cache f).2 } c (cacheInsert n.cache f).1
  rw [_create_node_second]

end Klut

/-- Claim C3: calling `create_node` twice with an identical children list
and function returns the same signal both times, and the network's size does
not increase on the second call. -/
theorem C3_create_node_dedup (n : Klut.KlutNtk) (c : List Nat) (f : Klut.TT) :
    (Klut.create_node (Klut.create_node n c f).2 c f).1 = (Klut.create_node n c f).1 ∧
    (Klut.create_node (Klut.create_node n c f).2 c f).2.nodes.length
      = (Klut.create_node n c f).2.nodes.length := by
  rw [Klut.create_node_second]
  exact ⟨rfl, rfl⟩

namespace Klut

/-- Replace every occurrence of `o` by `s`. -/
def replaceList (o s : Nat) (l : List Nat) : List Nat :=
  l.map (fun c => if c = o then s else c)

/-- Replace the first `k` occurrences of `o` by `s`. -/
def replaceFirstK (o s : Nat) : Nat → List Nat → List Nat
  | _, [] => []
  | 0, l => l
  | k + 1, c :: rest =>
    if c = o then s :: replaceFirstK o s k rest else c :: replaceFirstK o s (k + 1) rest

/-- The number of fanin references to `o` among nodes `i, ..., i+rem-1`. -/
def oRefs (o : Nat) (nodes : List KNode) : Nat → Nat → Nat
  | _, 0 => 0
  | i, rem + 1 => (nodes.getD i default).children.count o + oRefs o nodes (i + 1) rem

/-- The `on_modified` events fired while processing nodes `i, ..., i+rem-1`:
one per fanin reference to `o`, the `k`-th event of node `i` carrying node
`i`'s fanin list with its first `k` references already rewritten. -/
def eventsSpec (o s : Nat) (nodes : List KNode) : Nat → Nat → List (Nat × List Nat)
  | _, 0 => []
  | i, rem + 1 =>
    (List.range ((nodes.getD i default).children.count o)).map
      (fun k => (i, replaceFirstK o s k (nodes.getD i default).children))
    ++ eventsSpec o s nodes (i + 1) rem

theorem length_bumpFanout (nodes : List KNode) (f : Nat) :
    (bumpFanout nodes f).length = nodes.length := by
  simp [bumpFanout]

theorem length_bumpFanoutN (nodes : List KNode) (f : Nat) :
    ∀ k, (bumpFanoutN nodes f k).length = nodes.length
  | 0 => rfl
  | k + 1 => by
    show (bumpFanout (bumpFanoutN nodes f k) f).length = _
    rw [length_bumpFanout, length_bumpFanoutN nodes f k]

theorem getD_bumpFanout_children (nodes : List KNode) (f j : Nat) :
    ((bumpFanout nodes f).getD j default).children = (nodes.getD j default).children := by
  unfold bumpFanout
  by_cases hj : j = f
  · subst hj
    by_cases hr : j < nodes.length
    · rw [CutGraph.getD_set_self _ _ _ _ hr]
    · rw [List.set_eq_of_length_le (by omega)]
  · rw [CutGraph.getD_set_ne _ _ _ _ _ (fun hc => hj hc.symm)]

theorem getD_bumpFanout_fn (nodes : List KNode) (f j : Nat) :
    ((bumpFanout nodes f).getD j default).fn = (nodes.getD j default).fn := by
  unfold bumpFanout
  by_cases hj : j = f
  · subst hj
    by_cases hr : j < nodes.length
    · rw [CutGraph.getD_set_self _ _ _ _ hr]
    · rw [List.set_eq_of_length_le (by omega)]
  · rw [CutGraph.getD_set_ne _ _ _ _ _ (fun hc => hj hc.symm)]

theorem getD_bumpFanout_fanout (nodes : List KNode) (f j : Nat) :
    ((bumpFanout nodes f).getD j default).fanout
      = (nodes.getD j default).fanout + (if j = f ∧ f < nodes.length then 1 else 0) := by
  unfold bumpFanout
  by_cases hj : j = f
  · subst hj
    by_cases hr : j < nodes.length
    · rw [CutGraph.getD_set_self _ _ _ _ hr, if_pos ⟨rfl, hr⟩]
    · rw [List.set_eq_of_length_le (by omega), if_neg (fun hc => by omega)]
      omega
  · rw [CutGraph.getD_set_ne _ _ _ _ _ (fun hc => hj hc.symm),
      if_neg (fun hc => hj hc.1)]
    omega

theorem getD_bumpFanoutN_children (nodes : List KNode) (f j : Nat) :
    ∀ k, ((bumpFanoutN nodes f k).getD j default).children
      = (nodes.getD j default).children
  | 0 => rfl
  | k + 1 => by
    show ((bumpFanout (bumpFanoutN nodes f k) f).getD j default).children = _
    rw [getD_bumpFanout_children, getD_bumpFanoutN_children nodes f j k]

theorem getD_bumpFanoutN_fn (nodes : List KNode) (f j : Nat) :
    ∀ k, ((bumpFanoutN nodes f k).getD j default).fn = (nodes.getD j default).fn
  | 0 => rfl
  | k + 1 => by
    show ((bumpFanout (bumpFanoutN nodes f k) f).getD j default).fn = _
    rw [getD_bumpFanout_fn, getD_bumpFanoutN_fn nodes f j k]

theorem getD_bumpFanoutN_fanout (nodes : List KNode) (f j : Nat) :
    ∀ k, ((bumpFanoutN nodes f k).getD j default).fanout
      = (nodes.getD j default).fanout + (if j = f ∧ f < nodes.length then k else 0)
  | 0 => by simp [bumpFanoutN]
  | k + 1 => by
    show ((bumpFanout (bumpFanoutN nodes f k) f).getD j default).fanout = _
    rw [getD_bumpFanout_fanout, getD_bumpFanoutN_fanout nodes f j k,
      length_bumpFanoutN nodes f k]
    by_cases hj : j = f ∧ f < nodes.length
    · rw [if_pos hj, if_pos hj, if_pos hj]
      omega
    · rw [if_neg hj, if_neg hj, if_neg hj]

theorem substGo_fst (o s : Nat) : ∀ (rest pre : List Nat),
    (substGo o s pre rest).1 = pre.reverse ++ replaceList o s rest
  | [], pre => by simp [substGo, replaceList]
  | c :: rest, pre => by
    unfold substGo
    by_cases hc : c = o
    · rw [if_pos hc, substGo_fst o s rest (s :: pre)]
      simp [replaceList, hc]
    · rw [if_neg hc, substGo_fst o s rest (c :: pre)]
      simp [replaceList, hc]

theorem replaceFirstK_zero (o s : Nat) : ∀ l, replaceFirstK o s 0 l = l
  | [] => by simp [replaceFirstK]
  | c :: rest => by simp [replaceFirstK]

theorem replaceFirstK_succ_cons_eq (o s k : Nat) (c : Nat) (rest : List Nat)
    (h : c = o) :
    replaceFirstK o s (k + 1) (c :: rest) = s :: replaceFirstK o s k rest := by
  simp [replaceFirstK, h]

theorem replaceFirstK_succ_cons_ne (o s k : Nat) (c : Nat) (rest : List Nat)
    (h : ¬c = o) :
    replaceFirstK o s (k + 1) (c :: rest) = c :: replaceFirstK o s (k + 1) rest := by
  simp [replaceFirstK, h]

theorem substGo_snd (o s : Nat) : ∀ (rest pre : List Nat),
    (substGo o s pre rest).2
      = (List.range (rest.count o)).map (fun k => pre.reverse ++ replaceFirstK o s k rest)
  | [], pre => by simp [substGo]
  | c :: rest, pre => by
    unfold substGo
    by_cases hc : c = o
    · rw [if_pos hc]
      show (pre.reverse ++ c :: rest) :: (substGo o s (s :: pre) rest).2 = _
      rw [substGo_snd o s rest (s :: pre), hc]
      rw [List.count_cons_self, List.range_succ_eq_map]
      simp only [List.map_cons, List.map_map]
      congr 1
      apply List.map_congr_left
      intro k _
      show (s :: pre).reverse ++ replaceFirstK o s k rest
        = pre.reverse ++ replaceFirstK o s (k + 1) (o :: rest)
      rw [replaceFirstK_succ_cons_eq o s k o rest rfl, List.reverse_cons]
      simp
    · rw [if_neg hc, substGo_snd o s rest (c :: pre)]
      rw [List.count_cons_of_ne (fun h => hc h.symm)]
      apply List.map_congr_left
      intro k _
      rw [List.reverse_cons]
      cases k with
      | zero =>
        rw [replaceFirstK_zero, replaceFirstK_zero]
        simp
      | succ m =>
        rw [replaceFirstK_succ_cons_ne o s m c rest hc]
        simp

theorem substGo_snd_length (o s : Nat) (rest pre : List Nat) :
    (substGo o s pre rest).2.length = rest.count o := by
  rw [substGo_snd]
  simp

end Klut

namespace Klut

/-- The node-list update performed by one iteration of the `substitute_node`
loop at node index `i`. -/
def stepNodes (o s i : Nat) (nodes : List KNode) : List KNode :=
  bumpFanoutN
    (nodes.set i
      { nodes.getD i default with
          children := (substGo o s [] (nodes.getD i default).children).1 })
    s (substGo o s [] (nodes.getD i default).children).2.length

theorem substPass_succ (o s i rem : Nat) (nodes : List KNode) :
    substPass o s i (rem + 1) nodes
      = ((substPass o s (i + 1) rem (stepNodes o s i nodes)).1,
         (substGo o s [] (nodes.getD i default).children).2.map (fun l => (i, l))
           ++ (substPass o s (i + 1) rem (stepNodes o s i nodes)).2) := rfl

theorem stepNodes_length (o s i : Nat) (nodes : List KNode) :
    (stepNodes o s i nodes).length = nodes.length := by
  unfold stepNodes
  rw [length_bumpFanoutN, List.length_set]

theorem stepNodes_children (o s i : Nat) (nodes : List KNode) (j : Nat) :
    ((stepNodes o s i nodes).getD j default).children
      = if j = i then replaceList o s ((nodes.getD j default).children)
        else (nodes.getD j default).children := by
  unfold stepNodes
  rw [getD_bumpFanoutN_children]
  by_cases hj : j = i
  · subst hj
    rw [if_pos rfl]
    by_cases hr : j < nodes.length
    · rw [CutGraph.getD_set_self _ _ _ _ hr]
      rw [substGo_fst]
      simp
    · rw [List.set_eq_of_length_le (by omega), List.getD_eq_default _ _ (by omega)]
      rfl
  · rw [CutGraph.getD_set_ne _ _ _ _ _ (fun hc => hj hc.symm), if_neg hj]

theorem stepNodes_fn (o s i : Nat) (nodes : List KNode) (j : Nat) :
    ((stepNodes o s i nodes).getD j default).fn = (nodes.getD j default).fn := by
  unfold stepNodes
  rw [getD_bumpFanoutN_fn]
  by_cases hj : j = i
  · subst hj
    by_cases hr : j < nodes.length
    · rw [CutGraph.getD_set_self _ _ _ _ hr]
    · rw [List.set_eq_of_length_le (by omega)]
  · rw [CutGraph.getD_set_ne _ _ _ _ _ (fun hc => hj hc.symm)]

theorem stepNodes_fanout (o s i : Nat) (nodes : List KNode) (j : Nat) :
    ((stepNodes o s i nodes).getD j default).fanout
      = (nodes.getD j default).fanout
        + (if j = s ∧ s < nodes.length
           then (nodes.getD i default).children.count o else 0) := by
  unfold stepNodes
  rw [getD_bumpFanoutN_fanout, List.length_set, substGo_snd_length]
  by_cases hj : j = i
  · subst hj
    by_cases hr : j < nodes.length
    · rw [CutGraph.getD_set_self _ _ _ _ hr]
    · rw [List.set_eq_of_length_le (by omega)]
  · rw [CutGraph.getD_set_ne _ _ _ _ _ (fun hc => hj hc.symm)]

theorem oRefs_congr (o : Nat) (ns1 ns2 : List KNode) :
    ∀ (rem i : Nat),
      (∀ j, i ≤ j → (ns2.getD j default).children = (ns1.getD j default).children) →
      oRefs o ns2 i rem = oRefs o ns1 i rem
  | 0, i, _ => rfl
  | rem + 1, i, h => by
    show (ns2.getD i default).children.count o + oRefs o ns2 (i + 1) rem
      = (ns1.getD i default).children.count o + oRefs o ns1 (i + 1) rem
    rw [h i (le_refl i), oRefs_congr o ns1 ns2 rem (i + 1) (fun j hj => h j (by omega))]

theorem eventsSpec_congr (o s : Nat) (ns1 ns2 : List KNode) :
    ∀ (rem i : Nat),
      (∀ j, i ≤ j → (ns2.getD j default).children = (ns1.getD j default).children) →
      eventsSpec o s ns2 i rem = eventsSpec o s ns1 i rem
  | 0, i, _ => rfl
  | rem + 1, i, h => by
    show (List.range ((ns2.getD i default).children.count o)).map
        (fun k => (i, replaceFirstK o s k (ns2.getD i default).children))
      ++ eventsSpec o s ns2 (i + 1) rem
      = (List.range ((ns1.getD i default).children.count o)).map
        (fun k => (i, replaceFirstK o s k (ns1.getD i default).children))
      ++ eventsSpec o s ns1 (i + 1) rem
    rw [h i (le_refl i),
      eventsSpec_congr o s ns1 ns2 rem (i + 1) (fun j hj => h j (by omega))]

theorem stepNodes_children_ge (o s i : Nat) (nodes : List KNode) (j : Nat)
    (hj : i + 1 ≤ j) :
    ((stepNodes o s i nodes).getD j default).children
      = (nodes.getD j default).children := by
  rw [stepNodes_children, if_neg (by omega)]

theorem substPass_length (o s : Nat) : ∀ (rem i : Nat) (nodes : List KNode),
    (substPass o s i rem nodes).1.length = nodes.length
  | 0, _, _ => rfl
  | rem + 1, i, nodes => by
    rw [substPass_succ]
    show (substPass o s (i + 1) rem (stepNodes o s i nodes)).1.length = _
    rw [substPass_length o s rem (i + 1) _, stepNodes_length]

theorem substPass_children (o s : Nat) : ∀ (rem i : Nat) (nodes : List KNode) (j : Nat),
    ((substPass o s i rem nodes).1.getD j default).children
      = if i ≤ j ∧ j < i + rem
        then replaceList o s ((nodes.getD j default).children)
        else (nodes.getD j default).children
  | 0, i, nodes, j => by
    rw [if_neg (by omega)]
    rfl
  | rem + 1, i, nodes, j => by
    rw [substPass_succ]
    show ((substPass o s (i + 1) rem (stepNodes o s i nodes)).1.getD j default).children = _
    rw [substPass_children o s rem (i + 1) (stepNodes o s i nodes) j]
    by_cases h2 : j = i
    · rw [if_neg (by omega : ¬(i + 1 ≤ j ∧ j < i + 1 + rem)), stepNodes_children,
        if_pos h2, if_pos (by omega : i ≤ j ∧ j < i + (rem + 1))]
    · rw [stepNodes_children, if_neg h2]
      by_cases h1 : i + 1 ≤ j ∧ j < i + 1 + rem
      · rw [if_pos h1, if_pos (by omega : i ≤ j ∧ j < i + (rem + 1))]
      · rw [if_neg h1, if_neg (by omega : ¬(i ≤ j ∧ j < i + (rem + 1)))]

theorem substPass_fn (o s : Nat) : ∀ (rem i : Nat) (nodes : List KNode) (j : Nat),
    ((substPass o s i rem nodes).1.getD j default).fn = (nodes.getD j default).fn
  | 0, _, _, _ => rfl
  | rem + 1, i, nodes, j => by
    rw [substPass_succ]
    show ((substPass o s (i + 1) rem (stepNodes o s i nodes)).1.getD j default).fn = _
    rw [substPass_fn o s rem (i + 1) (stepNodes o s i nodes) j, stepNodes_fn]

theorem substPass_fanout (o s : Nat) : ∀ (rem i : Nat) (nodes : List KNode) (j : Nat),
    ((substPass o s i rem nodes).1.getD j default).fanout
      = (nodes.getD j default).fanout
        + (if j = s ∧ s < nodes.length then oRefs o nodes i rem else 0)
  | 0, i, nodes, j => by
    rw [show oRefs o nodes i 0 = 0 from rfl]
    by_cases h : j = s ∧ s < nodes.length
    · rw [if_pos h]
      exact (Nat.add_zero ((nodes.getD j default).fanout)).symm
    · rw [if_neg h]
      exact (Nat.add_zero ((nodes.getD j default).fanout)).symm
  | rem + 1, i, nodes, j => by
    rw [substPass_succ]
    show ((substPass o s (i + 1) rem (stepNodes o s i nodes)).1.getD j default).fanout = _
    rw [substPass_fanout o s rem (i + 1) (stepNodes o s i nodes) j, stepNodes_length,
      stepNodes_fanout,
      oRefs_congr o nodes (stepNodes o s i nodes) rem (i + 1)
        (fun j hj => stepNodes_children_ge o s i nodes j hj),
      show oRefs o nodes i (rem + 1)
        = (nodes.getD i default).children.count o + oRefs o nodes (i + 1) rem from rfl]
    by_cases h : j = s ∧ s < nodes.length
    · rw [if_pos h, if_pos h, if_pos h]
      omega
    · rw [if_neg h, if_neg h, if_neg h]

theorem substPass_events (o s : Nat) : ∀ (rem i : Nat) (nodes : List KNode),
    (substPass o s i rem nodes).2 = eventsSpec o s nodes i rem
  | 0, _, _ => rfl
  | rem + 1, i, nodes => by
    rw [substPass_succ]
    show (substGo o s [] (nodes.getD i default).children).2.map (fun l => (i, l))
        ++ (substPass o s (i + 1) rem (stepNodes o s i nodes)).2
      = eventsSpec o s nodes i (rem + 1)
    rw [substPass_events o s rem (i + 1) (stepNodes o s i nodes),
      eventsSpec_congr o s nodes (stepNodes o s i nodes) rem (i + 1)
        (fun j hj => stepNodes_children_ge o s i nodes j hj),
      substGo_snd]
    show _ = (List.range ((nodes.getD i default).children.count o)).map
        (fun k => (i, replaceFirstK o s k (nodes.getD i default).children))
      ++ eventsSpec o s nodes (i + 1) rem
    rw [List.map_map]
    rfl

end Klut

namespace Klut

/-- The node list after the fanin pass and the output-side fan-out bumps of
`substitute_node`. -/
def substNodes2 (n : KlutNtk) (o s : Nat) : List KNode :=
  bumpFanoutN (substPass o s 0 n.nodes.length n.nodes).1 s (n.outputs.count o)

/-- The final node list of `substitute_node`: `old_node`'s fan-out reset to 0. -/
def substNodes3 (n : KlutNtk) (o s : Nat) : List KNode :=
  (substNodes2 n o s).set o { (substNodes2 n o s).getD o default with fanout := 0 }

theorem substitute_node_eq (n : KlutNtk) (o s : Nat) :
    substitute_node n o s
      = ({ n with
             nodes := substNodes3 n o s
             outputs := n.outputs.map (fun f => if f = o then s else f) },
         (substPass o s 0 n.nodes.length n.nodes).2) := rfl

theorem substNodes2_length (n : KlutNtk) (o s : Nat) :
    (substNodes2 n o s).length = n.nodes.length := by
  unfold substNodes2
  rw [length_bumpFanoutN, substPass_length]

theorem substNodes2_children (n : KlutNtk) (o s j : Nat) :
    ((substNodes2 n o s).getD j default).children
      = if 0 ≤ j ∧ j < 0 + n.nodes.length
        then replaceList o s ((n.nodes.getD j default).children)
        else (n.nodes.getD j default).children := by
  unfold substNodes2
  rw [getD_bumpFanoutN_children, substPass_children]

theorem substNodes2_fn (n : KlutNtk) (o s j : Nat) :
    ((substNodes2 n o s).getD j default).fn = (n.nodes.getD j default).fn := by
  unfold substNodes2
  rw [getD_bumpFanoutN_fn, substPass_fn]

theorem substNodes2_fanout (n : KlutNtk) (o s j : Nat) :
    ((substNodes2 n o s).getD j default).fanout
      = (n.nodes.getD j default).fanout
        + (if j = s ∧ s < n.nodes.length
           then oRefs o n.nodes 0 n.nodes.length + n.outputs.count o else 0) := by
  unfold substNodes2
  rw [getD_bumpFanoutN_fanout, substPass_length, substPass_fanout]
  by_cases h : j = s ∧ s < n.nodes.length
  · rw [if_pos h, if_pos h, if_pos h]
    omega
  · rw [if_neg h, if_neg h, if_neg h]

theorem substNodes3_children (n : KlutNtk) (o s j : Nat) :
    ((substNodes3 n o s).getD j default).children
      = ((substNodes2 n o s).getD j default).children := by
  unfold substNodes3
  by_cases hj : j = o
  · subst hj
    by_cases hr : j < (substNodes2 n j s).length
    · rw [CutGraph.getD_set_self _ _ _ _ hr]
    · rw [List.set_eq_of_length_le (by omega)]
  · rw [CutGraph.getD_set_ne _ _ _ _ _ (fun hc => hj hc.symm)]

theorem substNodes3_fn (n : KlutNtk) (o s j : Nat) :
    ((substNodes3 n o s).getD j default).fn
      = ((substNodes2 n o s).getD j default).fn := by
  unfold substNodes3
  by_cases hj : j = o
  · subst hj
    by_cases hr : j < (substNodes2 n j s).length
    · rw [CutGraph.getD_set_self _ _ _ _ hr]
    · rw [List.set_eq_of_length_le (by omega)]
  · rw [CutGraph.getD_set_ne _ _ _ _ _ (fun hc => hj hc.symm)]

theorem substNodes3_fanout (n : KlutNtk) (o s j : Nat) :
    ((substNodes3 n o s).getD j default).fanout
      = if j = o ∧ o < n.nodes.length then 0
        else ((substNodes2 n o s).getD j default).fanout := by
  unfold substNodes3
  by_cases hj : j = o
  · subst hj
    by_cases hr : j < (substNodes2 n j s).length
    · rw [CutGraph.getD_set_self _ _ _ _ hr,
        if_pos ⟨rfl, by rw [substNodes2_length] at hr; exact hr⟩]
    · rw [List.set_eq_of_length_le (by omega),
        if_neg (fun hc => hr (by rw [substNodes2_length]; exact hc.2))]
  · rw [CutGraph.getD_set_ne _ _ _ _ _ (fun hc => hj hc.symm),
      if_neg (fun hc => hj hc.1)]

/-- The events the claim describes: ONE notification per affected node,
carrying that node's pre-substitution fanin list. -/
def eventsPerNode (n : KlutNtk) (o : Nat) : List (Nat × List Nat) :=
  ((List.range n.nodes.length).filter
    (fun i => decide (o ∈ (n.nodes.getD i default).children))).map
    (fun i => (i, (n.nodes.getD i default).children))

/-- A 2-PI network whose single gate reads PI 2 on both fanin slots:
constants 0/1, PIs at indices 2 and 3, a 2-input gate at index 4 with fanins
`[2, 2]`, and one primary output on node 4. -/
def cnNet : KlutNtk :=
  create_po (create_node (create_pi (create_pi klutInit).2).2 [2, 2]
    [false, false, false, true]).2 4

end Klut

/-- Claim C1, counterexample to the notification clause: substituting node 2
by signal 3 in `cnNet`, whose gate 4 reads node 2 twice, fires TWO
`on_modified` events for node 4 — and the second one carries `[3, 2]`, a
partially rewritten fanin list, not node 4's pre-substitution list `[2, 2]` —
rather than the claimed one event per affected node with the pre-substitution
fanin list. -/
theorem C1_substitute_counterexample :
    (Klut.substitute_node Klut.cnNet 2 3).2 = [(4, [2, 2]), (4, [3, 2])] ∧
    (Klut.substitute_node Klut.cnNet 2 3).2 ≠ Klut.eventsPerNode Klut.cnNet 2 := by
  decide

/-- Claim C1 (amended): for a network whose nodes `o` (old) and `s ≠ o` (new)
both exist, `substitute_node o s` rewrites every fanin reference to `o` in
every node to `s`, rewrites every output reference to `o` to `s`, adds to
`s`'s fan-out counter one increment per moved reference (fanin references
plus output references), zeroes `o`'s fan-out counter, leaves every other
fan-out counter unchanged, and fires one `on_modified` event per REWRITTEN
FANIN SLOT (not per affected node), the `k`-th event of node `i` carrying
node `i`'s fanin list with its first `k` references to `o` already rewritten
(so only the first event of each node carries the pre-substitution list). -/
theorem C1_substitute_node (n : Klut.KlutNtk) (o s : Nat)
    (ho : o < n.nodes.length) (hs : s < n.nodes.length) (hos : s ≠ o) :
    (∀ j, ((Klut.substitute_node n o s).1.nodes.getD j default).children
        = Klut.replaceList o s ((n.nodes.getD j default).children)) ∧
    (Klut.substitute_node n o s).1.outputs
      = n.outputs.map (fun f => if f = o then s else f) ∧
    ((Klut.substitute_node n o s).1.nodes.getD s default).fanout
      = (n.nodes.getD s default).fanout
        + (Klut.oRefs o n.nodes 0 n.nodes.length + n.outputs.count o) ∧
    ((Klut.substitute_node n o s).1.nodes.getD o default).fanout = 0 ∧
    (∀ j, j ≠ o → j ≠ s →
      ((Klut.substitute_node n o s).1.nodes.getD j default).fanout
        = (n.nodes.getD j default).fanout) ∧
    (Klut.substitute_node n o s).2 = Klut.eventsSpec o s n.nodes 0 n.nodes.length := by
  rw [Klut.substitute_node_eq]
  refine ⟨?_, rfl, ?_, ?_, ?_, ?_⟩
  · intro j
    show ((Klut.substNodes3 n o s).getD j default).children = _
    rw [Klut.substNodes3_children, Klut.substNodes2_children]
    by_cases hj : 0 ≤ j ∧ j < 0 + n.nodes.length
    · rw [if_pos hj]
    · rw [if_neg hj, List.getD_eq_default _ _ (by omega)]
      rfl
  · show ((Klut.substNodes3 n o s).getD s default).fanout = _
    rw [Klut.substNodes3_fanout, if_neg (fun hc => hos hc.1),
      Klut.substNodes2_fanout, if_pos ⟨rfl, hs⟩]
  · show ((Klut.substNodes3 n o s).getD o default).fanout = 0
    rw [Klut.substNodes3_fanout, if_pos ⟨rfl, ho⟩]
  · intro j hjo hjs
    show ((Klut.substNodes3 n o s).getD j default).fanout = _
    rw [Klut.substNodes3_fanout, if_neg (fun hc => hjo hc.1),
      Klut.substNodes2_fanout, if_neg (fun hc => hjs hc.1)]
    omega
  · exact Klut.substPass_events o s n.nodes.length 0 n.nodes

/-- Witness for C1: the amended theorem applied to the concrete network
`cnNet` with `o = 2`, `s = 3`. -/
theorem C1_substitute_node_witness :
    2 < Klut.cnNet.nodes.length ∧ 3 < Klut.cnNet.nodes.length ∧ 3 ≠ 2 ∧
    ((∀ j, ((Klut.substitute_node Klut.cnNet 2 3).1.nodes.getD j default).children
        = Klut.replaceList 2 3 ((Klut.cnNet.nodes.getD j default).children)) ∧
     (Klut.substitute_node Klut.cnNet 2 3).1.outputs
       = Klut.cnNet.outputs.map (fun f => if f = 2 then 3 else f) ∧
     ((Klut.substitute_node Klut.cnNet 2 3).1.nodes.getD 3 default).fanout
       = (Klut.cnNet.nodes.getD 3 default).fanout
         + (Klut.oRefs 2 Klut.cnNet.nodes 0 Klut.cnNet.nodes.length
            + Klut.cnNet.outputs.count 2) ∧
     ((Klut.substitute_node Klut.cnNet 2 3).1.nodes.getD 2 default).fanout = 0 ∧
     (∀ j, j ≠ 2 → j ≠ 3 →
       ((Klut.substitute_node Klut.cnNet 2 3).1.nodes.getD j default).fanout
         = (Klut.cnNet.nodes.getD j default).fanout) ∧
     (Klut.substitute_node Klut.cnNet 2 3).2
       = Klut.eventsSpec 2 3 Klut.cnNet.nodes 0 Klut.cnNet.nodes.length) :=
  ⟨by decide, by decide, by decide,
    C1_substitute_node Klut.cnNet 2 3 (by decide) (by decide) (by decide)⟩

namespace Klut

theorem count_append_sing (l : List Nat) (x t : Nat) :
    (l ++ [x]).count t = l.count t + (if x = t then 1 else 0) := by
  rw [List.count_append]
  by_cases h : x = t
  · subst h
    simp
  · rw [if_neg h]
    have hx : List.count t [x] = 0 :=
      List.count_eq_zero.mpr (fun hh => h (List.mem_singleton.mp hh).symm)
    rw [hx]

theorem oRefs_congrB (o : Nat) (ns1 ns2 : List KNode) :
    ∀ (rem i : Nat),
      (∀ k, i ≤ k → k < i + rem →
        (ns2.getD k default).children = (ns1.getD k default).children) →
      oRefs o ns2 i rem = oRefs o ns1 i rem
  | 0, i, _ => rfl
  | rem + 1, i, h => by
    show (ns2.getD i default).children.count o + oRefs o ns2 (i + 1) rem
      = (ns1.getD i default).children.count o + oRefs o ns1 (i + 1) rem
    rw [h i (le_refl i) (by omega),
      oRefs_congrB o ns1 ns2 rem (i + 1) (fun k hk1 hk2 => h k (by omega) (by omega))]

theorem oRefs_split (t : Nat) (ns : List KNode) :
    ∀ (a i b : Nat), oRefs t ns i (a + b) = oRefs t ns i a + oRefs t ns (i + a) b
  | 0, i, b => by
    rw [Nat.zero_add, Nat.add_zero, show oRefs t ns i 0 = 0 from rfl, Nat.zero_add]
  | a + 1, i, b => by
    rw [show a + 1 + b = (a + b) + 1 from by omega]
    show (ns.getD i default).children.count t + oRefs t ns (i + 1) (a + b)
      = oRefs t ns i (a + 1) + oRefs t ns (i + (a + 1)) b
    rw [oRefs_split t ns a (i + 1) b,
      show oRefs t ns i (a + 1)
        = (ns.getD i default).children.count t + oRefs t ns (i + 1) a from rfl,
      show i + (a + 1) = i + 1 + a from by omega]
    omega

theorem oRefs_eq_zero (t : Nat) (ns : List KNode) :
    ∀ (rem i : Nat),
      (∀ k, i ≤ k → k < i + rem → t ∉ (ns.getD k default).children) →
      oRefs t ns i rem = 0
  | 0, _, _ => rfl
  | rem + 1, i, h => by
    show (ns.getD i default).children.count t + oRefs t ns (i + 1) rem = 0
    rw [List.count_eq_zero.mpr (h i (le_refl i) (by omega)),
      oRefs_eq_zero t ns rem (i + 1) (fun k hk1 hk2 => h k (by omega) (by omega))]

theorem count_le_oRefs (t : Nat) (ns : List KNode) :
    ∀ (rem i j : Nat), i ≤ j → j < i + rem →
      (ns.getD j default).children.count t ≤ oRefs t ns i rem
  | 0, i, j, h1, h2 => by omega
  | rem + 1, i, j, h1, h2 => by
    show _ ≤ (ns.getD i default).children.count t + oRefs t ns (i + 1) rem
    by_cases hj : j = i
    · subst hj
      omega
    · have := count_le_oRefs t ns rem (i + 1) j (by omega) (by omega)
      omega

theorem count_replaceList_old (o s : Nat) (hso : s ≠ o) :
    ∀ l : List Nat, (replaceList o s l).count o = 0
  | [] => rfl
  | c :: l => by
    show ((if c = o then s else c) :: replaceList o s l).count o = 0
    by_cases hc : c = o
    · rw [if_pos hc, List.count_cons_of_ne (fun h => hso h.symm),
        count_replaceList_old o s hso l]
    · rw [if_neg hc, List.count_cons_of_ne (fun h => hc h.symm),
        count_replaceList_old o s hso l]

theorem count_replaceList_new (o s : Nat) (hso : s ≠ o) :
    ∀ l : List Nat, (replaceList o s l).count s = l.count s + l.count o
  | [] => rfl
  | c :: l => by
    show ((if c = o then s else c) :: replaceList o s l).count s
      = (c :: l).count s + (c :: l).count o
    by_cases hc : c = o
    · rw [if_pos hc, hc, List.count_cons_self, count_replaceList_new o s hso l,
        List.count_cons_of_ne hso, List.count_cons_self]
      omega
    · rw [if_neg hc]
      by_cases hcs : c = s
      · rw [hcs, List.count_cons_self, count_replaceList_new o s hso l,
          List.count_cons_self, List.count_cons_of_ne (fun h => hso h.symm)]
        omega
      · rw [List.count_cons_of_ne (fun h => hcs h.symm),
          count_replaceList_new o s hso l,
          List.count_cons_of_ne (fun h => hcs h.symm),
          List.count_cons_of_ne (fun h => hc h.symm)]

theorem count_replaceList_other (o s t : Nat) (hto : t ≠ o) (hts : t ≠ s) :
    ∀ l : List Nat, (replaceList o s l).count t = l.count t
  | [] => rfl
  | c :: l => by
    show ((if c = o then s else c) :: replaceList o s l).count t = (c :: l).count t
    have ih := count_replaceList_other o s t hto hts l
    by_cases hc : c = o
    · rw [if_pos hc, List.count_cons_of_ne hts, ih,
        List.count_cons_of_ne (fun h => hto (h.trans hc))]
    · rw [if_neg hc]
      by_cases htc : t = c
      · rw [htc] at ih ⊢
        rw [List.count_cons_self, List.count_cons_self, ih]
      · rw [List.count_cons_of_ne htc, List.count_cons_of_ne htc, ih]

end Klut

namespace Klut

theorem foldBump_length (cs : List Nat) :
    ∀ ns : List KNode, (cs.foldl bumpFanout ns).length = ns.length := by
  induction cs with
  | nil => intro ns; rfl
  | cons c cs ih =>
    intro ns
    rw [List.foldl_cons, ih (bumpFanout ns c), length_bumpFanout]

theorem foldBump_children (cs : List Nat) :
    ∀ (ns : List KNode) (j : Nat),
      ((cs.foldl bumpFanout ns).getD j default).children
        = (ns.getD j default).children := by
  induction cs with
  | nil => intro ns j; rfl
  | cons c cs ih =>
    intro ns j
    rw [List.foldl_cons, ih (bumpFanout ns c) j, getD_bumpFanout_children]

theorem foldBump_fn (cs : List Nat) :
    ∀ (ns : List KNode) (j : Nat),
      ((cs.foldl bumpFanout ns).getD j default).fn = (ns.getD j default).fn := by
  induction cs with
  | nil => intro ns j; rfl
  | cons c cs ih =>
    intro ns j
    rw [List.foldl_cons, ih (bumpFanout ns c) j, getD_bumpFanout_fn]

theorem foldBump_fanout (cs : List Nat) :
    ∀ (ns : List KNode) (j : Nat),
      ((cs.foldl bumpFanout ns).getD j default).fanout
        = (ns.getD j default).fanout + (if j < ns.length then cs.count j else 0) := by
  induction cs with
  | nil =>
    intro ns j
    by_cases h : j < ns.length
    · rw [if_pos h, List.count_nil]
      exact (Nat.add_zero ((ns.getD j default).fanout)).symm
    · rw [if_neg h]
      exact (Nat.add_zero ((ns.getD j default).fanout)).symm
  | cons c cs ih =>
    intro ns j
    rw [List.foldl_cons, ih (bumpFanout ns c) j, getD_bumpFanout_fanout,
      length_bumpFanout]
    by_cases hj : j < ns.length
    · rw [if_pos hj, if_pos hj]
      by_cases hc : c = j
      · rw [if_pos ⟨hc.symm, by omega⟩, hc, List.count_cons_self]
        omega
      · rw [if_neg (fun hh => hc (by omega)), List.count_cons_of_ne (fun hh => hc hh.symm)]
        omega
    · rw [if_neg hj, if_neg hj, if_neg (fun hh => hj (by omega))]

theorem mem_replaceList (o s x : Nat) (l : List Nat) (h : x ∈ replaceList o s l) :
    x = s ∨ x ∈ l := by
  unfold replaceList at h
  rcases List.mem_map.mp h with ⟨c, hc, he⟩
  by_cases hco : c = o
  · rw [if_pos hco] at he
    exact Or.inl he.symm
  · rw [if_neg hco] at he
    exact Or.inr (he ▸ hc)

theorem substNodes3_length (n : KlutNtk) (o s : Nat) :
    (substNodes3 n o s).length = n.nodes.length := by
  unfold substNodes3
  rw [List.length_set, substNodes2_length]

theorem substNodes3_children_all (n : KlutNtk) (o s j : Nat) :
    ((substNodes3 n o s).getD j default).children
      = replaceList o s ((n.nodes.getD j default).children) := by
  rw [substNodes3_children, substNodes2_children]
  by_cases hj : 0 ≤ j ∧ j < 0 + n.nodes.length
  · rw [if_pos hj]
  · rw [if_neg hj, List.getD_eq_default _ _ (by omega)]
    rfl

theorem oRefs_replace_old (o s : Nat) (hso : s ≠ o) (ns1 ns2 : List KNode)
    (h : ∀ k, (ns2.getD k default).children
      = replaceList o s ((ns1.getD k default).children)) :
    ∀ (rem i : Nat), oRefs o ns2 i rem = 0
  | 0, _ => rfl
  | rem + 1, i => by
    show (ns2.getD i default).children.count o + oRefs o ns2 (i + 1) rem = 0
    rw [h i, count_replaceList_old o s hso,
      oRefs_replace_old o s hso ns1 ns2 h rem (i + 1)]

theorem oRefs_replace_new (o s : Nat) (hso : s ≠ o) (ns1 ns2 : List KNode)
    (h : ∀ k, (ns2.getD k default).children
      = replaceList o s ((ns1.getD k default).children)) :
    ∀ (rem i : Nat), oRefs s ns2 i rem = oRefs s ns1 i rem + oRefs o ns1 i rem
  | 0, _ => rfl
  | rem + 1, i => by
    show (ns2.getD i default).children.count s + oRefs s ns2 (i + 1) rem = _
    rw [h i, count_replaceList_new o s hso,
      oRefs_replace_new o s hso ns1 ns2 h rem (i + 1)]
    show _ = (ns1.getD i default).children.count s + oRefs s ns1 (i + 1) rem
      + ((ns1.getD i default).children.count o + oRefs o ns1 (i + 1) rem)
    omega

theorem oRefs_replace_other (o s t : Nat) (hto : t ≠ o) (hts : t ≠ s)
    (ns1 ns2 : List KNode)
    (h : ∀ k, (ns2.getD k default).children
      = replaceList o s ((ns1.getD k default).children)) :
    ∀ (rem i : Nat), oRefs t ns2 i rem = oRefs t ns1 i rem
  | 0, _ => rfl
  | rem + 1, i => by
    show (ns2.getD i default).children.count t + oRefs t ns2 (i + 1) rem = _
    rw [h i, count_replaceList_other o s t hto hts,
      oRefs_replace_other o s t hto hts ns1 ns2 h rem (i + 1)]
    rfl

end Klut

namespace Klut

/-- The network-building calls quantified over by the fan-out claim. -/
inductive KOp where
  | pi : KOp
  | node : List Nat → TT → KOp
  | po : Nat → KOp
  | sub : Nat → Nat → KOp
deriving DecidableEq, Repr

/-- Apply one building call. -/
def kstep (n : KlutNtk) : KOp → KlutNtk
  | KOp.pi => (create_pi n).2
  | KOp.node c f => (create_node n c f).2
  | KOp.po f => create_po n f
  | KOp.sub o s => (substitute_node n o s).1

/-- Run a call sequence from a fresh network. -/
def runKOps (ops : List KOp) : KlutNtk :=
  ops.foldl kstep klutInit

/-- Argument sanity as the claim states it: all referenced nodes exist. -/
def KOp.okStated (n : KlutNtk) : KOp → Prop
  | KOp.pi => True
  | KOp.node c _ => ∀ x ∈ c, x < n.nodes.length
  | KOp.po f => f < n.nodes.length
  | KOp.sub o s => o < n.nodes.length ∧ s < n.nodes.length

/-- Amended argument sanity: additionally, `substitute_node`'s new signal
differs from the replaced node. -/
def KOp.okAmended (n : KlutNtk) : KOp → Prop
  | KOp.pi => True
  | KOp.node c _ => ∀ x ∈ c, x < n.nodes.length
  | KOp.po f => f < n.nodes.length
  | KOp.sub o s => o < n.nodes.length ∧ s < n.nodes.length ∧ s ≠ o

instance instDecKOpStated (n : KlutNtk) : ∀ op : KOp, Decidable (KOp.okStated n op)
  | KOp.pi => isTrue trivial
  | KOp.node c _ => List.decidableBAll _ c
  | KOp.po _ => Nat.decLt _ _
  | KOp.sub _ _ => instDecidableAnd

instance instDecKOpAmended (n : KlutNtk) : ∀ op : KOp, Decidable (KOp.okAmended n op)
  | KOp.pi => isTrue trivial
  | KOp.node c _ => List.decidableBAll _ c
  | KOp.po _ => Nat.decLt _ _
  | KOp.sub _ _ => instDecidableAnd

/-- Every call of the sequence is sane in the state it is applied to. -/
def KSeqOK (P : KlutNtk → KOp → Prop) : KlutNtk → List KOp → Prop
  | _, [] => True
  | n, op :: ops => P n op ∧ KSeqOK P (kstep n op) ops

instance instDecKSeqOK (P : KlutNtk → KOp → Prop) [∀ n op, Decidable (P n op)] :
    ∀ (n : KlutNtk) (ops : List KOp), Decidable (KSeqOK P n ops)
  | _, [] => isTrue trivial
  | n, op :: ops =>
    have := instDecKSeqOK P (kstep n op) ops
    by unfold KSeqOK; infer_instance

/-- All fanin and output references point at existing nodes. -/
def RangeOK (n : KlutNtk) : Prop :=
  (∀ j, j < n.nodes.length →
    ∀ c ∈ (n.nodes.getD j default).children, c < n.nodes.length) ∧
  ∀ f ∈ n.outputs, f < n.nodes.length

/-- The number of references to `t`: fanin slots across all nodes plus
primary outputs. -/
def refCount (n : KlutNtk) (t : Nat) : Nat :=
  oRefs t n.nodes 0 n.nodes.length + n.outputs.count t

/-- The claimed invariant: every node's fan-out counter equals its
reference count. -/
def FanoutOK (n : KlutNtk) : Prop :=
  ∀ j, j < n.nodes.length → (n.nodes.getD j default).fanout = refCount n j

theorem inv_create_pi (n : KlutNtk) (h : RangeOK n ∧ FanoutOK n) :
    RangeOK (create_pi n).2 ∧ FanoutOK (create_pi n).2 := by
  obtain ⟨⟨hrc, hro⟩, hfo⟩ := h
  have hlen : (create_pi n).2.nodes.length = n.nodes.length + 1 := by
    show (n.nodes ++ [(⟨[], 2, 0⟩ : KNode)]).length = _
    simp
  have hch : ∀ j, ((create_pi n).2.nodes.getD j default).children
      = (n.nodes.getD j default).children := by
    intro j
    show ((n.nodes ++ [(⟨[], 2, 0⟩ : KNode)]).getD j default).children = _
    rw [CutGraph.getD_append_sing]
    by_cases hj : j = n.nodes.length
    · rw [if_pos hj, List.getD_eq_default _ _ (by omega)]
      rfl
    · rw [if_neg hj]
  have hrc2 : ∀ j, refCount (create_pi n).2 j = refCount n j := by
    intro j
    unfold refCount
    rw [hlen,
      oRefs_split j (create_pi n).2.nodes n.nodes.length 0 1, Nat.zero_add,
      oRefs_congrB j n.nodes (create_pi n).2.nodes n.nodes.length 0
        (fun k _ _ => hch k),
      show oRefs j (create_pi n).2.nodes n.nodes.length 1
        = ((create_pi n).2.nodes.getD n.nodes.length default).children.count j
          + 0 from rfl,
      hch n.nodes.length, List.getD_eq_default _ _ (le_refl _)]
    show oRefs j n.nodes 0 n.nodes.length + (List.count j [] + 0)
        + (create_pi n).2.outputs.count j = _
    rw [List.count_nil]
    show oRefs j n.nodes 0 n.nodes.length + (0 + 0) + n.outputs.count j = _
    omega
  refine ⟨⟨?_, ?_⟩, ?_⟩
  · intro j hj c hc
    rw [hch j] at hc
    rw [hlen] at hj ⊢
    by_cases hjl : j < n.nodes.length
    · have := hrc j hjl c hc
      omega
    · rw [List.getD_eq_default _ _ (by omega)] at hc
      exact absurd hc (List.not_mem_nil c)
  · intro f hf2
    rw [hlen]
    have hm : f ∈ n.outputs := hf2
    have := hro f hm
    omega
  · intro j hj
    rw [hlen] at hj
    rw [hrc2 j]
    have hfan : ((create_pi n).2.nodes.getD j default).fanout
        = if j = n.nodes.length then 0 else (n.nodes.getD j default).fanout := by
      show ((n.nodes ++ [(⟨[], 2, 0⟩ : KNode)]).getD j default).fanout = _
      rw [CutGraph.getD_append_sing]
      by_cases hjl : j = n.nodes.length
      · rw [if_pos hjl, if_pos hjl]
      · rw [if_neg hjl, if_neg hjl]
    rw [hfan]
    by_cases hjl : j = n.nodes.length
    · rw [if_pos hjl]
      unfold refCount
      rw [oRefs_eq_zero j n.nodes n.nodes.length 0
          (fun k hk1 hk2 hmem => by
            have := hrc k (by omega) j hmem
            omega),
        List.count_eq_zero.mpr (fun hmem => by have := hro j hmem; omega)]
    · rw [if_neg hjl]
      exact hfo j (by omega)

theorem inv_create_po (n : KlutNtk) (f : Nat) (hf : f < n.nodes.length)
    (h : RangeOK n ∧ FanoutOK n) :
    RangeOK (create_po n f) ∧ FanoutOK (create_po n f) := by
  obtain ⟨⟨hrc, hro⟩, hfo⟩ := h
  have hlen : (create_po n f).nodes.length = n.nodes.length := by
    show (bumpFanout n.nodes f).length = _
    rw [length_bumpFanout]
  have hch : ∀ j, ((create_po n f).nodes.getD j default).children
      = (n.nodes.getD j default).children :=
    fun j => getD_bumpFanout_children n.nodes f j
  have hrc2 : ∀ j, refCount (create_po n f) j
      = refCount n j + (if f = j then 1 else 0) := by
    intro j
    unfold refCount
    rw [hlen,
      oRefs_congrB j n.nodes (create_po n f).nodes n.nodes.length 0
        (fun k _ _ => hch k)]
    show _ + (n.outputs ++ [f]).count j = _
    rw [count_append_sing]
    omega
  refine ⟨⟨?_, ?_⟩, ?_⟩
  · intro j hj c hc
    rw [hch j] at hc
    rw [hlen] at hj ⊢
    exact hrc j hj c hc
  · intro g hg
    rw [hlen]
    have hm : g ∈ n.outputs ++ [f] := hg
    rcases List.mem_append.mp hm with hm1 | hm2
    · exact hro g hm1
    · rw [List.mem_singleton.mp hm2]
      exact hf
  · intro j hj
    rw [hlen] at hj
    rw [hrc2 j]
    have hfan : ((create_po n f).nodes.getD j default).fanout
        = (n.nodes.getD j default).fanout
          + (if j = f ∧ f < n.nodes.length then 1 else 0) :=
      getD_bumpFanout_fanout n.nodes f j
    rw [hfan, hfo j hj]
    by_cases hjf : j = f
    · rw [if_pos ⟨hjf, hf⟩, if_pos hjf.symm]
    · rw [if_neg (fun hh => hjf hh.1), if_neg (fun hh => hjf hh.symm)]

end Klut

namespace Klut

theorem inv_create_node_aux (m : KlutNtk) (c : List Nat) (lit : Nat)
    (hc : ∀ x ∈ c, x < m.nodes.length)
    (h : RangeOK m ∧ FanoutOK m) :
    RangeOK (_create_node m c lit).2 ∧ FanoutOK (_create_node m c lit).2 := by
  obtain ⟨⟨hrc, hro⟩, hfo⟩ := h
  cases hl : m.hash.lookup (c, lit) with
  | some idx =>
    have he : (_create_node m c lit).2 = m := by
      unfold _create_node
      rw [hl]
    rw [he]
    exact ⟨⟨hrc, hro⟩, hfo⟩
  | none =>
    have he : (_create_node m c lit).2
        = { m with
              nodes := c.foldl bumpFanout (m.nodes ++ [(⟨c, lit, 0⟩ : KNode)])
              hash := m.hash ++ [((c, lit), m.nodes.length)] } := by
      unfold _create_node
      rw [hl]
    rw [he]
    have hlen : (c.foldl bumpFanout (m.nodes ++ [(⟨c, lit, 0⟩ : KNode)])).length
        = m.nodes.length + 1 := by
      rw [foldBump_length]
      simp
    have hch : ∀ j,
        ((c.foldl bumpFanout (m.nodes ++ [(⟨c, lit, 0⟩ : KNode)])).getD j default).children
          = if j = m.nodes.length then c else (m.nodes.getD j default).children := by
      intro j
      rw [foldBump_children, CutGraph.getD_append_sing]
      by_cases hj : j = m.nodes.length
      · rw [if_pos hj, if_pos hj]
      · rw [if_neg hj, if_neg hj]
    have hfan : ∀ j,
        ((c.foldl bumpFanout (m.nodes ++ [(⟨c, lit, 0⟩ : KNode)])).getD j default).fanout
          = (if j = m.nodes.length then 0 else (m.nodes.getD j default).fanout)
            + (if j < m.nodes.length + 1 then c.count j else 0) := by
      intro j
      rw [foldBump_fanout, CutGraph.getD_append_sing, List.length_append]
      by_cases hj : j = m.nodes.length
      · rw [if_pos hj, if_pos hj]
        rfl
      · rw [if_neg hj, if_neg hj]
        rfl
    have hrc2 : ∀ j,
        refCount { m with
            nodes := c.foldl bumpFanout (m.nodes ++ [(⟨c, lit, 0⟩ : KNode)])
            hash := m.hash ++ [((c, lit), m.nodes.length)] } j
          = refCount m j + c.count j := by
      intro j
      unfold refCount
      show oRefs j (c.foldl bumpFanout (m.nodes ++ [(⟨c, lit, 0⟩ : KNode)])) 0
          (c.foldl bumpFanout (m.nodes ++ [(⟨c, lit, 0⟩ : KNode)])).length
        + m.outputs.count j = _
      rw [hlen, oRefs_split j _ m.nodes.length 0 1, Nat.zero_add,
        oRefs_congrB j m.nodes _ m.nodes.length 0
          (fun k _ hk2 => by rw [hch k, if_neg (by omega)]),
        show oRefs j (c.foldl bumpFanout (m.nodes ++ [(⟨c, lit, 0⟩ : KNode)]))
            m.nodes.length 1
          = ((c.foldl bumpFanout (m.nodes ++ [(⟨c, lit, 0⟩ : KNode)])).getD
              m.nodes.length default).children.count j + 0 from rfl,
        hch m.nodes.length, if_pos rfl]
      omega
    refine ⟨⟨?_, ?_⟩, ?_⟩
    · intro j hj x hx
      show x < (c.foldl bumpFanout (m.nodes ++ [(⟨c, lit, 0⟩ : KNode)])).length
      rw [hlen]
      have hj2 : j < m.nodes.length + 1 := by
        have : j < (c.foldl bumpFanout (m.nodes ++ [(⟨c, lit, 0⟩ : KNode)])).length := hj
        omega
      rw [hch j] at hx
      by_cases hjl : j = m.nodes.length
      · rw [if_pos hjl] at hx
        have := hc x hx
        omega
      · rw [if_neg hjl] at hx
        have := hrc j (by omega) x hx
        omega
    · intro f hfm
      show f < (c.foldl bumpFanout (m.nodes ++ [(⟨c, lit, 0⟩ : KNode)])).length
      rw [hlen]
      have hm : f ∈ m.outputs := hfm
      have := hro f hm
      omega
    · intro j hj
      have hj2 : j < m.nodes.length + 1 := by
        have : j < (c.foldl bumpFanout (m.nodes ++ [(⟨c, lit, 0⟩ : KNode)])).length := hj
        omega
      show ((c.foldl bumpFanout (m.nodes ++ [(⟨c, lit, 0⟩ : KNode)])).getD j default).fanout
        = _
      rw [hfan j, hrc2 j, if_pos hj2]
      by_cases hjl : j = m.nodes.length
      · rw [if_pos hjl]
        have hz : refCount m j = 0 := by
          unfold refCount
          rw [oRefs_eq_zero j m.nodes m.nodes.length 0
              (fun k hk1 hk2 hmem => by
                have := hrc k (by omega) j hmem
                omega),
            List.count_eq_zero.mpr (fun hmem => by have := hro j hmem; omega)]
        rw [hz]
      · rw [if_neg hjl, hfo j (by omega)]

theorem inv_create_node (n : KlutNtk) (c : List Nat) (f : TT)
    (hc : ∀ x ∈ c, x < n.nodes.length)
    (h : RangeOK n ∧ FanoutOK n) :
    RangeOK (create_node n c f).2 ∧ FanoutOK (create_node n c f).2 :=
  inv_create_node_aux { n with cache := (cacheInsert n.cache f).2 } c
    (cacheInsert n.cache f).1 hc h

theorem inv_substitute (n : KlutNtk) (o s : Nat) (ho : o < n.nodes.length)
    (hs : s < n.nodes.length) (hos : s ≠ o)
    (h : RangeOK n ∧ FanoutOK n) :
    RangeOK (substitute_node n o s).1 ∧ FanoutOK (substitute_node n o s).1 := by
  obtain ⟨⟨hrc, hro⟩, hfo⟩ := h
  have hnodes : (substitute_node n o s).1.nodes = substNodes3 n o s := by
    rw [substitute_node_eq]
  have hout : (substitute_node n o s).1.outputs = replaceList o s n.outputs := by
    rw [substitute_node_eq]
    rfl
  have hlen : (substitute_node n o s).1.nodes.length = n.nodes.length := by
    rw [hnodes, substNodes3_length]
  have hrc2s : refCount (substitute_node n o s).1 s
      = refCount n s + (oRefs o n.nodes 0 n.nodes.length + n.outputs.count o) := by
    unfold refCount
    rw [hnodes, substNodes3_length,
      oRefs_replace_new o s hos n.nodes (substNodes3 n o s)
        (substNodes3_children_all n o s) n.nodes.length 0,
      hout, count_replaceList_new o s hos]
    omega
  have hrc2o : refCount (substitute_node n o s).1 o = 0 := by
    unfold refCount
    rw [hnodes, substNodes3_length,
      oRefs_replace_old o s hos n.nodes (substNodes3 n o s)
        (substNodes3_children_all n o s) n.nodes.length 0,
      hout, count_replaceList_old o s hos]
  have hrc2other : ∀ t, t ≠ o → t ≠ s →
      refCount (substitute_node n o s).1 t = refCount n t := by
    intro t hto hts
    unfold refCount
    rw [hnodes, substNodes3_length,
      oRefs_replace_other o s t hto hts n.nodes (substNodes3 n o s)
        (substNodes3_children_all n o s) n.nodes.length 0,
      hout, count_replaceList_other o s t hto hts]
  refine ⟨⟨?_, ?_⟩, ?_⟩
  · intro j hj x hx
    rw [hlen] at hj ⊢
    rw [hnodes, substNodes3_children_all] at hx
    rcases mem_replaceList o s x _ hx with hx1 | hx2
    · omega
    · exact hrc j hj x hx2
  · intro f hfm
    rw [hlen]
    rw [hout] at hfm
    rcases mem_replaceList o s f _ hfm with hf1 | hf2
    · omega
    · exact hro f hf2
  · intro j hj
    rw [hlen] at hj
    rw [hnodes, substNodes3_fanout]
    by_cases hjo : j = o
    · rw [if_pos ⟨hjo, ho⟩, hjo, hrc2o]
    · rw [if_neg (fun hh => hjo hh.1), substNodes2_fanout]
      by_cases hjs : j = s
      · rw [if_pos ⟨hjs, hs⟩, hjs, hrc2s, hfo s hs]
      · rw [if_neg (fun hh => hjs hh.1), hrc2other j hjo hjs, hfo j hj]
        omega

theorem inv_klutInit : RangeOK klutInit ∧ FanoutOK klutInit := by
  refine ⟨⟨?_, ?_⟩, ?_⟩
  · intro j hj c hc
    have hj2 : j < 2 := hj
    interval_cases j
    · exact absurd hc (List.not_mem_nil c)
    · exact absurd hc (List.not_mem_nil c)
  · intro f hfm
    exact absurd hfm (List.not_mem_nil f)
  · intro j hj
    have hj2 : j < 2 := hj
    interval_cases j
    · decide
    · decide

theorem inv_run (ops : List KOp) : ∀ n : KlutNtk,
    KSeqOK KOp.okAmended n ops → RangeOK n ∧ FanoutOK n →
    RangeOK (ops.foldl kstep n) ∧ FanoutOK (ops.foldl kstep n) := by
  induction ops with
  | nil => intro n _ h; exact h
  | cons op ops ih =>
    intro n hseq h
    obtain ⟨hop, hrest⟩ := hseq
    rw [List.foldl_cons]
    apply ih (kstep n op) hrest
    cases op with
    | pi => exact inv_create_pi n h
    | node c f => exact inv_create_node n c f hop h
    | po f => exact inv_create_po n f hop h
    | sub o s => exact inv_substitute n o s hop.1 hop.2.1 hop.2.2 h

end Klut

namespace Klut

/-- A call sequence that is sane as the claim states it, yet ends with
`substitute_node(3, 3)`: one PI, one gate over `[2, 2]`, one PO on the gate,
then a self-substitution of the gate. -/
def c8Ops : List KOp :=
  [KOp.pi, KOp.node [2, 2] [false, false, false, true], KOp.po 3, KOp.sub 3 3]

/-- A sane call sequence for the witness: two PIs, an AND gate over them,
and a PO on the gate. -/
def c8wOps : List KOp :=
  [KOp.pi, KOp.pi, KOp.node [2, 3] [false, false, false, true], KOp.po 4]

end Klut

/-- Claim C8, counterexample: after the call sequence `c8Ops` — every call of
which references only existing nodes — node 3 is still referenced by one
primary output (reference count 1) but its fan-out counter is 0, because
`substitute_node(3, 3)` unconditionally zeroes the substituted node's
fan-out counter even when the new signal is the node itself. -/
theorem C8_fanout_counterexample :
    Klut.KSeqOK Klut.KOp.okStated Klut.klutInit Klut.c8Ops ∧
    3 < (Klut.runKOps Klut.c8Ops).nodes.length ∧
    ((Klut.runKOps Klut.c8Ops).nodes.getD 3 default).fanout = 0 ∧
    Klut.refCount (Klut.runKOps Klut.c8Ops) 3 = 1 := by
  decide

/-- Claim C8 (amended): for every call sequence of `create_pi`,
`create_node`, `create_po` and `substitute_node` in which every referenced
node exists and `substitute_node` is never called with the new signal equal
to the replaced node, every node's fan-out counter equals the number of
fanin references to it across all node children lists plus the number of
primary outputs referencing it; in particular every node referenced by a
primary output or by some node's fanin list has fan-out count at least 1. -/
theorem C8_fanout_invariant (ops : List Klut.KOp)
    (h : Klut.KSeqOK Klut.KOp.okAmended Klut.klutInit ops) :
    Klut.FanoutOK (Klut.runKOps ops) ∧
    ∀ t, t < (Klut.runKOps ops).nodes.length →
      (t ∈ (Klut.runKOps ops).outputs ∨
        ∃ j, j < (Klut.runKOps ops).nodes.length ∧
          t ∈ ((Klut.runKOps ops).nodes.getD j default).children) →
      1 ≤ ((Klut.runKOps ops).nodes.getD t default).fanout := by
  have hinv : Klut.RangeOK (Klut.runKOps ops) ∧ Klut.FanoutOK (Klut.runKOps ops) :=
    Klut.inv_run ops Klut.klutInit h Klut.inv_klutInit
  refine ⟨hinv.2, ?_⟩
  intro t ht hsrc
  rw [hinv.2 t ht]
  unfold Klut.refCount
  rcases hsrc with hmem | ⟨j, hj, hjc⟩
  · have hne : (Klut.runKOps ops).outputs.count t ≠ 0 :=
      fun h0 => (List.count_eq_zero.mp h0) hmem
    omega
  · have hle := Klut.count_le_oRefs t (Klut.runKOps ops).nodes
      (Klut.runKOps ops).nodes.length 0 j (by omega) (by omega)
    have hne : ((Klut.runKOps ops).nodes.getD j default).children.count t ≠ 0 :=
      fun h0 => (List.count_eq_zero.mp h0) hjc
    omega

/-- Witness for C8: the amended theorem applied to the sane sequence
`c8wOps`. -/
theorem C8_fanout_invariant_witness :
    Klut.KSeqOK Klut.KOp.okAmended Klut.klutInit Klut.c8wOps ∧
    (Klut.FanoutOK (Klut.runKOps Klut.c8wOps) ∧
     ∀ t, t < (Klut.runKOps Klut.c8wOps).nodes.length →
       (t ∈ (Klut.runKOps Klut.c8wOps).outputs ∨
         ∃ j, j < (Klut.runKOps Klut.c8wOps).nodes.length ∧
           t ∈ ((Klut.runKOps Klut.c8wOps).nodes.getD j default).children) →
       1 ≤ ((Klut.runKOps Klut.c8wOps).nodes.getD t default).fanout) :=
  ⟨by decide, C8_fanout_invariant Klut.c8wOps (by decide)⟩

namespace Reconv

/-- The generic network interface used by `compute_reconvergence_driven_cut_impl`
(reconv_cut.hpp): per-node fanin lists and the `is_constant` / `is_pi`
classification.  `value` marks are carried separately as the list of marked
nodes. -/
structure RNtk where
  fanins : List (List Nat)
  isConst : List Bool
  isPi : List Bool
deriving DecidableEq, Repr

/-- `foreach_fanin`: the fanin list of a node. -/
def fanin (ntk : RNtk) (v : Nat) : List Nat :=
  ntk.fanins.getD v []

/-- `is_constant`. -/
def is_constant (ntk : RNtk) (v : Nat) : Bool :=
  ntk.isConst.getD v false

/-- `is_pi`. -/
def is_pi (ntk : RNtk) (v : Nat) : Bool :=
  ntk.isPi.getD v false

/-- `cost(n)` (reconv_cut.hpp, lines 239-250): start at -1 and add one for
every fanin that is neither constant nor marked. -/
def cost (ntk : RNtk) (vals : List Nat) (n : Nat) : Int :=
  (fanin ntk n).foldl
    (fun acc child =>
      if is_constant ntk child = false ∧ child ∉ vals then acc + 1 else acc)
    (-1)

/-- The in-place `std::sort` by increasing cost, modelled as a sort by the
reflexive closure of the comparator. -/
def sortCut (ntk : RNtk) (vals : List Nat) (cut : List Nat) : List Nat :=
  List.insertionSort (fun a b => cost ntk vals a ≤ cost ntk vals b) cut

/-- The fanin loop that expands the cut with the children of `n`: push a
child unless the EXPANDED NODE `n` is constant (the code tests
`is_constant(n)`, not the child) or the child is already in the cut or
marked; a pushed child is marked. -/
def pushGo (ntk : RNtk) (n : Nat) (children : List Nat)
    (p : List Nat × List Nat) : List Nat × List Nat :=
  children.foldl
    (fun p child =>
      if is_constant ntk n = false ∧ child ∉ p.1 ∧ child ∉ p.2
      then (p.1 ++ [child], p.2 ++ [child])
      else p)
    p

/-- Expand the cut (already erased at `n`) with the children of `n`. -/
def pushChildren (ntk : RNtk) (n : Nat) (cut vals : List Nat) :
    List Nat × List Nat :=
  pushGo ntk n (fanin ntk n) (cut, vals)

/-- `compute_cut_recur` (reconv_cut.hpp, lines 203-237) with explicit fuel:
sort the cut by cost, find the first non-PI leaf; return if there is none or
if expanding it would exceed `cut_size`; otherwise erase it, push its
children and recurse.  `none` means the fuel ran out. -/
def ccr (ntk : RNtk) (cs : Nat) : Nat → List Nat → List Nat →
    Option (List Nat × List Nat)
  | 0, _, _ => none
  | fuel + 1, cut, vals =>
    match (sortCut ntk vals cut).find? (fun v => !(is_pi ntk v)) with
    | none => some (sortCut ntk vals cut, vals)
    | some n =>
      if (cut.length : Int) + cost ntk vals n > (cs : Int)
      then some (sortCut ntk vals cut, vals)
      else
        ccr ntk cs fuel
          (pushChildren ntk n ((sortCut ntk vals cut).erase n) vals).1
          (pushChildren ntk n ((sortCut ntk vals cut).erase n) vals).2

/-- Whether the entry assertion `cut.size() <= cut_size` holds at every
call of `compute_cut_recur` actually entered (within the given fuel). -/
def ccrAssertsB (ntk : RNtk) (cs : Nat) : Nat → List Nat → List Nat → Bool
  | 0, _, _ => true
  | fuel + 1, cut, vals =>
    decide (cut.length ≤ cs) &&
    (match (sortCut ntk vals cut).find? (fun v => !(is_pi ntk v)) with
     | none => true
     | some n =>
       if (cut.length : Int) + cost ntk vals n > (cs : Int) then true
       else
         ccrAssertsB ntk cs fuel
           (pushChildren ntk n ((sortCut ntk vals cut).erase n) vals).1
           (pushChildren ntk n ((sortCut ntk vals cut).erase n) vals).2)

/-- The counterexample network: nodes 0 and 1 are the constants, node 2 a
primary input, node 3 a gate with fanins `[0, 1, 2]`. -/
def ntkC4 : RNtk :=
  { fanins := [[], [], [], [0, 1, 2]]
    isConst := [true, true, false, false]
    isPi := [false, false, true, false] }

/-- The pivot set for the counterexample. -/
def c4Pivots : List Nat := [3]

end Reconv

namespace Reconv

theorem countP_mono_mem (p q : Nat → Bool) :
    ∀ l : List Nat, (∀ a ∈ l, p a = true → q a = true) → l.countP p ≤ l.countP q
  | [], _ => le_refl 0
  | c :: l, h => by
    rw [List.countP_cons, List.countP_cons]
    have ih := countP_mono_mem p q l (fun a ha => h a (List.mem_cons_of_mem c ha))
    by_cases hp : p c = true
    · rw [if_pos hp, if_pos (h c (List.mem_cons_self c l) hp)]
      omega
    · rw [if_neg hp]
      by_cases hq : q c = true
      · rw [if_pos hq]
        omega
      · rw [if_neg hq]
        omega

theorem countP_congr_mem (p q : Nat → Bool) :
    ∀ l : List Nat, (∀ a ∈ l, p a = q a) → l.countP p = l.countP q
  | [], _ => rfl
  | c :: l, h => by
    rw [List.countP_cons, List.countP_cons, h c (List.mem_cons_self c l),
      countP_congr_mem p q l (fun a ha => h a (List.mem_cons_of_mem c ha))]

theorem foldl_count (P : Nat → Prop) [DecidablePred P] :
    ∀ (l : List Nat) (a : Int),
      l.foldl (fun acc c => if P c then acc + 1 else acc) a
        = a + (l.countP (fun c => decide (P c)) : Int)
  | [], a => by simp
  | c :: l, a => by
    rw [List.foldl_cons, List.countP_cons]
    by_cases h : P c
    · rw [if_pos h, foldl_count P l (a + 1), if_pos (decide_eq_true h)]
      push_cast
      omega
    · rw [if_neg h, foldl_count P l a, if_neg (fun hh => h (of_decide_eq_true hh))]
      push_cast
      omega

theorem cost_eq (ntk : RNtk) (vals : List Nat) (n : Nat) :
    cost ntk vals n
      = -1 + ((fanin ntk n).countP
          (fun c => decide (is_constant ntk c = false ∧ c ∉ vals)) : Int) :=
  foldl_count _ _ _

theorem pushGo_cons (ntk : RNtk) (n c : Nat) (children : List Nat)
    (p : List Nat × List Nat) :
    pushGo ntk n (c :: children) p
      = pushGo ntk n children
          (if is_constant ntk n = false ∧ c ∉ p.1 ∧ c ∉ p.2
           then (p.1 ++ [c], p.2 ++ [c]) else p) := rfl

theorem pushGo_fst_le (ntk : RNtk) (n : Nat) :
    ∀ (children : List Nat) (p : List Nat × List Nat),
      (pushGo ntk n children p).1.length
        ≤ p.1.length + children.countP (fun c => decide (c ∉ p.2))
  | [], p => le_refl _
  | c :: children, p => by
    rw [pushGo_cons, List.countP_cons]
    by_cases hcond : is_constant ntk n = false ∧ c ∉ p.1 ∧ c ∉ p.2
    · rw [if_pos hcond]
      have ih := pushGo_fst_le ntk n children (p.1 ++ [c], p.2 ++ [c])
      have hmono := countP_mono_mem (fun x => decide (x ∉ p.2 ++ [c]))
        (fun x => decide (x ∉ p.2)) children
        (fun a _ ha => decide_eq_true
          (fun hm => (of_decide_eq_true ha) (List.mem_append_left [c] hm)))
      rw [if_pos (decide_eq_true hcond.2.2)]
      simp only [List.length_append, List.length_singleton] at ih
      omega
    · rw [if_neg hcond]
      have ih := pushGo_fst_le ntk n children p
      by_cases hc2 : c ∉ p.2
      · rw [if_pos (decide_eq_true hc2)]
        omega
      · rw [if_neg (fun hh => hc2 (of_decide_eq_true hh))]
        omega

theorem pushGo_delta (ntk : RNtk) (n : Nat) :
    ∀ (children : List Nat) (p : List Nat × List Nat),
      (pushGo ntk n children p).1.length + p.2.length
        = (pushGo ntk n children p).2.length + p.1.length
  | [], p => Nat.add_comm p.1.length p.2.length
  | c :: children, p => by
    rw [pushGo_cons]
    by_cases hcond : is_constant ntk n = false ∧ c ∉ p.1 ∧ c ∉ p.2
    · rw [if_pos hcond]
      have ih := pushGo_delta ntk n children (p.1 ++ [c], p.2 ++ [c])
      simp only [List.length_append, List.length_singleton] at ih
      omega
    · rw [if_neg hcond]
      exact pushGo_delta ntk n children p

theorem pushGo_fst_ge (ntk : RNtk) (n : Nat) :
    ∀ (children : List Nat) (p : List Nat × List Nat),
      p.1.length ≤ (pushGo ntk n children p).1.length
  | [], _ => le_refl _
  | c :: children, p => by
    rw [pushGo_cons]
    by_cases hcond : is_constant ntk n = false ∧ c ∉ p.1 ∧ c ∉ p.2
    · rw [if_pos hcond]
      have ih := pushGo_fst_ge ntk n children (p.1 ++ [c], p.2 ++ [c])
      simp only [List.length_append, List.length_singleton] at ih
      omega
    · rw [if_neg hcond]
      exact pushGo_fst_ge ntk n children p

theorem nodup_append_sing (l : List Nat) (c : Nat) (h1 : l.Nodup) (h2 : c ∉ l) :
    (l ++ [c]).Nodup := by
  rw [List.nodup_append]
  exact ⟨h1, List.nodup_singleton c,
    fun a ha hb => h2 ((List.mem_singleton.mp hb) ▸ ha)⟩

theorem pushGo_snd_inv (ntk : RNtk) (n N : Nat) :
    ∀ (children : List Nat) (p : List Nat × List Nat),
      p.2.Nodup → (∀ v ∈ p.2, v < N) → (∀ c ∈ children, c < N) →
      (pushGo ntk n children p).2.Nodup ∧ ∀ v ∈ (pushGo ntk n children p).2, v < N
  | [], p, h1, h2, _ => ⟨h1, h2⟩
  | c :: children, p, h1, h2, h3 => by
    rw [pushGo_cons]
    by_cases hcond : is_constant ntk n = false ∧ c ∉ p.1 ∧ c ∉ p.2
    · rw [if_pos hcond]
      refine pushGo_snd_inv ntk n N children (p.1 ++ [c], p.2 ++ [c])
        (nodup_append_sing p.2 c h1 hcond.2.2) ?_
        (fun x hx => h3 x (List.mem_cons_of_mem c hx))
      intro v hv
      rcases List.mem_append.mp hv with hv1 | hv2
      · exact h2 v hv1
      · rw [List.mem_singleton.mp hv2]
        exact h3 c (List.mem_cons_self c children)
    · rw [if_neg hcond]
      exact pushGo_snd_inv ntk n N children p h1 h2
        (fun x hx => h3 x (List.mem_cons_of_mem c hx))

theorem nodup_lt_length_le (l : List Nat) (N : Nat) (hn : l.Nodup)
    (hr : ∀ v ∈ l, v < N) : l.length ≤ N := by
  have h1 : l.toFinset ⊆ Finset.range N :=
    fun x hx => Finset.mem_range.mpr (hr x (List.mem_toFinset.mp hx))
  have h2 := Finset.card_le_card h1
  rw [Finset.card_range, List.toFinset_card_of_nodup hn] at h2
  exact h2

theorem ccrAsserts_inv (ntk : RNtk) (cs : Nat)
    (hnc : ∀ j, ∀ c ∈ fanin ntk j, is_constant ntk c = false) :
    ∀ (fuel : Nat) (cut vals : List Nat), cut.length ≤ cs →
      ccrAssertsB ntk cs fuel cut vals = true
  | 0, _, _, _ => rfl
  | fuel + 1, cut, vals, hlen => by
    unfold ccrAssertsB
    rw [Bool.and_eq_true]
    refine ⟨decide_eq_true hlen, ?_⟩
    cases hf : (sortCut ntk vals cut).find? (fun v => !(is_pi ntk v)) with
    | none => rfl
    | some n =>
      show (if (cut.length : Int) + cost ntk vals n > (cs : Int) then true
        else ccrAssertsB ntk cs fuel
          (pushChildren ntk n ((sortCut ntk vals cut).erase n) vals).1
          (pushChildren ntk n ((sortCut ntk vals cut).erase n) vals).2) = true
      by_cases hg : (cut.length : Int) + cost ntk vals n > (cs : Int)
      · rw [if_pos hg]
      · rw [if_neg hg]
        apply ccrAsserts_inv ntk cs hnc fuel
        have hmem : n ∈ sortCut ntk vals cut := List.mem_of_find?_eq_some hf
        have hSlen : (sortCut ntk vals cut).length = cut.length :=
          (List.perm_insertionSort _ cut).length_eq
        have hE : ((sortCut ntk vals cut).erase n).length
            = (sortCut ntk vals cut).length - 1 := List.length_erase_of_mem hmem
        have hS1 : 0 < (sortCut ntk vals cut).length := List.length_pos_of_mem hmem
        have hpush : (pushGo ntk n (fanin ntk n)
            ((sortCut ntk vals cut).erase n, vals)).1.length
              ≤ ((sortCut ntk vals cut).erase n).length
                + (fanin ntk n).countP (fun c => decide (c ∉ vals)) :=
          pushGo_fst_le ntk n (fanin ntk n) ((sortCut ntk vals cut).erase n, vals)
        have hcong := countP_congr_mem
          (fun c => decide (is_constant ntk c = false ∧ c ∉ vals))
          (fun c => decide (c ∉ vals)) (fanin ntk n)
          (fun a ha => by simp [hnc n a ha])
        rw [cost_eq, hcong] at hg
        show (pushGo ntk n (fanin ntk n)
          ((sortCut ntk vals cut).erase n, vals)).1.length ≤ cs
        omega

theorem ccr_terminates (ntk : RNtk) (cs N : Nat)
    (hrange : ∀ j, ∀ c ∈ fanin ntk j, c < N) :
    ∀ (fuel : Nat) (cut vals : List Nat), vals.Nodup → (∀ v ∈ vals, v < N) →
      2 * (N - vals.length) + cut.length + 1 ≤ fuel →
      (ccr ntk cs fuel cut vals).isSome = true
  | 0, cut, vals, _, _, hfuel => absurd hfuel (by omega)
  | fuel + 1, cut, vals, hnd, hvr, hfuel => by
    unfold ccr
    cases hf : (sortCut ntk vals cut).find? (fun v => !(is_pi ntk v)) with
    | none => rfl
    | some n =>
      show ((if (cut.length : Int) + cost ntk vals n > (cs : Int)
        then some (sortCut ntk vals cut, vals)
        else ccr ntk cs fuel
          (pushChildren ntk n ((sortCut ntk vals cut).erase n) vals).1
          (pushChildren ntk n ((sortCut ntk vals cut).erase n) vals).2) :
          Option (List Nat × List Nat)).isSome = true
      by_cases hg : (cut.length : Int) + cost ntk vals n > (cs : Int)
      · rw [if_pos hg]
        rfl
      · rw [if_neg hg]
        have hmem : n ∈ sortCut ntk vals cut := List.mem_of_find?_eq_some hf
        have hSlen : (sortCut ntk vals cut).length = cut.length :=
          (List.perm_insertionSort _ cut).length_eq
        have hE : ((sortCut ntk vals cut).erase n).length
            = (sortCut ntk vals cut).length - 1 := List.length_erase_of_mem hmem
        have hS1 : 0 < (sortCut ntk vals cut).length := List.length_pos_of_mem hmem
        have hinv : (pushChildren ntk n ((sortCut ntk vals cut).erase n) vals).2.Nodup
            ∧ ∀ v ∈ (pushChildren ntk n ((sortCut ntk vals cut).erase n) vals).2,
                v < N :=
          pushGo_snd_inv ntk n N (fanin ntk n)
            ((sortCut ntk vals cut).erase n, vals) hnd hvr (hrange n)
        have hdelta : (pushChildren ntk n ((sortCut ntk vals cut).erase n) vals).1.length
              + vals.length
            = (pushChildren ntk n ((sortCut ntk vals cut).erase n) vals).2.length
              + ((sortCut ntk vals cut).erase n).length :=
          pushGo_delta ntk n (fanin ntk n) ((sortCut ntk vals cut).erase n, vals)
        have hge : ((sortCut ntk vals cut).erase n).length
            ≤ (pushChildren ntk n ((sortCut ntk vals cut).erase n) vals).1.length :=
          pushGo_fst_ge ntk n (fanin ntk n) ((sortCut ntk vals cut).erase n, vals)
        have hVN : (pushChildren ntk n ((sortCut ntk vals cut).erase n) vals).2.length
            ≤ N :=
          nodup_lt_length_le _ N hinv.1 hinv.2
        exact ccr_terminates ntk cs N hrange fuel
          (pushChildren ntk n ((sortCut ntk vals cut).erase n) vals).1
          (pushChildren ntk n ((sortCut ntk vals cut).erase n) vals).2
          hinv.1 hinv.2 (by omega)

end Reconv

namespace Reconv

/-- The witness network: constants 0 and 1 (unreferenced), PI 2, and a gate 3
reading PI 2 twice. -/
def ntkC4w : RNtk :=
  { fanins := [[], [], [], [2, 2]]
    isConst := [true, true, false, false]
    isPi := [false, false, true, false] }

/-- The pivot set for the witness. -/
def c4wPivots : List Nat := [3]

end Reconv

/-- Claim C4, counterexample: on `ntkC4` with `cut_size = 2` and the
non-empty pivot set `[3]` (which respects the size bound), the gate's two
constant fanins are pushed into the cut — `cost` does not count constant
fanins but the expansion filter tests `is_constant` on the EXPANDED node,
not on the child — so the next recursive call starts with a cut of size 3
and the `cut-size overflow` assertion fails. -/
theorem C4_cut_counterexample :
    Reconv.c4Pivots ≠ [] ∧
    Reconv.c4Pivots.length ≤ 2 ∧
    Reconv.ccrAssertsB Reconv.ntkC4 2 2 Reconv.c4Pivots Reconv.c4Pivots = false := by
  decide

/-- Claim C4 (amended): if the pivot set is non-empty, within the size
bound, duplicate-free and in range, no node has a constant fanin, and all
fanins are in range, then the `cut-size overflow` assertion at the entry of
every entered recursive call holds regardless of the fuel, and the
computation terminates within fuel `2*numNodes + |pivots| + 1` (each
expansion strictly decreases `2*(numNodes - marked) + |cut|`); expansion
stops exactly when no non-PI leaf remains or when expanding the cheapest
non-PI leaf would exceed `cut_size`. -/
theorem C4_reconv_cut (ntk : Reconv.RNtk) (cs : Nat) (pivots : List Nat)
    (hne : pivots ≠ []) (hlen : pivots.length ≤ cs)
    (hnc : ∀ j, j < ntk.fanins.length →
      ∀ c ∈ Reconv.fanin ntk j, Reconv.is_constant ntk c = false)
    (hrange : ∀ j, j < ntk.fanins.length →
      ∀ c ∈ Reconv.fanin ntk j, c < ntk.fanins.length)
    (hnd : pivots.Nodup) (hpr : ∀ v ∈ pivots, v < ntk.fanins.length) :
    (∀ fuel, Reconv.ccrAssertsB ntk cs fuel pivots pivots = true) ∧
    (∀ fuel,
      2 * (ntk.fanins.length - pivots.length) + pivots.length + 1 ≤ fuel →
      (Reconv.ccr ntk cs fuel pivots pivots).isSome = true) := by
  have hnc2 : ∀ j, ∀ c ∈ Reconv.fanin ntk j,
      Reconv.is_constant ntk c = false := by
    intro j c hc
    by_cases hj : j < ntk.fanins.length
    · exact hnc j hj c hc
    · exfalso
      unfold Reconv.fanin at hc
      rw [List.getD_eq_default _ _ (by omega)] at hc
      exact List.not_mem_nil c hc
  have hrange2 : ∀ j, ∀ c ∈ Reconv.fanin ntk j, c < ntk.fanins.length := by
    intro j c hc
    by_cases hj : j < ntk.fanins.length
    · exact hrange j hj c hc
    · exfalso
      unfold Reconv.fanin at hc
      rw [List.getD_eq_default _ _ (by omega)] at hc
      exact List.not_mem_nil c hc
  exact ⟨fun fuel => Reconv.ccrAsserts_inv ntk cs hnc2 fuel pivots pivots hlen,
    fun fuel hf => Reconv.ccr_terminates ntk cs ntk.fanins.length hrange2 fuel
      pivots pivots hnd hpr hf⟩

/-- Witness for C4: the amended theorem applied to `ntkC4w` with
`cut_size = 2` and pivot set `[3]`. -/
theorem C4_reconv_cut_witness :
    Reconv.c4wPivots ≠ [] ∧
    ((∀ fuel, Reconv.ccrAssertsB Reconv.ntkC4w 2 fuel
        Reconv.c4wPivots Reconv.c4wPivots = true) ∧
     (∀ fuel,
       2 * (Reconv.ntkC4w.fanins.length - Reconv.c4wPivots.length)
         + Reconv.c4wPivots.length + 1 ≤ fuel →
       (Reconv.ccr Reconv.ntkC4w 2 fuel
         Reconv.c4wPivots Reconv.c4wPivots).isSome = true)) :=
  ⟨by decide,
    C4_reconv_cut Reconv.ntkC4w 2 Reconv.c4wPivots (by decide) (by decide)
      (by decide) (by decide) (by decide) (by decide)⟩

namespace Mffc

/-- `uint32_t` scratch counters. -/
abbrev C32 := ZMod (2 ^ 32)

/-- The network data `recursive_deref` / `recursive_ref` read: per-node
fanin lists, the `is_constant || is_ci || is_ro` termination classification,
and the per-node `cost_fn` value. -/
structure DNtk where
  fanins : List (List Nat)
  isTerm : List Bool
  cost : List Nat
deriving DecidableEq

def fanin (ntk : DNtk) (v : Nat) : List Nat := ntk.fanins.getD v []

def term (ntk : DNtk) (v : Nat) : Bool := ntk.isTerm.getD v false

def costOf (ntk : DNtk) (v : Nat) : C32 := (ntk.cost.getD v 0 : C32)

/-- The fanin loop of `recursive_deref`: pre-decrement each child's counter
(`--h2`, wrapping), and when the NEW value is 0, recurse and accumulate. -/
def derefList (rec : Nat → List C32 → C32 × List C32) :
    List Nat → List C32 → C32 × List C32
  | [], σ => (0, σ)
  | c :: cs, σ =>
    if σ.getD c 0 - 1 = 0 then
      ((rec c (σ.set c (σ.getD c 0 - 1))).1
         + (derefList rec cs (rec c (σ.set c (σ.getD c 0 - 1))).2).1,
       (derefList rec cs (rec c (σ.set c (σ.getD c 0 - 1))).2).2)
    else derefList rec cs (σ.set c (σ.getD c 0 - 1))

/-- `cut_rewriting_impl::recursive_deref` (lines 1033-1048), with fuel:
return 0 on a terminal node, otherwise start from `cost_fn(n)` and process
the fanins. -/
def derefN (ntk : DNtk) : Nat → Nat → List C32 → C32 × List C32
  | 0, _, σ => (0, σ)
  | fuel + 1, n, σ =>
    if term ntk n then (0, σ)
    else
      (costOf ntk n + (derefList (derefN ntk fuel) (fanin ntk n) σ).1,
       (derefList (derefN ntk fuel) (fanin ntk n) σ).2)

/-- The fanin loop of `recursive_ref`: post-increment each child's counter
(`h2++`), and when the OLD value was 0, recurse and accumulate. -/
def refList (rec : Nat → List C32 → C32 × List C32) :
    List Nat → List C32 → C32 × List C32
  | [], σ => (0, σ)
  | c :: cs, σ =>
    if σ.getD c 0 = 0 then
      ((rec c (σ.set c (σ.getD c 0 + 1))).1
         + (refList rec cs (rec c (σ.set c (σ.getD c 0 + 1))).2).1,
       (refList rec cs (rec c (σ.set c (σ.getD c 0 + 1))).2).2)
    else refList rec cs (σ.set c (σ.getD c 0 + 1))

/-- `cut_rewriting_impl::recursive_ref` (lines 1050-1065), with fuel. -/
def refN (ntk : DNtk) : Nat → Nat → List C32 → C32 × List C32
  | 0, _, σ => (0, σ)
  | fuel + 1, n, σ =>
    if term ntk n then (0, σ)
    else
      (costOf ntk n + (refList (refN ntk fuel) (fanin ntk n) σ).1,
       (refList (refN ntk fuel) (fanin ntk n) σ).2)

/-- `recursive_deref` with its canonical fuel (enough when fanins point to
strictly smaller node indices). -/
def Dnode (ntk : DNtk) (n : Nat) (σ : List C32) : C32 × List C32 :=
  derefN ntk (n + 1) n σ

/-- `recursive_ref` with its canonical fuel. -/
def Rnode (ntk : DNtk) (n : Nat) (σ : List C32) : C32 × List C32 :=
  refN ntk (n + 1) n σ

/-- One deref edge: decrement the child's counter and recurse on a hit. -/
def Dedge (ntk : DNtk) (c : Nat) (σ : List C32) : C32 × List C32 :=
  if σ.getD c 0 - 1 = 0 then Dnode ntk c (σ.set c (σ.getD c 0 - 1))
  else (0, σ.set c (σ.getD c 0 - 1))

/-- One ref edge: increment the child's counter and recurse on an old 0. -/
def Redge (ntk : DNtk) (c : Nat) (σ : List C32) : C32 × List C32 :=
  if σ.getD c 0 = 0 then Rnode ntk c (σ.set c (σ.getD c 0 + 1))
  else (0, σ.set c (σ.getD c 0 + 1))

/-- The deref fanin loop, written over `Dedge`. -/
def DListE (ntk : DNtk) : List Nat → List C32 → C32 × List C32
  | [], σ => (0, σ)
  | c :: cs, σ =>
    ((Dedge ntk c σ).1 + (DListE ntk cs (Dedge ntk c σ).2).1,
     (DListE ntk cs (Dedge ntk c σ).2).2)

/-- The ref fanin loop, written over `Redge`. -/
def RListE (ntk : DNtk) : List Nat → List C32 → C32 × List C32
  | [], σ => (0, σ)
  | c :: cs, σ =>
    ((Redge ntk c σ).1 + (RListE ntk cs (Redge ntk c σ).2).1,
     (RListE ntk cs (Redge ntk c σ).2).2)

end Mffc

namespace Mffc

theorem derefList_congr (f g : Nat → List C32 → C32 × List C32) :
    ∀ (cs : List Nat) (σ : List C32), (∀ c ∈ cs, ∀ τ, f c τ = g c τ) →
      derefList f cs σ = derefList g cs σ
  | [], _, _ => rfl
  | c :: cs, σ, h => by
    unfold derefList
    have htail : ∀ τ, derefList f cs τ = derefList g cs τ :=
      fun τ => derefList_congr f g cs τ
        (fun x hx τ2 => h x (List.mem_cons_of_mem c hx) τ2)
    by_cases hz : σ.getD c 0 - 1 = 0
    · rw [if_pos hz, if_pos hz, h c (List.mem_cons_self c cs), htail]
    · rw [if_neg hz, if_neg hz, htail]

theorem refList_congr (f g : Nat → List C32 → C32 × List C32) :
    ∀ (cs : List Nat) (σ : List C32), (∀ c ∈ cs, ∀ τ, f c τ = g c τ) →
      refList f cs σ = refList g cs σ
  | [], _, _ => rfl
  | c :: cs, σ, h => by
    unfold refList
    have htail : ∀ τ, refList f cs τ = refList g cs τ :=
      fun τ => refList_congr f g cs τ
        (fun x hx τ2 => h x (List.mem_cons_of_mem c hx) τ2)
    by_cases hz : σ.getD c 0 = 0
    · rw [if_pos hz, if_pos hz, h c (List.mem_cons_self c cs), htail]
    · rw [if_neg hz, if_neg hz, htail]

theorem derefList_len (rec : Nat → List C32 → C32 × List C32)
    (hrec : ∀ c τ, ((rec c τ).2).length = τ.length) :
    ∀ (cs : List Nat) (σ : List C32), ((derefList rec cs σ).2).length = σ.length
  | [], _ => rfl
  | c :: cs, σ => by
    unfold derefList
    by_cases hz : σ.getD c 0 - 1 = 0
    · rw [if_pos hz]
      show ((derefList rec cs (rec c (σ.set c (σ.getD c 0 - 1))).2).2).length = _
      rw [derefList_len rec hrec cs _, hrec, List.length_set]
    · rw [if_neg hz, derefList_len rec hrec cs _, List.length_set]

theorem refList_len (rec : Nat → List C32 → C32 × List C32)
    (hrec : ∀ c τ, ((rec c τ).2).length = τ.length) :
    ∀ (cs : List Nat) (σ : List C32), ((refList rec cs σ).2).length = σ.length
  | [], _ => rfl
  | c :: cs, σ => by
    unfold refList
    by_cases hz : σ.getD c 0 = 0
    · rw [if_pos hz]
      show ((refList rec cs (rec c (σ.set c (σ.getD c 0 + 1))).2).2).length = _
      rw [refList_len rec hrec cs _, hrec, List.length_set]
    · rw [if_neg hz, refList_len rec hrec cs _, List.length_set]

theorem derefN_len (ntk : DNtk) : ∀ (fuel n : Nat) (σ : List C32),
    ((derefN ntk fuel n σ).2).length = σ.length
  | 0, _, _ => rfl
  | fuel + 1, n, σ => by
    unfold derefN
    by_cases ht : term ntk n
    · rw [if_pos ht]
    · rw [if_neg ht]
      show ((derefList (derefN ntk fuel) (fanin ntk n) σ).2).length = σ.length
      exact derefList_len (derefN ntk fuel)
        (fun c τ => derefN_len ntk fuel c τ) (fanin ntk n) σ

theorem refN_len (ntk : DNtk) : ∀ (fuel n : Nat) (σ : List C32),
    ((refN ntk fuel n σ).2).length = σ.length
  | 0, _, _ => rfl
  | fuel + 1, n, σ => by
    unfold refN
    by_cases ht : term ntk n
    · rw [if_pos ht]
    · rw [if_neg ht]
      show ((refList (refN ntk fuel) (fanin ntk n) σ).2).length = σ.length
      exact refList_len (refN ntk fuel)
        (fun c τ => refN_len ntk fuel c τ) (fanin ntk n) σ

theorem derefN_fuel (ntk : DNtk) (hacyc : ∀ j, ∀ c ∈ fanin ntk j, c < j) :
    ∀ (n : Nat), ∀ (fuel : Nat) (σ : List C32), n + 1 ≤ fuel →
      derefN ntk fuel n σ = Dnode ntk n σ := by
  intro n
  induction n using Nat.strong_induction_on with
  | _ n ih =>
    intro fuel σ hf
    obtain ⟨f2, rfl⟩ : ∃ f2, fuel = f2 + 1 := ⟨fuel - 1, by omega⟩
    show derefN ntk (f2 + 1) n σ = derefN ntk (n + 1) n σ
    unfold derefN
    by_cases ht : term ntk n
    · rw [if_pos ht, if_pos ht]
    · rw [if_neg ht, if_neg ht,
        derefList_congr (derefN ntk f2) (derefN ntk n) (fanin ntk n) σ
          (fun c hc τ => by
            have hcn := hacyc n c hc
            rw [ih c hcn f2 τ (by omega), ih c hcn n τ (by omega)])]

theorem refN_fuel (ntk : DNtk) (hacyc : ∀ j, ∀ c ∈ fanin ntk j, c < j) :
    ∀ (n : Nat), ∀ (fuel : Nat) (σ : List C32), n + 1 ≤ fuel →
      refN ntk fuel n σ = Rnode ntk n σ := by
  intro n
  induction n using Nat.strong_induction_on with
  | _ n ih =>
    intro fuel σ hf
    obtain ⟨f2, rfl⟩ : ∃ f2, fuel = f2 + 1 := ⟨fuel - 1, by omega⟩
    show refN ntk (f2 + 1) n σ = refN ntk (n + 1) n σ
    unfold refN
    by_cases ht : term ntk n
    · rw [if_pos ht, if_pos ht]
    · rw [if_neg ht, if_neg ht,
        refList_congr (refN ntk f2) (refN ntk n) (fanin ntk n) σ
          (fun c hc τ => by
            have hcn := hacyc n c hc
            rw [ih c hcn f2 τ (by omega), ih c hcn n τ (by omega)])]

theorem derefList_eq_DListE (ntk : DNtk)
    (hacyc : ∀ j, ∀ c ∈ fanin ntk j, c < j) (fuel : Nat) :
    ∀ (cs : List Nat) (σ : List C32), (∀ c ∈ cs, c + 1 ≤ fuel) →
      derefList (derefN ntk fuel) cs σ = DListE ntk cs σ
  | [], _, _ => rfl
  | c :: cs, σ, h => by
    unfold derefList DListE Dedge
    have hc1 := h c (List.mem_cons_self c cs)
    have htail := fun τ => derefList_eq_DListE ntk hacyc fuel cs τ
      (fun x hx => h x (List.mem_cons_of_mem c hx))
    by_cases hz : σ.getD c 0 - 1 = 0
    · rw [if_pos hz, if_pos hz, derefN_fuel ntk hacyc c fuel _ hc1, htail]
    · rw [if_neg hz, if_neg hz, htail]
      show DListE ntk cs (σ.set c (σ.getD c 0 - 1))
        = (0 + (DListE ntk cs (σ.set c (σ.getD c 0 - 1))).1,
           (DListE ntk cs (σ.set c (σ.getD c 0 - 1))).2)
      rw [zero_add]

theorem refList_eq_RListE (ntk : DNtk)
    (hacyc : ∀ j, ∀ c ∈ fanin ntk j, c < j) (fuel : Nat) :
    ∀ (cs : List Nat) (σ : List C32), (∀ c ∈ cs, c + 1 ≤ fuel) →
      refList (refN ntk fuel) cs σ = RListE ntk cs σ
  | [], _, _ => rfl
  | c :: cs, σ, h => by
    unfold refList RListE Redge
    have hc1 := h c (List.mem_cons_self c cs)
    have htail := fun τ => refList_eq_RListE ntk hacyc fuel cs τ
      (fun x hx => h x (List.mem_cons_of_mem c hx))
    by_cases hz : σ.getD c 0 = 0
    · rw [if_pos hz, if_pos hz, refN_fuel ntk hacyc c fuel _ hc1, htail]
    · rw [if_neg hz, if_neg hz, htail]
      show RListE ntk cs (σ.set c (σ.getD c 0 + 1))
        = (0 + (RListE ntk cs (σ.set c (σ.getD c 0 + 1))).1,
           (RListE ntk cs (σ.set c (σ.getD c 0 + 1))).2)
      rw [zero_add]

theorem Dnode_term (ntk : DNtk) (n : Nat) (σ : List C32)
    (ht : term ntk n = true) : Dnode ntk n σ = (0, σ) := by
  show derefN ntk (n + 1) n σ = (0, σ)
  unfold derefN
  rw [if_pos ht]

theorem Rnode_term (ntk : DNtk) (n : Nat) (σ : List C32)
    (ht : term ntk n = true) : Rnode ntk n σ = (0, σ) := by
  show refN ntk (n + 1) n σ = (0, σ)
  unfold refN
  rw [if_pos ht]

theorem Dnode_unfold (ntk : DNtk) (hacyc : ∀ j, ∀ c ∈ fanin ntk j, c < j)
    (n : Nat) (σ : List C32) (ht : term ntk n = false) :
    Dnode ntk n σ
      = (costOf ntk n + (DListE ntk (fanin ntk n) σ).1,
         (DListE ntk (fanin ntk n) σ).2) := by
  show derefN ntk (n + 1) n σ = _
  unfold derefN
  rw [if_neg (by simp [ht]),
    derefList_eq_DListE ntk hacyc n (fanin ntk n) σ
      (fun c hc => by have := hacyc n c hc; omega)]

theorem Rnode_unfold (ntk : DNtk) (hacyc : ∀ j, ∀ c ∈ fanin ntk j, c < j)
    (n : Nat) (σ : List C32) (ht : term ntk n = false) :
    Rnode ntk n σ
      = (costOf ntk n + (RListE ntk (fanin ntk n) σ).1,
         (RListE ntk (fanin ntk n) σ).2) := by
  show refN ntk (n + 1) n σ = _
  unfold refN
  rw [if_neg (by simp [ht]),
    refList_eq_RListE ntk hacyc n (fanin ntk n) σ
      (fun c hc => by have := hacyc n c hc; omega)]

end Mffc

namespace Mffc

theorem set_getD_own {α : Type} : ∀ (l : List α) (i : Nat) (d : α),
    i < l.length → l.set i (l.getD i d) = l
  | [], i, d, h => by simp at h
  | x :: xs, 0, d, _ => rfl
  | x :: xs, i + 1, d, h => by
    show x :: xs.set i (xs.getD i d) = x :: xs
    rw [set_getD_own xs i d (by simpa using h)]

theorem Dedge_frame_aux (ntk : DNtk) (c j : Nat) (σ : List C32) (hcj : c < j)
    (hD : ∀ τ : List C32, ((Dnode ntk c τ).2).getD j 0 = τ.getD j 0) :
    ((Dedge ntk c σ).2).getD j 0 = σ.getD j 0 := by
  unfold Dedge
  by_cases hz : σ.getD c 0 - 1 = 0
  · rw [if_pos hz, hD, CutGraph.getD_set_ne _ _ _ _ _ (by omega)]
  · rw [if_neg hz]
    exact CutGraph.getD_set_ne _ _ _ _ _ (by omega)

theorem Redge_frame_aux (ntk : DNtk) (c j : Nat) (σ : List C32) (hcj : c < j)
    (hR : ∀ τ : List C32, ((Rnode ntk c τ).2).getD j 0 = τ.getD j 0) :
    ((Redge ntk c σ).2).getD j 0 = σ.getD j 0 := by
  unfold Redge
  by_cases hz : σ.getD c 0 = 0
  · rw [if_pos hz, hR, CutGraph.getD_set_ne _ _ _ _ _ (by omega)]
  · rw [if_neg hz]
    exact CutGraph.getD_set_ne _ _ _ _ _ (by omega)

theorem DListE_frame_aux (ntk : DNtk) (j : Nat) :
    ∀ (cs : List Nat) (σ : List C32), (∀ c ∈ cs, c < j) →
      (∀ c ∈ cs, ∀ τ : List C32, ((Dnode ntk c τ).2).getD j 0 = τ.getD j 0) →
      ((DListE ntk cs σ).2).getD j 0 = σ.getD j 0
  | [], _, _, _ => rfl
  | c :: cs, σ, h1, h2 => by
    unfold DListE
    show ((DListE ntk cs (Dedge ntk c σ).2).2).getD j 0 = _
    rw [DListE_frame_aux ntk j cs _
        (fun x hx => h1 x (List.mem_cons_of_mem c hx))
        (fun x hx => h2 x (List.mem_cons_of_mem c hx)),
      Dedge_frame_aux ntk c j σ (h1 c (List.mem_cons_self c cs))
        (h2 c (List.mem_cons_self c cs))]

theorem RListE_frame_aux (ntk : DNtk) (j : Nat) :
    ∀ (cs : List Nat) (σ : List C32), (∀ c ∈ cs, c < j) →
      (∀ c ∈ cs, ∀ τ : List C32, ((Rnode ntk c τ).2).getD j 0 = τ.getD j 0) →
      ((RListE ntk cs σ).2).getD j 0 = σ.getD j 0
  | [], _, _, _ => rfl
  | c :: cs, σ, h1, h2 => by
    unfold RListE
    show ((RListE ntk cs (Redge ntk c σ).2).2).getD j 0 = _
    rw [RListE_frame_aux ntk j cs _
        (fun x hx => h1 x (List.mem_cons_of_mem c hx))
        (fun x hx => h2 x (List.mem_cons_of_mem c hx)),
      Redge_frame_aux ntk c j σ (h1 c (List.mem_cons_self c cs))
        (h2 c (List.mem_cons_self c cs))]

theorem Dnode_frame (ntk : DNtk) (hacyc : ∀ j, ∀ c ∈ fanin ntk j, c < j) :
    ∀ (n : Nat) (σ : List C32) (j : Nat), n ≤ j →
      ((Dnode ntk n σ).2).getD j 0 = σ.getD j 0 := by
  intro n
  induction n using Nat.strong_induction_on with
  | _ n ih =>
    intro σ j hnj
    cases ht : term ntk n with
    | true => rw [Dnode_term ntk n σ ht]
    | false =>
      rw [Dnode_unfold ntk hacyc n σ ht]
      show ((DListE ntk (fanin ntk n) σ).2).getD j 0 = σ.getD j 0
      exact DListE_frame_aux ntk j (fanin ntk n) σ
        (fun c hc => by have := hacyc n c hc; omega)
        (fun c hc τ => ih c (hacyc n c hc) τ j (by have := hacyc n c hc; omega))

theorem Rnode_frame (ntk : DNtk) (hacyc : ∀ j, ∀ c ∈ fanin ntk j, c < j) :
    ∀ (n : Nat) (σ : List C32) (j : Nat), n ≤ j →
      ((Rnode ntk n σ).2).getD j 0 = σ.getD j 0 := by
  intro n
  induction n using Nat.strong_induction_on with
  | _ n ih =>
    intro σ j hnj
    cases ht : term ntk n with
    | true => rw [Rnode_term ntk n σ ht]
    | false =>
      rw [Rnode_unfold ntk hacyc n σ ht]
      show ((RListE ntk (fanin ntk n) σ).2).getD j 0 = σ.getD j 0
      exact RListE_frame_aux ntk j (fanin ntk n) σ
        (fun c hc => by have := hacyc n c hc; omega)
        (fun c hc τ => ih c (hacyc n c hc) τ j (by have := hacyc n c hc; omega))

theorem Dedge_setcomm_aux (ntk : DNtk) (c j : Nat) (x : C32) (σ : List C32)
    (hcj : c < j)
    (hD : ∀ τ : List C32, Dnode ntk c (τ.set j x)
      = ((Dnode ntk c τ).1, ((Dnode ntk c τ).2).set j x)) :
    Dedge ntk c (σ.set j x) = ((Dedge ntk c σ).1, ((Dedge ntk c σ).2).set j x) := by
  unfold Dedge
  rw [CutGraph.getD_set_ne _ _ _ _ _ (by omega : j ≠ c)]
  by_cases hz : σ.getD c 0 - 1 = 0
  · rw [if_pos hz, if_pos hz,
      List.set_comm x (σ.getD c 0 - 1) σ (by omega : j ≠ c)]
    exact hD (σ.set c (σ.getD c 0 - 1))
  · rw [if_neg hz, if_neg hz,
      List.set_comm x (σ.getD c 0 - 1) σ (by omega : j ≠ c)]

theorem Redge_setcomm_aux (ntk : DNtk) (c j : Nat) (x : C32) (σ : List C32)
    (hcj : c < j)
    (hR : ∀ τ : List C32, Rnode ntk c (τ.set j x)
      = ((Rnode ntk c τ).1, ((Rnode ntk c τ).2).set j x)) :
    Redge ntk c (σ.set j x) = ((Redge ntk c σ).1, ((Redge ntk c σ).2).set j x) := by
  unfold Redge
  rw [CutGraph.getD_set_ne _ _ _ _ _ (by omega : j ≠ c)]
  by_cases hz : σ.getD c 0 = 0
  · rw [if_pos hz, if_pos hz,
      List.set_comm x (σ.getD c 0 + 1) σ (by omega : j ≠ c)]
    exact hR (σ.set c (σ.getD c 0 + 1))
  · rw [if_neg hz, if_neg hz,
      List.set_comm x (σ.getD c 0 + 1) σ (by omega : j ≠ c)]

theorem DListE_setcomm_aux (ntk : DNtk) (j : Nat) (x : C32) :
    ∀ (cs : List Nat) (σ : List C32), (∀ c ∈ cs, c < j) →
      (∀ c ∈ cs, ∀ τ : List C32, Dnode ntk c (τ.set j x)
        = ((Dnode ntk c τ).1, ((Dnode ntk c τ).2).set j x)) →
      DListE ntk cs (σ.set j x) = ((DListE ntk cs σ).1, ((DListE ntk cs σ).2).set j x)
  | [], _, _, _ => rfl
  | c :: cs, σ, h1, h2 => by
    unfold DListE
    rw [Dedge_setcomm_aux ntk c j x σ (h1 c (List.mem_cons_self c cs))
      (h2 c (List.mem_cons_self c cs))]
    show ((Dedge ntk c σ).1
        + (DListE ntk cs (((Dedge ntk c σ).2).set j x)).1,
      (DListE ntk cs (((Dedge ntk c σ).2).set j x)).2) = _
    rw [DListE_setcomm_aux ntk j x cs ((Dedge ntk c σ).2)
      (fun y hy => h1 y (List.mem_cons_of_mem c hy))
      (fun y hy => h2 y (List.mem_cons_of_mem c hy))]

theorem RListE_setcomm_aux (ntk : DNtk) (j : Nat) (x : C32) :
    ∀ (cs : List Nat) (σ : List C32), (∀ c ∈ cs, c < j) →
      (∀ c ∈ cs, ∀ τ : List C32, Rnode ntk c (τ.set j x)
        = ((Rnode ntk c τ).1, ((Rnode ntk c τ).2).set j x)) →
      RListE ntk cs (σ.set j x) = ((RListE ntk cs σ).1, ((RListE ntk cs σ).2).set j x)
  | [], _, _, _ => rfl
  | c :: cs, σ, h1, h2 => by
    unfold RListE
    rw [Redge_setcomm_aux ntk c j x σ (h1 c (List.mem_cons_self c cs))
      (h2 c (List.mem_cons_self c cs))]
    show ((Redge ntk c σ).1
        + (RListE ntk cs (((Redge ntk c σ).2).set j x)).1,
      (RListE ntk cs (((Redge ntk c σ).2).set j x)).2) = _
    rw [RListE_setcomm_aux ntk j x cs ((Redge ntk c σ).2)
      (fun y hy => h1 y (List.mem_cons_of_mem c hy))
      (fun y hy => h2 y (List.mem_cons_of_mem c hy))]

theorem Dnode_setcomm (ntk : DNtk) (hacyc : ∀ j, ∀ c ∈ fanin ntk j, c < j) :
    ∀ (n : Nat) (σ : List C32) (j : Nat) (x : C32), n ≤ j →
      Dnode ntk n (σ.set j x) = ((Dnode ntk n σ).1, ((Dnode ntk n σ).2).set j x) := by
  intro n
  induction n using Nat.strong_induction_on with
  | _ n ih =>
    intro σ j x hnj
    cases ht : term ntk n with
    | true => rw [Dnode_term ntk n _ ht, Dnode_term ntk n σ ht]
    | false =>
      rw [Dnode_unfold ntk hacyc n _ ht, Dnode_unfold ntk hacyc n σ ht,
        DListE_setcomm_aux ntk j x (fanin ntk n) σ
          (fun c hc => by have := hacyc n c hc; omega)
          (fun c hc τ => ih c (hacyc n c hc) τ j x (by have := hacyc n c hc; omega))]

theorem Rnode_setcomm (ntk : DNtk) (hacyc : ∀ j, ∀ c ∈ fanin ntk j, c < j) :
    ∀ (n : Nat) (σ : List C32) (j : Nat) (x : C32), n ≤ j →
      Rnode ntk n (σ.set j x) = ((Rnode ntk n σ).1, ((Rnode ntk n σ).2).set j x) := by
  intro n
  induction n using Nat.strong_induction_on with
  | _ n ih =>
    intro σ j x hnj
    cases ht : term ntk n with
    | true => rw [Rnode_term ntk n _ ht, Rnode_term ntk n σ ht]
    | false =>
      rw [Rnode_unfold ntk hacyc n _ ht, Rnode_unfold ntk hacyc n σ ht,
        RListE_setcomm_aux ntk j x (fanin ntk n) σ
          (fun c hc => by have := hacyc n c hc; omega)
          (fun c hc τ => ih c (hacyc n c hc) τ j x (by have := hacyc n c hc; omega))]

end Mffc

namespace Mffc

theorem SE_DR (ntk : DNtk) (hacyc : ∀ j, ∀ c ∈ fanin ntk j, c < j)
    (c : Nat) (σ : List C32) (hc : c < σ.length)
    (hMainDR : ∀ τ : List C32, c ≤ τ.length →
      Rnode ntk c (Dnode ntk c τ).2 = ((Dnode ntk c τ).1, τ)) :
    Redge ntk c (Dedge ntk c σ).2 = ((Dedge ntk c σ).1, σ) := by
  unfold Dedge
  by_cases hz : σ.getD c 0 - 1 = 0
  · rw [if_pos hz, hz]
    unfold Redge
    have hq : ((Dnode ntk c (σ.set c 0)).2).getD c 0 = 0 := by
      rw [Dnode_frame ntk hacyc c _ c (le_refl c),
        CutGraph.getD_set_self σ c 0 0 hc]
    rw [hq, if_pos rfl, zero_add,
      Rnode_setcomm ntk hacyc c ((Dnode ntk c (σ.set c 0)).2) c 1 (le_refl c),
      hMainDR (σ.set c 0) (by rw [List.length_set]; omega)]
    show ((Dnode ntk c (σ.set c 0)).1, (σ.set c 0).set c 1)
      = ((Dnode ntk c (σ.set c 0)).1, σ)
    rw [List.set_set,
      show σ.set c 1 = σ from by
        have hv : σ.getD c 0 = 1 := by rwa [sub_eq_zero] at hz
        rw [← hv]
        exact set_getD_own σ c 0 hc]
  · rw [if_neg hz]
    show Redge ntk c (σ.set c (σ.getD c 0 - 1)) = (0, σ)
    unfold Redge
    rw [CutGraph.getD_set_self σ c (σ.getD c 0 - 1) 0 hc, if_neg hz, List.set_set,
      show σ.getD c 0 - 1 + 1 = σ.getD c 0 from by ring, set_getD_own σ c 0 hc]

theorem SE_RD (ntk : DNtk) (hacyc : ∀ j, ∀ c ∈ fanin ntk j, c < j)
    (c : Nat) (σ : List C32) (hc : c < σ.length)
    (hMainRD : ∀ τ : List C32, c ≤ τ.length →
      Dnode ntk c (Rnode ntk c τ).2 = ((Rnode ntk c τ).1, τ)) :
    Dedge ntk c (Redge ntk c σ).2 = ((Redge ntk c σ).1, σ) := by
  unfold Redge
  by_cases hz : σ.getD c 0 = 0
  · rw [if_pos hz, hz, zero_add]
    unfold Dedge
    have hq : ((Rnode ntk c (σ.set c 1)).2).getD c 0 = 1 := by
      rw [Rnode_frame ntk hacyc c _ c (le_refl c),
        CutGraph.getD_set_self σ c 1 0 hc]
    rw [hq, show (1 : C32) - 1 = 0 from by ring, if_pos rfl,
      Dnode_setcomm ntk hacyc c ((Rnode ntk c (σ.set c 1)).2) c 0 (le_refl c),
      hMainRD (σ.set c 1) (by rw [List.length_set]; omega)]
    show ((Rnode ntk c (σ.set c 1)).1, (σ.set c 1).set c 0)
      = ((Rnode ntk c (σ.set c 1)).1, σ)
    rw [List.set_set,
      show σ.set c 0 = σ from by
        rw [← hz]
        exact set_getD_own σ c 0 hc]
  · rw [if_neg hz]
    show Dedge ntk c (σ.set c (σ.getD c 0 + 1)) = (0, σ)
    unfold Dedge
    rw [CutGraph.getD_set_self σ c (σ.getD c 0 + 1) 0 hc,
      show σ.getD c 0 + 1 - 1 = σ.getD c 0 from by ring, if_neg hz, List.set_set,
      set_getD_own σ c 0 hc]

end Mffc

namespace Mffc

/-- Edge commutation: a ref edge on `c` and a deref edge on `b` commute as
state transformers, and the crosswise cost sums agree. -/
def ECP (ntk : DNtk) (c b : Nat) : Prop :=
  ∀ σ : List C32, c < σ.length → b < σ.length →
    (Redge ntk c (Dedge ntk b σ).2).2 = (Dedge ntk b (Redge ntk c σ).2).2 ∧
    (Redge ntk c (Dedge ntk b σ).2).1 + (Dedge ntk b (Redge ntk c σ).2).1
      = (Redge ntk c σ).1 + (Dedge ntk b σ).1

theorem Dnode_len (ntk : DNtk) (n : Nat) (σ : List C32) :
    ((Dnode ntk n σ).2).length = σ.length :=
  derefN_len ntk (n + 1) n σ

theorem Rnode_len (ntk : DNtk) (n : Nat) (σ : List C32) :
    ((Rnode ntk n σ).2).length = σ.length :=
  refN_len ntk (n + 1) n σ

theorem Dedge_len (ntk : DNtk) (c : Nat) (σ : List C32) :
    ((Dedge ntk c σ).2).length = σ.length := by
  unfold Dedge
  by_cases hz : σ.getD c 0 - 1 = 0
  · rw [if_pos hz, Dnode_len, List.length_set]
  · rw [if_neg hz]
    exact List.length_set σ c _

theorem Redge_len (ntk : DNtk) (c : Nat) (σ : List C32) :
    ((Redge ntk c σ).2).length = σ.length := by
  unfold Redge
  by_cases hz : σ.getD c 0 = 0
  · rw [if_pos hz, Rnode_len, List.length_set]
  · rw [if_neg hz]
    exact List.length_set σ c _

theorem DListE_len (ntk : DNtk) : ∀ (cs : List Nat) (σ : List C32),
    ((DListE ntk cs σ).2).length = σ.length
  | [], _ => rfl
  | c :: cs, σ => by
    unfold DListE
    show ((DListE ntk cs (Dedge ntk c σ).2).2).length = _
    rw [DListE_len ntk cs _, Dedge_len]

theorem RListE_len (ntk : DNtk) : ∀ (cs : List Nat) (σ : List C32),
    ((RListE ntk cs σ).2).length = σ.length
  | [], _ => rfl
  | c :: cs, σ => by
    unfold RListE
    show ((RListE ntk cs (Redge ntk c σ).2).2).length = _
    rw [RListE_len ntk cs _, Redge_len]

theorem RListE_comm_Dedge (ntk : DNtk) (b : Nat) :
    ∀ (cs : List Nat) (σ : List C32), b < σ.length → (∀ ci ∈ cs, ci < σ.length) →
      (∀ ci ∈ cs, ECP ntk ci b) →
      (RListE ntk cs (Dedge ntk b σ).2).2 = (Dedge ntk b (RListE ntk cs σ).2).2 ∧
      (RListE ntk cs (Dedge ntk b σ).2).1 + (Dedge ntk b (RListE ntk cs σ).2).1
        = (RListE ntk cs σ).1 + (Dedge ntk b σ).1
  | [], σ, _, _, _ => ⟨rfl, rfl⟩
  | c :: cs, σ, hb, hlen, hec => by
    obtain ⟨hs1, hc1⟩ :=
      hec c (List.mem_cons_self c cs) σ (hlen c (List.mem_cons_self c cs)) hb
    obtain ⟨hs2, hc2⟩ := RListE_comm_Dedge ntk b cs ((Redge ntk c σ).2)
      (by rw [Redge_len]; exact hb)
      (fun x hx => by rw [Redge_len]; exact hlen x (List.mem_cons_of_mem c hx))
      (fun x hx => hec x (List.mem_cons_of_mem c hx))
    unfold RListE
    constructor
    · show (RListE ntk cs (Redge ntk c (Dedge ntk b σ).2).2).2 = _
      rw [hs1, hs2]
    · show (Redge ntk c (Dedge ntk b σ).2).1
          + (RListE ntk cs (Redge ntk c (Dedge ntk b σ).2).2).1
          + (Dedge ntk b (RListE ntk cs (Redge ntk c σ).2).2).1
        = (Redge ntk c σ).1 + (RListE ntk cs (Redge ntk c σ).2).1
          + (Dedge ntk b σ).1
      rw [hs1]
      linear_combination hc1 + hc2

theorem DListE_comm_Redge (ntk : DNtk) (c : Nat) :
    ∀ (bs : List Nat) (σ : List C32), c < σ.length → (∀ bi ∈ bs, bi < σ.length) →
      (∀ bi ∈ bs, ECP ntk c bi) →
      (Redge ntk c (DListE ntk bs σ).2).2 = (DListE ntk bs (Redge ntk c σ).2).2 ∧
      (Redge ntk c (DListE ntk bs σ).2).1 + (DListE ntk bs (Redge ntk c σ).2).1
        = (Redge ntk c σ).1 + (DListE ntk bs σ).1
  | [], σ, _, _, _ => ⟨rfl, rfl⟩
  | b :: bs, σ, hc, hlen, hec => by
    obtain ⟨hs1, hc1⟩ :=
      hec b (List.mem_cons_self b bs) σ hc (hlen b (List.mem_cons_self b bs))
    obtain ⟨hs2, hc2⟩ := DListE_comm_Redge ntk c bs ((Dedge ntk b σ).2)
      (by rw [Dedge_len]; exact hc)
      (fun x hx => by rw [Dedge_len]; exact hlen x (List.mem_cons_of_mem b hx))
      (fun x hx => hec x (List.mem_cons_of_mem b hx))
    unfold DListE
    constructor
    · show (Redge ntk c (DListE ntk bs (Dedge ntk b σ).2).2).2 = _
      rw [hs2, hs1]
    · show (Redge ntk c (DListE ntk bs (Dedge ntk b σ).2).2).1
          + ((Dedge ntk b (Redge ntk c σ).2).1
             + (DListE ntk bs (Dedge ntk b (Redge ntk c σ).2).2).1)
        = (Redge ntk c σ).1
          + ((Dedge ntk b σ).1 + (DListE ntk bs (Dedge ntk b σ).2).1)
      rw [← hs1]
      linear_combination hc1 + hc2

theorem Rnode_comm_Dedge (ntk : DNtk) (hacyc : ∀ j, ∀ x ∈ fanin ntk j, x < j)
    (c b : Nat) (σ : List C32) (hc : c < σ.length) (hb : b < σ.length)
    (hec : ∀ ci ∈ fanin ntk c, ECP ntk ci b) :
    (Rnode ntk c (Dedge ntk b σ).2).2 = (Dedge ntk b (Rnode ntk c σ).2).2 ∧
    (Rnode ntk c (Dedge ntk b σ).2).1 + (Dedge ntk b (Rnode ntk c σ).2).1
      = (Rnode ntk c σ).1 + (Dedge ntk b σ).1 := by
  cases ht : term ntk c with
  | true =>
    rw [Rnode_term ntk c _ ht, Rnode_term ntk c σ ht]
    exact ⟨rfl, by ring⟩
  | false =>
    rw [Rnode_unfold ntk hacyc c _ ht, Rnode_unfold ntk hacyc c σ ht]
    obtain ⟨hs, hcost⟩ := RListE_comm_Dedge ntk b (fanin ntk c) σ hb
      (fun x hx => by have := hacyc c x hx; omega) hec
    refine ⟨hs, ?_⟩
    show costOf ntk c + (RListE ntk (fanin ntk c) (Dedge ntk b σ).2).1
        + (Dedge ntk b (RListE ntk (fanin ntk c) σ).2).1
      = costOf ntk c + (RListE ntk (fanin ntk c) σ).1 + (Dedge ntk b σ).1
    linear_combination hcost

theorem Dnode_comm_Redge (ntk : DNtk) (hacyc : ∀ j, ∀ x ∈ fanin ntk j, x < j)
    (c b : Nat) (σ : List C32) (hc : c < σ.length) (hb : b < σ.length)
    (hec : ∀ bi ∈ fanin ntk b, ECP ntk c bi) :
    (Redge ntk c (Dnode ntk b σ).2).2 = (Dnode ntk b (Redge ntk c σ).2).2 ∧
    (Redge ntk c (Dnode ntk b σ).2).1 + (Dnode ntk b (Redge ntk c σ).2).1
      = (Redge ntk c σ).1 + (Dnode ntk b σ).1 := by
  cases ht : term ntk b with
  | true =>
    rw [Dnode_term ntk b σ ht, Dnode_term ntk b ((Redge ntk c σ).2) ht]
    exact ⟨rfl, by ring⟩
  | false =>
    rw [Dnode_unfold ntk hacyc b σ ht,
      Dnode_unfold ntk hacyc b ((Redge ntk c σ).2) ht]
    obtain ⟨hs, hcost⟩ := DListE_comm_Redge ntk c (fanin ntk b) σ hc
      (fun x hx => by have := hacyc b x hx; omega) hec
    refine ⟨hs, ?_⟩
    show (Redge ntk c (DListE ntk (fanin ntk b) σ).2).1
        + (costOf ntk b + (DListE ntk (fanin ntk b) (Redge ntk c σ).2).1)
      = (Redge ntk c σ).1
        + (costOf ntk b + (DListE ntk (fanin ntk b) σ).1)
    linear_combination hcost

end Mffc

namespace Mffc

theorem EC_all (ntk : DNtk) (hacyc : ∀ j, ∀ x ∈ fanin ntk j, x < j) (n : Nat)
    (hMDR : ∀ m, m < n → ∀ τ : List C32, m ≤ τ.length →
      Rnode ntk m (Dnode ntk m τ).2 = ((Dnode ntk m τ).1, τ))
    (hMRD : ∀ m, m < n → ∀ τ : List C32, m ≤ τ.length →
      Dnode ntk m (Rnode ntk m τ).2 = ((Rnode ntk m τ).1, τ)) :
    ∀ (k c b : Nat), c + b ≤ k → c < n → b < n → ECP ntk c b := by
  intro k
  induction k using Nat.strong_induction_on with
  | _ k ih =>
    intro c b hk hcn hbn σ hcσ hbσ
    by_cases hcb : c = b
    · subst hcb
      have hse1 := SE_DR ntk hacyc c σ hcσ (hMDR c hcn)
      have hse2 := SE_RD ntk hacyc c σ hcσ (hMRD c hcn)
      rw [hse1, hse2]
      refine ⟨rfl, ?_⟩
      show (Dedge ntk c σ).1 + (Redge ntk c σ).1
        = (Redge ntk c σ).1 + (Dedge ntk c σ).1
      ring
    · rcases Nat.lt_or_ge c b with hlt | hge
      · have hfb : ((Redge ntk c σ).2).getD b 0 = σ.getD b 0 :=
          Redge_frame_aux ntk c b σ hlt
            (fun τ => Rnode_frame ntk hacyc c τ b (by omega))
        unfold Dedge
        rw [hfb]
        by_cases hz : σ.getD b 0 - 1 = 0
        · rw [if_pos hz, if_pos hz, hz]
          have hsc := Redge_setcomm_aux ntk c b 0 σ hlt
            (fun τ => Rnode_setcomm ntk hacyc c τ b 0 (by omega))
          have hsc2 : ((Redge ntk c σ).2).set b 0 = (Redge ntk c (σ.set b 0)).2 := by
            rw [hsc]
          have hsc1 : (Redge ntk c (σ.set b 0)).1 = (Redge ntk c σ).1 := by
            rw [hsc]
          rw [hsc2]
          obtain ⟨hs, hcost⟩ := Dnode_comm_Redge ntk hacyc c b (σ.set b 0)
            (by rw [List.length_set]; exact hcσ)
            (by rw [List.length_set]; exact hbσ)
            (fun bi hbi => ih (c + bi) (by have := hacyc b bi hbi; omega) c bi
              (le_refl _) hcn (by have := hacyc b bi hbi; omega))
          rw [hsc1] at hcost
          exact ⟨hs, hcost⟩
        · rw [if_neg hz, if_neg hz]
          have hsc := Redge_setcomm_aux ntk c b (σ.getD b 0 - 1) σ hlt
            (fun τ => Rnode_setcomm ntk hacyc c τ b _ (by omega))
          refine ⟨?_, ?_⟩
          · show (Redge ntk c (σ.set b (σ.getD b 0 - 1))).2
              = ((Redge ntk c σ).2).set b (σ.getD b 0 - 1)
            rw [hsc]
          · show (Redge ntk c (σ.set b (σ.getD b 0 - 1))).1 + (0 : C32)
              = (Redge ntk c σ).1 + 0
            rw [hsc]
      · have hbc : b < c := by omega
        have hfc : ((Dedge ntk b σ).2).getD c 0 = σ.getD c 0 :=
          Dedge_frame_aux ntk b c σ hbc
            (fun τ => Dnode_frame ntk hacyc b τ c (by omega))
        unfold Redge
        rw [hfc]
        by_cases hz : σ.getD c 0 = 0
        · rw [if_pos hz, if_pos hz, hz, zero_add]
          have hsc := Dedge_setcomm_aux ntk b c 1 σ hbc
            (fun τ => Dnode_setcomm ntk hacyc b τ c 1 (by omega))
          have hsc2 : ((Dedge ntk b σ).2).set c 1 = (Dedge ntk b (σ.set c 1)).2 := by
            rw [hsc]
          have hsc1 : (Dedge ntk b (σ.set c 1)).1 = (Dedge ntk b σ).1 := by
            rw [hsc]
          rw [hsc2]
          obtain ⟨hs, hcost⟩ := Rnode_comm_Dedge ntk hacyc c b (σ.set c 1)
            (by rw [List.length_set]; exact hcσ)
            (by rw [List.length_set]; exact hbσ)
            (fun ci hci => ih (ci + b) (by have := hacyc c ci hci; omega) ci b
              (le_refl _) (by have := hacyc c ci hci; omega) hbn)
          rw [hsc1] at hcost
          exact ⟨hs, hcost⟩
        · rw [if_neg hz, if_neg hz]
          have hsc := Dedge_setcomm_aux ntk b c (σ.getD c 0 + 1) σ hbc
            (fun τ => Dnode_setcomm ntk hacyc b τ c _ (by omega))
          refine ⟨?_, ?_⟩
          · show ((Dedge ntk b σ).2).set c (σ.getD c 0 + 1)
              = (Dedge ntk b (σ.set c (σ.getD c 0 + 1))).2
            rw [hsc]
          · show (0 : C32) + (Dedge ntk b (σ.set c (σ.getD c 0 + 1))).1
              = 0 + (Dedge ntk b σ).1
            rw [hsc]

end Mffc

namespace Mffc

theorem ListMainDR (ntk : DNtk) (hacyc : ∀ j, ∀ x ∈ fanin ntk j, x < j) (n : Nat)
    (hMDR : ∀ m, m < n → ∀ τ : List C32, m ≤ τ.length →
      Rnode ntk m (Dnode ntk m τ).2 = ((Dnode ntk m τ).1, τ))
    (hMRD : ∀ m, m < n → ∀ τ : List C32, m ≤ τ.length →
      Dnode ntk m (Rnode ntk m τ).2 = ((Rnode ntk m τ).1, τ)) :
    ∀ (cs : List Nat) (σ : List C32), (∀ x ∈ cs, x < n) → (∀ x ∈ cs, x < σ.length) →
      RListE ntk cs (DListE ntk cs σ).2 = ((DListE ntk cs σ).1, σ)
  | [], _, _, _ => rfl
  | c :: cs, σ, h1, h2 => by
    have hcn := h1 c (List.mem_cons_self c cs)
    have hcσ := h2 c (List.mem_cons_self c cs)
    have hse := SE_DR ntk hacyc c σ hcσ (hMDR c hcn)
    obtain ⟨hs, hcost⟩ := DListE_comm_Redge ntk c cs ((Dedge ntk c σ).2)
      (by rw [Dedge_len]; exact hcσ)
      (fun x hx => by rw [Dedge_len]; exact h2 x (List.mem_cons_of_mem c hx))
      (fun x hx => EC_all ntk hacyc n hMDR hMRD (c + x) c x (le_refl _) hcn
        (h1 x (List.mem_cons_of_mem c hx)))
    rw [hse] at hs hcost
    have hs2 : (Redge ntk c (DListE ntk cs (Dedge ntk c σ).2).2).2
        = (DListE ntk cs σ).2 := hs
    have hcost2 : (Redge ntk c (DListE ntk cs (Dedge ntk c σ).2).2).1
          + (DListE ntk cs σ).1
        = (Dedge ntk c σ).1 + (DListE ntk cs (Dedge ntk c σ).2).1 := hcost
    have hih := ListMainDR ntk hacyc n hMDR hMRD cs σ
      (fun x hx => h1 x (List.mem_cons_of_mem c hx))
      (fun x hx => h2 x (List.mem_cons_of_mem c hx))
    show ((Redge ntk c (DListE ntk cs (Dedge ntk c σ).2).2).1
        + (RListE ntk cs (Redge ntk c (DListE ntk cs (Dedge ntk c σ).2).2).2).1,
      (RListE ntk cs (Redge ntk c (DListE ntk cs (Dedge ntk c σ).2).2).2).2)
      = ((Dedge ntk c σ).1 + (DListE ntk cs (Dedge ntk c σ).2).1, σ)
    rw [hs2, hih, Prod.mk.injEq]
    exact ⟨hcost2, rfl⟩

theorem ListMainRD (ntk : DNtk) (hacyc : ∀ j, ∀ x ∈ fanin ntk j, x < j) (n : Nat)
    (hMDR : ∀ m, m < n → ∀ τ : List C32, m ≤ τ.length →
      Rnode ntk m (Dnode ntk m τ).2 = ((Dnode ntk m τ).1, τ))
    (hMRD : ∀ m, m < n → ∀ τ : List C32, m ≤ τ.length →
      Dnode ntk m (Rnode ntk m τ).2 = ((Rnode ntk m τ).1, τ)) :
    ∀ (cs : List Nat) (σ : List C32), (∀ x ∈ cs, x < n) → (∀ x ∈ cs, x < σ.length) →
      DListE ntk cs (RListE ntk cs σ).2 = ((RListE ntk cs σ).1, σ)
  | [], _, _, _ => rfl
  | c :: cs, σ, h1, h2 => by
    have hcn := h1 c (List.mem_cons_self c cs)
    have hcσ := h2 c (List.mem_cons_self c cs)
    have hse := SE_RD ntk hacyc c σ hcσ (hMRD c hcn)
    obtain ⟨hs, hcost⟩ := RListE_comm_Dedge ntk c cs ((Redge ntk c σ).2)
      (by rw [Redge_len]; exact hcσ)
      (fun x hx => by rw [Redge_len]; exact h2 x (List.mem_cons_of_mem c hx))
      (fun x hx => EC_all ntk hacyc n hMDR hMRD (x + c) x c (le_refl _)
        (h1 x (List.mem_cons_of_mem c hx)) hcn)
    rw [hse] at hs hcost
    have hs2 : (Dedge ntk c (RListE ntk cs (Redge ntk c σ).2).2).2
        = (RListE ntk cs σ).2 := hs.symm
    have hcost2 : (RListE ntk cs σ).1
          + (Dedge ntk c (RListE ntk cs (Redge ntk c σ).2).2).1
        = (RListE ntk cs (Redge ntk c σ).2).1 + (Redge ntk c σ).1 := hcost
    have hih := ListMainRD ntk hacyc n hMDR hMRD cs σ
      (fun x hx => h1 x (List.mem_cons_of_mem c hx))
      (fun x hx => h2 x (List.mem_cons_of_mem c hx))
    show ((Dedge ntk c (RListE ntk cs (Redge ntk c σ).2).2).1
        + (DListE ntk cs (Dedge ntk c (RListE ntk cs (Redge ntk c σ).2).2).2).1,
      (DListE ntk cs (Dedge ntk c (RListE ntk cs (Redge ntk c σ).2).2).2).2)
      = ((Redge ntk c σ).1 + (RListE ntk cs (Redge ntk c σ).2).1, σ)
    rw [hs2, hih, Prod.mk.injEq]
    refine ⟨?_, rfl⟩
    linear_combination hcost2

theorem MainPair (ntk : DNtk) (hacyc : ∀ j, ∀ x ∈ fanin ntk j, x < j) :
    ∀ n : Nat,
      (∀ σ : List C32, n ≤ σ.length →
        Rnode ntk n (Dnode ntk n σ).2 = ((Dnode ntk n σ).1, σ)) ∧
      (∀ σ : List C32, n ≤ σ.length →
        Dnode ntk n (Rnode ntk n σ).2 = ((Rnode ntk n σ).1, σ)) := by
  intro n
  induction n using Nat.strong_induction_on with
  | _ n ih =>
    constructor
    · intro σ hσ
      cases ht : term ntk n with
      | true =>
        rw [Dnode_term ntk n σ ht]
        show Rnode ntk n σ = (0, σ)
        exact Rnode_term ntk n σ ht
      | false =>
        rw [Dnode_unfold ntk hacyc n σ ht]
        show Rnode ntk n (DListE ntk (fanin ntk n) σ).2
          = (costOf ntk n + (DListE ntk (fanin ntk n) σ).1, σ)
        rw [Rnode_unfold ntk hacyc n ((DListE ntk (fanin ntk n) σ).2) ht,
          ListMainDR ntk hacyc n
            (fun m hm τ hτ => (ih m hm).1 τ hτ)
            (fun m hm τ hτ => (ih m hm).2 τ hτ)
            (fanin ntk n) σ
            (fun x hx => hacyc n x hx)
            (fun x hx => by have := hacyc n x hx; omega)]
    · intro σ hσ
      cases ht : term ntk n with
      | true =>
        rw [Rnode_term ntk n σ ht]
        show Dnode ntk n σ = (0, σ)
        exact Dnode_term ntk n σ ht
      | false =>
        rw [Rnode_unfold ntk hacyc n σ ht]
        show Dnode ntk n (RListE ntk (fanin ntk n) σ).2
          = (costOf ntk n + (RListE ntk (fanin ntk n) σ).1, σ)
        rw [Dnode_unfold ntk hacyc n ((RListE ntk (fanin ntk n) σ).2) ht,
          ListMainRD ntk hacyc n
            (fun m hm τ hτ => (ih m hm).1 τ hτ)
            (fun m hm τ hτ => (ih m hm).2 τ hτ)
            (fanin ntk n) σ
            (fun x hx => hacyc n x hx)
            (fun x hx => by have := hacyc n x hx; omega)]

end Mffc

namespace Mffc

/-- A small witness network: node 0 a constant, node 1 a CI (both terminal),
node 2 a gate over `[0, 1]`, node 3 a gate over `[2, 2, 1]`. -/
def ntkC2 : DNtk :=
  { fanins := [[], [], [0, 1], [2, 2, 1]]
    isTerm := [true, true, false, false]
    cost := [1, 1, 5, 7] }

/-- The witness scratch-counter state (as set up from fanout sizes by
`run()`). -/
def sigmaC2 : List C32 := [3, 4, 2, 1]

end Mffc

/-- Claim C2: on a network whose fanins point to strictly smaller node
indices, `recursive_ref(n)` performed right after `recursive_deref(n)`
restores EVERY counter to its pre-deref value — in fact from ANY starting
counter state, which covers in particular the state set up from fanout
sizes — and the two walks return the same accumulated cost (the same `.1`
component).  The fuel only needs to dominate the node index. -/
theorem C2_deref_ref (ntk : Mffc.DNtk) (n : Nat) (σ : List Mffc.C32) (fuel : Nat)
    (hacyc : ∀ j, j < ntk.fanins.length → ∀ c ∈ Mffc.fanin ntk j, c < j)
    (hσ : n ≤ σ.length) (hfuel : n + 1 ≤ fuel) :
    Mffc.refN ntk fuel n (Mffc.derefN ntk fuel n σ).2
      = ((Mffc.derefN ntk fuel n σ).1, σ) := by
  have hacyc2 : ∀ j, ∀ c ∈ Mffc.fanin ntk j, c < j := by
    intro j c hc
    by_cases hj : j < ntk.fanins.length
    · exact hacyc j hj c hc
    · exfalso
      unfold Mffc.fanin at hc
      rw [List.getD_eq_default _ _ (by omega)] at hc
      exact List.not_mem_nil c hc
  rw [Mffc.derefN_fuel ntk hacyc2 n fuel σ hfuel,
    Mffc.refN_fuel ntk hacyc2 n fuel _ hfuel]
  exact (Mffc.MainPair ntk hacyc2 n).1 σ hσ

/-- Witness for C2: the theorem applied to the concrete network `ntkC2`,
node 3, counters `[3, 4, 2, 1]` and fuel 4. -/
theorem C2_deref_ref_witness :
    (∀ j, j < Mffc.ntkC2.fanins.length →
      ∀ c ∈ Mffc.fanin Mffc.ntkC2 j, c < j) ∧
    3 ≤ Mffc.sigmaC2.length ∧
    Mffc.refN Mffc.ntkC2 4 3 (Mffc.derefN Mffc.ntkC2 4 3 Mffc.sigmaC2).2
      = ((Mffc.derefN Mffc.ntkC2 4 3 Mffc.sigmaC2).1, Mffc.sigmaC2) :=
  ⟨by decide, by decide,
    C2_deref_ref Mffc.ntkC2 3 Mffc.sigmaC2 4 (by decide) (by decide) (by decide)⟩

namespace Klut

/-- The PI-creation loop of the typed `cleanup_dangling` (cleanup.hpp,
lines 169-186, latch-free case): create one `create_pi` per source PI. -/
def addPis (d : KlutNtk) : Nat → KlutNtk
  | 0 => d
  | k + 1 => (create_pi (addPis d k)).2

/-- The number of gates among source indices below `i`. -/
def gidx (src : KlutNtk) (i : Nat) : Nat :=
  ((List.range i).filter (fun j => decide (2 ≤ j ∧ j ∉ src.inputs))).length

/-- The `old_to_new` node map before the gate loop: constants map to the
destination constants 0 and 1, the `k`-th PI to destination index `2 + k`. -/
def initMap (src : KlutNtk) : List Nat :=
  (List.range src.inputs.length).foldl
    (fun m k => m.set (src.inputs.getD k 0) (2 + k))
    ((List.replicate src.nodes.length 0).set 1 1)

/-- One iteration of the gate loop of `cleanup_dangling` (cleanup.hpp,
lines 82-105; klut signals carry no complement): skip constants and CIs,
otherwise clone the node over the mapped fanins and record its new signal.
For a network whose fanins point to smaller indices, index order is the
topological order `topo_view` produces. -/
def gateStep (src : KlutNtk) (p : KlutNtk × List Nat) (i : Nat) : KlutNtk × List Nat :=
  if 2 ≤ i ∧ i ∉ src.inputs then
    ((clone_node p.1 src i
        ((src.nodes.getD i default).children.map (fun c => p.2.getD c 0))).2,
     p.2.set i
       (clone_node p.1 src i
         ((src.nodes.getD i default).children.map (fun c => p.2.getD c 0))).1)
  else p

/-- The state after the PI phase and the whole gate loop. -/
def cleanupFold (src : KlutNtk) : KlutNtk × List Nat :=
  (List.range src.nodes.length).foldl (gateStep src)
    (addPis klutInit src.inputs.length, initMap src)

/-- `cleanup_dangling` (cleanup.hpp, lines 147-203) for a `klut_network`:
rebuild PIs, clone every gate in topological order over the mapped fanins,
then re-create every PO on the mapped signal. -/
def cleanup_dangling (src : KlutNtk) : KlutNtk :=
  (src.outputs.map (fun f => (cleanupFold src).2.getD f 0)).foldl create_po
    (cleanupFold src).1

/-- The counterexample source network: PIs 2, 3, 4, gates 5 = AND(2,3) and
6 = AND(2,4), POs on 5 and 6, then `substitute_node(4, 3)`, which turns
gate 6 into a structural duplicate AND(2,3) of gate 5 without merging them,
and finally a PO on the now-unreferenced PI 4 so that every non-constant
node keeps a positive fanout count. -/
def srcC7 : KlutNtk :=
  create_po
    (substitute_node
      (create_po
        (create_po
          (create_node
            (create_node
              (create_pi (create_pi (create_pi klutInit).2).2).2
              [2, 3] [false, false, false, true]).2
            [2, 4] [false, false, false, true]).2
          5)
        6)
      4 3).1
    4

end Klut

namespace Klut

theorem ttComplement_invol (t : TT) : ttComplement (ttComplement t) = t := by
  unfold ttComplement
  rw [List.map_map]
  have h : ((fun b => !b) ∘ fun b => !b) = id := funext (fun b => Bool.not_not b)
  rw [h, List.map_id]

theorem cacheCanon_recover (t : TT) :
    (if (cacheCanon t).2 then ttComplement (cacheCanon t).1 else (cacheCanon t).1)
      = t := by
  unfold cacheCanon
  by_cases h : t.getD 0 false = true
  · rw [if_pos h]
    show ttComplement (ttComplement t) = t
    exact ttComplement_invol t
  · rw [if_neg h]
    rfl

theorem cacheCanon_lsb (t : TT) : ((cacheCanon t).1).getD 0 false = false := by
  unfold cacheCanon
  by_cases h : t.getD 0 false = true
  · rw [if_pos h]
    show (ttComplement t).getD 0 false = false
    cases t with
    | nil => simp at h
    | cons b bs =>
      show (!b) = false
      have hb : b = true := h
      rw [hb]
      rfl
  · rw [if_neg h]
    show t.getD 0 false = false
    cases hb : t.getD 0 false with
    | false => rfl
    | true => exact absurd hb h

theorem nodup_snoc {α : Type} (l : List α) (c : α) (h1 : l.Nodup) (h2 : c ∉ l) :
    (l ++ [c]).Nodup := by
  rw [List.nodup_append]
  exact ⟨h1, List.nodup_singleton c,
    fun a ha hb => h2 ((List.mem_singleton.mp hb) ▸ ha)⟩

theorem findIdx_some (c : TT) (l : List TT) (k : Nat)
    (h : l.findIdx? (fun x => x == c) = some k) : k < l.length ∧ l.getD k [] = c := by
  obtain ⟨hk, hfi⟩ := List.findIdx?_eq_some_iff_findIdx_eq.mp h
  refine ⟨hk, ?_⟩
  have hw : List.findIdx (fun x => x == c) l < l.length := by
    rw [hfi]
    exact hk
  have hp := @List.findIdx_getElem TT (fun x => x == c) l hw
  simp only [hfi] at hp
  rw [List.getD_eq_getElem l [] hk]
  exact eq_of_beq hp

theorem findIdx_mem (c : TT) (l : List TT) (h : c ∈ l) :
    ∃ k, l.findIdx? (fun x => x == c) = some k ∧ k < l.length ∧ l.getD k [] = c := by
  rcases hf : l.findIdx? (fun x => x == c) with _ | k
  · rw [List.findIdx?_eq_none_iff] at hf
    have := hf c h
    simp at this
  · obtain ⟨h1, h2⟩ := findIdx_some c l k hf
    exact ⟨k, rfl, h1, h2⟩

theorem findIdx_none_of_not_mem (c : TT) (l : List TT) (h : c ∉ l) :
    l.findIdx? (fun x => x == c) = none := by
  rw [List.findIdx?_eq_none_iff]
  intro x hx
  cases hb : (x == c) with
  | false => rfl
  | true => exact absurd ((eq_of_beq hb) ▸ hx) h

/-- Membership of `t`'s canonical form in the cache. -/
def interned (cache : List TT) (t : TT) : Prop := (cacheCanon t).1 ∈ cache

theorem cacheInsert_wf (cache : List TT) (t : TT)
    (h1 : ∀ u ∈ cache, u.getD 0 false = false) (h2 : cache.Nodup) :
    (∀ u ∈ (cacheInsert cache t).2, u.getD 0 false = false)
      ∧ (cacheInsert cache t).2.Nodup := by
  unfold cacheInsert
  rcases hf : cache.findIdx? (fun x => x == (cacheCanon t).1) with _ | i <;>
    simp only [hf]
  · constructor
    · intro u hu
      rcases List.mem_append.mp hu with hu1 | hu2
      · exact h1 u hu1
      · rw [List.mem_singleton.mp hu2]
        exact cacheCanon_lsb t
    · refine nodup_snoc cache _ h2 (fun hmem => ?_)
      obtain ⟨k, hk, _, _⟩ := findIdx_mem _ cache hmem
      rw [hf] at hk
      exact Option.noConfusion hk
  · exact ⟨h1, h2⟩

theorem interned_insert_self (cache : List TT) (t : TT) :
    interned (cacheInsert cache t).2 t := by
  unfold interned cacheInsert
  rcases hf : cache.findIdx? (fun x => x == (cacheCanon t).1) with _ | i <;>
    simp only [hf]
  · exact List.mem_append_right cache (List.mem_singleton.mpr rfl)
  · obtain ⟨h1, h2⟩ := findIdx_some _ cache i hf
    exact h2 ▸ CutGraph.getD_mem cache i [] h1

theorem interned_insert_mono (cache : List TT) (u t : TT)
    (h : interned cache t) : interned (cacheInsert cache u).2 t := by
  unfold interned at h ⊢
  unfold cacheInsert
  rcases hf : cache.findIdx? (fun x => x == (cacheCanon u).1) with _ | i <;>
    simp only [hf]
  · exact List.mem_append_left _ h
  · exact h

theorem lit_stable (cache : List TT) (u t : TT) (h : interned cache t) :
    (cacheInsert (cacheInsert cache u).2 t).1 = (cacheInsert cache t).1 := by
  obtain ⟨k, hk, _, _⟩ := findIdx_mem _ cache h
  unfold cacheInsert
  rcases hf : cache.findIdx? (fun x => x == (cacheCanon u).1) with _ | i
  · simp only [hf, List.findIdx?_append, hk]
    rfl
  · simp only [hf]

theorem lit_inj (cache : List TT) (t1 t2 : TT)
    (h2 : interned cache t2)
    (heq : (cacheInsert cache t1).1 = (cacheInsert cache t2).1) : t1 = t2 := by
  obtain ⟨k2, hk2, hl2, hg2⟩ := findIdx_mem _ cache h2
  by_cases h1 : interned cache t1
  · obtain ⟨k1, hk1, hl1, hg1⟩ := findIdx_mem _ cache h1
    unfold cacheInsert at heq
    simp only [hk1, hk2] at heq
    have hkk : k1 = k2 ∧ (cacheCanon t1).2 = (cacheCanon t2).2 := by
      cases hb1 : (cacheCanon t1).2 <;> cases hb2 : (cacheCanon t2).2 <;>
          rw [hb1, hb2] at heq <;> simp at heq
      · exact ⟨heq, rfl⟩
      · omega
      · omega
      · exact ⟨heq, rfl⟩
    have hcan : (cacheCanon t1).1 = (cacheCanon t2).1 := by
      rw [← hg1, ← hg2, hkk.1]
    rw [← cacheCanon_recover t1, ← cacheCanon_recover t2, hcan, hkk.2]
  · have hf1 : cache.findIdx? (fun x => x == (cacheCanon t1).1) = none :=
      findIdx_none_of_not_mem _ cache h1
    unfold cacheInsert at heq
    simp only [hf1, hk2] at heq
    exfalso
    cases hb1 : (cacheCanon t1).2 <;> cases hb2 : (cacheCanon t2).2 <;>
        rw [hb1, hb2] at heq <;> simp at heq <;> omega

end Klut

namespace Klut

theorem addPis_spec : ∀ k : Nat,
    (addPis klutInit k).nodes.length = 2 + k ∧
    (addPis klutInit k).inputs = (List.range k).map (fun j => 2 + j) ∧
    (addPis klutInit k).outputs = [] ∧
    (addPis klutInit k).cache = klutInit.cache ∧
    (addPis klutInit k).hash = []
  | 0 => ⟨rfl, rfl, rfl, rfl, rfl⟩
  | k + 1 => by
    obtain ⟨h1, h2, h3, h4, h5⟩ := addPis_spec k
    refine ⟨?_, ?_, h3, h4, h5⟩
    · show ((addPis klutInit k).nodes ++ [(⟨[], 2, 0⟩ : KNode)]).length = 2 + (k + 1)
      rw [List.length_append, h1]
      rfl
    · show (addPis klutInit k).inputs ++ [(addPis klutInit k).nodes.length] = _
      rw [h1, h2, List.range_succ, List.map_append]
      rfl

theorem getD_replicate {α : Type} (a d : α) :
    ∀ (n i : Nat), i < n → (List.replicate n a).getD i d = a
  | 0, _, h => by omega
  | n + 1, 0, _ => rfl
  | n + 1, i + 1, h => by
    show (List.replicate n a).getD i d = a
    exact getD_replicate a d n i (by omega)

theorem nodup_getD_inj : ∀ (l : List Nat), l.Nodup →
    ∀ k1 k2, k1 < l.length → k2 < l.length → l.getD k1 0 = l.getD k2 0 → k1 = k2
  | [], _, k1, _, h1, _, _ => by simp at h1
  | x :: xs, hnd, 0, 0, _, _, _ => rfl
  | x :: xs, hnd, 0, k2 + 1, h1, h2, he => by
    exfalso
    rcases List.nodup_cons.mp hnd with ⟨hx, _⟩
    have : x ∈ xs := by
      rw [show x = xs.getD k2 0 from he]
      exact CutGraph.getD_mem xs k2 0 (by simpa using h2)
    exact hx this
  | x :: xs, hnd, k1 + 1, 0, h1, h2, he => by
    exfalso
    rcases List.nodup_cons.mp hnd with ⟨hx, _⟩
    have : x ∈ xs := by
      rw [show x = xs.getD k1 0 from he.symm]
      exact CutGraph.getD_mem xs k1 0 (by simpa using h1)
    exact hx this
  | x :: xs, hnd, k1 + 1, k2 + 1, h1, h2, he => by
    rcases List.nodup_cons.mp hnd with ⟨_, hxs⟩
    have := nodup_getD_inj xs hxs k1 k2 (by simpa using h1) (by simpa using h2) he
    omega

theorem map_inj_on {α β : Type} (f : α → β) (P : α → Prop)
    (hinj : ∀ x y, P x → P y → f x = f y → x = y) :
    ∀ (l1 l2 : List α), (∀ x ∈ l1, P x) → (∀ x ∈ l2, P x) →
      l1.map f = l2.map f → l1 = l2
  | [], [], _, _, _ => rfl
  | [], b :: l2, _, _, h => by simp at h
  | a :: l1, [], _, _, h => by simp at h
  | a :: l1, b :: l2, h1, h2, h => by
    rw [List.map_cons, List.map_cons] at h
    injection h with hh ht
    rw [hinj a b (h1 a (List.mem_cons_self a l1)) (h2 b (List.mem_cons_self b l2)) hh,
      map_inj_on f P hinj l1 l2
        (fun x hx => h1 x (List.mem_cons_of_mem a hx))
        (fun x hx => h2 x (List.mem_cons_of_mem b hx)) ht]

theorem lookup_mem {α β : Type} [BEq α] [LawfulBEq α] :
    ∀ (l : List (α × β)) (k : α) (v : β), l.lookup k = some v → (k, v) ∈ l
  | [], _, _, h => by simp [List.lookup] at h
  | (a, b) :: l, k, v, h => by
    simp only [List.lookup] at h
    cases hk : k == a with
    | true =>
      rw [hk] at h
      have h2 : some b = some v := h
      have hv : b = v := Option.some.inj h2
      have hka : k = a := eq_of_beq hk
      exact List.mem_cons.mpr (Or.inl (by rw [hka, hv]))
    | false =>
      rw [hk] at h
      exact List.mem_cons_of_mem _ (lookup_mem l k v h)

theorem gidx_succ (src : KlutNtk) (j : Nat) :
    gidx src (j + 1) = gidx src j + (if 2 ≤ j ∧ j ∉ src.inputs then 1 else 0) := by
  unfold gidx
  rw [List.range_succ, List.filter_append, List.length_append, List.filter_singleton]
  by_cases h : 2 ≤ j ∧ j ∉ src.inputs
  · rw [if_pos h, show (decide (2 ≤ j ∧ j ∉ src.inputs)) = true from decide_eq_true h]
    rfl
  · rw [if_neg h, show (decide (2 ≤ j ∧ j ∉ src.inputs)) = false from
      decide_eq_false h]
    rfl

theorem gidx_mono (src : KlutNtk) (j1 j2 : Nat) (h : j1 ≤ j2) :
    gidx src j1 ≤ gidx src j2 := by
  induction j2 with
  | zero =>
    have hz : j1 = 0 := by omega
    rw [hz]
  | succ m ih =>
    by_cases hj : j1 = m + 1
    · rw [hj]
    · have hle := ih (by omega)
      rw [gidx_succ]
      by_cases hc : 2 ≤ m ∧ m ∉ src.inputs
      · rw [if_pos hc]
        omega
      · rw [if_neg hc]
        omega

theorem gidx_lt_of_gate (src : KlutNtk) (j1 j2 : Nat) (h1 : 2 ≤ j1)
    (h2 : j1 ∉ src.inputs) (hlt : j1 < j2) : gidx src j1 < gidx src j2 := by
  have ha : gidx src (j1 + 1) = gidx src j1 + 1 := by
    rw [gidx_succ, if_pos ⟨h1, h2⟩]
  have hb := gidx_mono src (j1 + 1) j2 hlt
  omega

theorem foldSet_len (f g : Nat → Nat) : ∀ (ks : List Nat) (m : List Nat),
    (ks.foldl (fun m k => m.set (f k) (g k)) m).length = m.length
  | [], _ => rfl
  | k :: ks, m => by
    rw [List.foldl_cons, foldSet_len f g ks _, List.length_set]

theorem foldSet_getD_ne (f g : Nat → Nat) : ∀ (ks : List Nat) (m : List Nat) (j : Nat),
    (∀ k ∈ ks, f k ≠ j) →
    (ks.foldl (fun m k => m.set (f k) (g k)) m).getD j 0 = m.getD j 0
  | [], _, _, _ => rfl
  | k :: ks, m, j, h => by
    rw [List.foldl_cons,
      foldSet_getD_ne f g ks _ j (fun x hx => h x (List.mem_cons_of_mem k hx)),
      CutGraph.getD_set_ne _ _ _ _ _ (h k (List.mem_cons_self k ks))]

theorem foldSet_getD_hit (f g : Nat → Nat) : ∀ (ks : List Nat) (m : List Nat) (k0 : Nat),
    k0 ∈ ks → ks.Nodup → (∀ k ∈ ks, f k = f k0 → k = k0) → f k0 < m.length →
    (ks.foldl (fun m k => m.set (f k) (g k)) m).getD (f k0) 0 = g k0
  | [], _, _, h, _, _, _ => absurd h (List.not_mem_nil _)
  | k :: ks, m, k0, hmem, hnd, hinj, hlen => by
    rw [List.foldl_cons]
    rcases List.nodup_cons.mp hnd with ⟨hk_notin, hnd2⟩
    by_cases hk : k = k0
    · subst hk
      rw [foldSet_getD_ne f g ks _ (f k)
          (fun x hx hfx => hk_notin
            (by rw [← hinj x (List.mem_cons_of_mem k hx) hfx]; exact hx)),
        CutGraph.getD_set_self _ _ _ _ hlen]
    · have hmem2 : k0 ∈ ks := by
        rcases List.mem_cons.mp hmem with hh | hh
        · exact absurd hh.symm hk
        · exact hh
      rw [foldSet_getD_hit f g ks _ k0 hmem2 hnd2
          (fun x hx hfx => hinj x (List.mem_cons_of_mem k hx) hfx)
          (by rw [List.length_set]; exact hlen)]

theorem initMap_len (src : KlutNtk) : (initMap src).length = src.nodes.length := by
  unfold initMap
  rw [foldSet_len, List.length_set, List.length_replicate]

theorem initMap_getD_0 (src : KlutNtk) (h2 : 2 ≤ src.nodes.length)
    (hinr : ∀ x ∈ src.inputs, 2 ≤ x) : (initMap src).getD 0 0 = 0 := by
  unfold initMap
  rw [foldSet_getD_ne _ _ _ _ 0
      (fun k hk => by
        have := hinr (src.inputs.getD k 0)
          (CutGraph.getD_mem _ _ _ (List.mem_range.mp hk))
        omega),
    CutGraph.getD_set_ne _ _ _ _ _ (by omega), getD_replicate _ _ _ _ (by omega)]

theorem initMap_getD_1 (src : KlutNtk) (h2 : 2 ≤ src.nodes.length)
    (hinr : ∀ x ∈ src.inputs, 2 ≤ x) : (initMap src).getD 1 0 = 1 := by
  unfold initMap
  rw [foldSet_getD_ne _ _ _ _ 1
      (fun k hk => by
        have := hinr (src.inputs.getD k 0)
          (CutGraph.getD_mem _ _ _ (List.mem_range.mp hk))
        omega),
    CutGraph.getD_set_self _ _ _ _ (by rw [List.length_replicate]; omega)]

theorem initMap_getD_pi (src : KlutNtk) (hnd : src.inputs.Nodup)
    (hlen : ∀ x ∈ src.inputs, x < src.nodes.length) :
    ∀ k0, k0 < src.inputs.length →
      (initMap src).getD (src.inputs.getD k0 0) 0 = 2 + k0 := by
  intro k0 hk0
  unfold initMap
  exact foldSet_getD_hit _ _ (List.range src.inputs.length) _ k0
    (List.mem_range.mpr hk0) (List.nodup_range _)
    (fun k hk hfk =>
      nodup_getD_inj src.inputs hnd k k0 (List.mem_range.mp hk) hk0 hfk)
    (by
      rw [List.length_set, List.length_replicate]
      exact hlen _ (CutGraph.getD_mem _ _ _ hk0))

end Klut

namespace Klut

theorem filter_split {α : Type} (p : α → Bool) :
    ∀ l : List α, (l.filter p).length + (l.filter (fun a => !(p a))).length = l.length
  | [] => rfl
  | x :: l => by
    have ih := filter_split p l
    by_cases hp : p x = true
    · rw [List.filter_cons, List.filter_cons, if_pos hp,
        if_neg (by rw [hp]; decide)]
      simp only [List.length_cons]
      omega
    · have hp2 : p x = false := by
        cases hpp : p x with
        | false => rfl
        | true => exact absurd hpp hp
      rw [List.filter_cons, List.filter_cons, if_neg hp, if_pos (by rw [hp2]; decide)]
      simp only [List.length_cons]
      omega

theorem countP_or_disjoint : ∀ (L : List Nat) (p q : Nat → Bool),
    (∀ a ∈ L, ¬(p a = true ∧ q a = true)) →
    L.countP (fun a => p a || q a) = L.countP p + L.countP q
  | [], _, _, _ => rfl
  | x :: L, p, q, h => by
    rw [List.countP_cons, List.countP_cons, List.countP_cons,
      countP_or_disjoint L p q (fun a ha => h a (List.mem_cons_of_mem x ha))]
    have hx := h x (List.mem_cons_self x L)
    by_cases hp : p x = true
    · have hq : q x = false := by
        cases hqq : q x with
        | false => rfl
        | true => exact absurd ⟨hp, hqq⟩ hx
      rw [hp, hq]
      simp
      omega
    · have hp2 : p x = false := by
        cases hpp : p x with
        | false => rfl
        | true => exact absurd hpp hp
      rw [hp2]
      by_cases hq : q x = true
      · rw [hq]
        simp
        omega
      · have hq2 : q x = false := by
          cases hqq : q x with
          | false => rfl
          | true => exact absurd hqq hq
        rw [hq2]
        simp

theorem decide_eq_beq (j x : Nat) : decide (j = x) = (j == x) := by
  cases h : (j == x) with
  | true => exact decide_eq_true (eq_of_beq h)
  | false =>
    exact decide_eq_false (fun he => by rw [he] at h; simp at h)

theorem countP_eq_single (x N : Nat) (hx : x < N) :
    (List.range N).countP (fun j => decide (j = x)) = 1 := by
  have h1 : (List.range N).countP (fun j => decide (j = x))
      = (List.range N).countP (fun j => j == x) :=
    Reconv.countP_congr_mem (fun j => decide (j = x)) (fun j => j == x)
      (List.range N) (fun a _ => decide_eq_beq a x)
  rw [h1]
  have h2 : (List.range N).countP (fun j => j == x) = (List.range N).count x := rfl
  rw [h2, List.count_eq_one_of_mem (List.nodup_range N) (List.mem_range.mpr hx)]

theorem countP_mem_range : ∀ (l : List Nat), l.Nodup → ∀ N, (∀ x ∈ l, x < N) →
    (List.range N).countP (fun j => decide (j ∈ l)) = l.length
  | [], _, N, _ => by
    rw [show (fun j => decide (j ∈ ([] : List Nat))) = (fun j => false) from
      funext (fun j => by simp)]
    simp
  | x :: l, hnd, N, hb => by
    rcases List.nodup_cons.mp hnd with ⟨hx, hnd2⟩
    have hpt : ∀ j, decide (j ∈ x :: l) = (decide (j = x) || decide (j ∈ l)) := by
      intro j
      by_cases h1 : j = x <;> by_cases h2 : j ∈ l <;>
        simp [h1, h2]
    rw [Reconv.countP_congr_mem (fun j => decide (j ∈ x :: l))
        (fun j => decide (j = x) || decide (j ∈ l)) (List.range N) (fun a _ => hpt a),
      countP_or_disjoint (List.range N) (fun j => decide (j = x))
        (fun j => decide (j ∈ l))
        (fun a _ hc => hx ((of_decide_eq_true hc.1) ▸ (of_decide_eq_true hc.2))),
      countP_eq_single x N (hb x (List.mem_cons_self x l)),
      countP_mem_range l hnd2 N (fun y hy => hb y (List.mem_cons_of_mem x hy))]
    rw [List.length_cons]
    omega

theorem filter_lt2_range : ∀ N, 2 ≤ N →
    (List.range N).countP (fun j => decide (j < 2)) = 2 := by
  intro N hN
  induction N with
  | zero => omega
  | succ m ih =>
    by_cases hm : 2 ≤ m
    · rw [List.range_succ, List.countP_append, ih hm]
      rw [show List.countP (fun j => decide (j < 2)) [m] = 0 from by
        simp [List.countP_cons]
        omega]
    · have hm2 : m + 1 = 2 := by omega
      rw [hm2]
      decide

theorem size_partition (src : KlutNtk) (h2 : 2 ≤ src.nodes.length)
    (hnd : src.inputs.Nodup)
    (hinr : ∀ x ∈ src.inputs, 2 ≤ x ∧ x < src.nodes.length) :
    src.nodes.length = 2 + src.inputs.length + gidx src src.nodes.length := by
  have hsplit := filter_split (fun j => decide (2 ≤ j ∧ j ∉ src.inputs))
    (List.range src.nodes.length)
  rw [List.length_range] at hsplit
  have hg : ((List.range src.nodes.length).filter
      (fun j => decide (2 ≤ j ∧ j ∉ src.inputs))).length
      = gidx src src.nodes.length := rfl
  have hpt : ∀ j, (!(decide (2 ≤ j ∧ j ∉ src.inputs)))
      = (decide (j < 2) || decide (j ∈ src.inputs)) := by
    intro j
    by_cases hj1 : 2 ≤ j <;> by_cases hj2 : j ∈ src.inputs <;>
      simp [hj1, hj2] <;> omega
  have hnp : ((List.range src.nodes.length).filter
      (fun j => !(decide (2 ≤ j ∧ j ∉ src.inputs)))).length
      = 2 + src.inputs.length := by
    rw [← List.countP_eq_length_filter,
      Reconv.countP_congr_mem _ _ _ (fun a _ => hpt a),
      countP_or_disjoint _ _ _
        (fun a _ hc => by
          have ha1 := of_decide_eq_true hc.1
          have ha2 := of_decide_eq_true hc.2
          have := (hinr a ha2).1
          omega),
      filter_lt2_range _ h2,
      countP_mem_range src.inputs hnd _ (fun x hx => (hinr x hx).2)]
  rw [hg, hnp] at hsplit
  omega

end Klut

namespace Klut

/-- Invariant of the gate loop of `cleanup_dangling` after the node indices
below `i` have been processed: destination shape, `old_to_new` map values,
and the destination structural hash holding exactly one entry per cloned
gate. -/
structure CFInv (src : KlutNtk) (i : Nat) (d : KlutNtk) (m : List Nat) : Prop where
  hlen : d.nodes.length = 2 + src.inputs.length + gidx src i
  hin : d.inputs = (List.range src.inputs.length).map (fun j => 2 + j)
  hout : d.outputs = []
  hcwf1 : ∀ t ∈ d.cache, t.getD 0 false = false
  hcwf2 : d.cache.Nodup
  hmlen : m.length = src.nodes.length
  hm0 : m.getD 0 0 = 0
  hm1 : m.getD 1 0 = 1
  hmpi : ∀ k, k < src.inputs.length → m.getD (src.inputs.getD k 0) 0 = 2 + k
  hmgate : ∀ j, 2 ≤ j → j < i → j ∉ src.inputs →
    m.getD j 0 = 2 + src.inputs.length + gidx src j
  hhash : d.hash
    = ((List.range i).filter (fun j => decide (2 ≤ j ∧ j ∉ src.inputs))).map
      (fun j => (((src.nodes.getD j default).children.map (fun c => m.getD c 0),
                  (cacheInsert d.cache
                    (cacheAt src.cache (src.nodes.getD j default).fn)).1),
                 m.getD j 0))
  hintern : ∀ j, 2 ≤ j → j < i → j ∉ src.inputs →
    interned d.cache (cacheAt src.cache (src.nodes.getD j default).fn)

theorem foldRange_succ {α : Type} (f : α → Nat → α) (a : α) (i : Nat) :
    (List.range (i + 1)).foldl f a = f ((List.range i).foldl f a) i := by
  rw [List.range_succ, List.foldl_append]
  rfl

theorem CFInv_init (src : KlutNtk) (h2 : 2 ≤ src.nodes.length)
    (hnd : src.inputs.Nodup)
    (hinr : ∀ x ∈ src.inputs, 2 ≤ x ∧ x < src.nodes.length) :
    CFInv src 0 (addPis klutInit src.inputs.length) (initMap src) := by
  obtain ⟨h1, hin, hout, hc, hh⟩ := addPis_spec src.inputs.length
  refine ⟨?_, hin, hout, ?_, ?_, initMap_len src, ?_, ?_, ?_, ?_, ?_, ?_⟩
  · rw [h1]
    rfl
  · rw [hc]
    intro t ht
    fin_cases ht <;> rfl
  · rw [hc]
    decide
  · exact initMap_getD_0 src h2 (fun x hx => (hinr x hx).1)
  · exact initMap_getD_1 src h2 (fun x hx => (hinr x hx).1)
  · exact initMap_getD_pi src hnd (fun x hx => (hinr x hx).2)
  · intro j _ hj _
    omega
  · rw [hh]
    rfl
  · intro j _ hj _
    omega

theorem m_inj_on (src : KlutNtk) (i : Nat) (m : List Nat)
    (hm0 : m.getD 0 0 = 0) (hm1 : m.getD 1 0 = 1)
    (hmpi : ∀ k, k < src.inputs.length → m.getD (src.inputs.getD k 0) 0 = 2 + k)
    (hmgate : ∀ j, 2 ≤ j → j < i → j ∉ src.inputs →
      m.getD j 0 = 2 + src.inputs.length + gidx src j) :
    ∀ x y, x < i → y < i → m.getD x 0 = m.getD y 0 → x = y := by
  have hval : ∀ x, x < i →
      (x < 2 ∧ m.getD x 0 = x) ∨
      (∃ k, k < src.inputs.length ∧ src.inputs.getD k 0 = x ∧ m.getD x 0 = 2 + k) ∨
      (2 ≤ x ∧ x ∉ src.inputs ∧
        m.getD x 0 = 2 + src.inputs.length + gidx src x) := by
    intro x hx
    by_cases hx2 : x < 2
    · left
      refine ⟨hx2, ?_⟩
      match x, hx2 with
      | 0, _ => exact hm0
      | 1, _ => exact hm1
    · by_cases hxin : x ∈ src.inputs
      · right; left
        obtain ⟨k, hk, hek⟩ := List.mem_iff_getElem.mp hxin
        refine ⟨k, hk, ?_, ?_⟩
        · rw [List.getD_eq_getElem _ _ hk]
          exact hek
        · have := hmpi k hk
          rw [List.getD_eq_getElem _ _ hk, hek] at this
          exact this
      · right; right
        exact ⟨by omega, hxin, hmgate x (by omega) hx hxin⟩
  intro x y hx hy he
  rcases hval x hx with ⟨ha1, ha2⟩ | ⟨k1, hk1, hek1, hev1⟩ | ⟨ha1, ha2, ha3⟩ <;>
    rcases hval y hy with ⟨hb1, hb2⟩ | ⟨k2, hk2, hek2, hev2⟩ | ⟨hb1, hb2, hb3⟩
  · omega
  · omega
  · have hge : 0 ≤ gidx src y := Nat.zero_le _
    omega
  · omega
  · have hkk : k1 = k2 := by omega
    rw [← hek1, ← hek2, hkk]
  · have hge : 0 ≤ gidx src y := Nat.zero_le _
    omega
  · have hge : 0 ≤ gidx src x := Nat.zero_le _
    omega
  · have hge : 0 ≤ gidx src x := Nat.zero_le _
    omega
  · by_contra hne
    rcases Nat.lt_or_ge x y with hlt | hge2
    · have := gidx_lt_of_gate src x y ha1 ha2 hlt
      omega
    · have hlt2 : y < x := by omega
      have := gidx_lt_of_gate src y x hb1 hb2 hlt2
      omega

end Klut

namespace Klut

theorem map_congr_mem {α β : Type} (f g : α → β) :
    ∀ (l : List α), (∀ a ∈ l, f a = g a) → l.map f = l.map g
  | [], _ => rfl
  | a :: l, h => by
    rw [List.map_cons, List.map_cons, h a (List.mem_cons_self a l),
      map_congr_mem f g l (fun x hx => h x (List.mem_cons_of_mem a hx))]

theorem CFInv_step (src : KlutNtk)
    (hwf : ∀ j, j < src.nodes.length →
      ∀ c ∈ (src.nodes.getD j default).children, c < j)
    (hdup : ∀ j1, j1 < src.nodes.length → ∀ j2, j2 < src.nodes.length →
      2 ≤ j1 → j1 ∉ src.inputs → 2 ≤ j2 → j2 ∉ src.inputs → j1 ≠ j2 →
      (src.nodes.getD j1 default).children = (src.nodes.getD j2 default).children →
      cacheAt src.cache (src.nodes.getD j1 default).fn
        ≠ cacheAt src.cache (src.nodes.getD j2 default).fn)
    (i : Nat) (hi : i < src.nodes.length) (d : KlutNtk) (m : List Nat)
    (hinv : CFInv src i d m) :
    CFInv src (i + 1) (gateStep src (d, m) i).1 (gateStep src (d, m) i).2 := by
  obtain ⟨hlen, hin, hout, hcwf1, hcwf2, hmlen, hm0, hm1, hmpi, hmgate, hhash, hintern⟩ := hinv
  by_cases hg : 2 ≤ i ∧ i ∉ src.inputs
  case neg =>
    have hstep : gateStep src (d, m) i = (d, m) := by
      unfold gateStep
      rw [if_neg hg]
    rw [hstep]
    refine ⟨?_, hin, hout, hcwf1, hcwf2, hmlen, hm0, hm1, hmpi, ?_, ?_, ?_⟩
    · rw [hlen, gidx_succ, if_neg hg]
      omega
    · intro j hj1 hj2 hj3
      have hji : j ≠ i := fun he => hg (he ▸ ⟨hj1, hj3⟩)
      exact hmgate j hj1 (by omega) hj3
    · have hfr : (List.range (i + 1)).filter (fun j => decide (2 ≤ j ∧ j ∉ src.inputs))
          = (List.range i).filter (fun j => decide (2 ≤ j ∧ j ∉ src.inputs)) := by
        rw [List.range_succ, List.filter_append, List.filter_singleton,
          show decide (2 ≤ i ∧ i ∉ src.inputs) = false from decide_eq_false hg]
        exact List.append_nil _
      rw [hfr]
      exact hhash
    · intro j hj1 hj2 hj3
      have hji : j ≠ i := fun he => hg (he ▸ ⟨hj1, hj3⟩)
      exact hintern j hj1 (by omega) hj3
  case pos =>
    have hmiss : d.hash.lookup (((src.nodes.getD i default).children.map (fun c => m.getD c 0)), (cacheInsert d.cache (cacheAt src.cache (src.nodes.getD i default).fn)).1) = none := by
      rcases hl : d.hash.lookup (((src.nodes.getD i default).children.map (fun c => m.getD c 0)), (cacheInsert d.cache (cacheAt src.cache (src.nodes.getD i default).fn)).1) with _ | v
      · rfl
      · exfalso
        have hmem := lookup_mem d.hash _ v hl
        rw [hhash] at hmem
        rcases List.mem_map.mp hmem with ⟨j, hjf, hje⟩
        rcases List.mem_filter.mp hjf with ⟨hjr, hjp⟩
        have hjlt : j < i := List.mem_range.mp hjr
        have hjg : 2 ≤ j ∧ j ∉ src.inputs := of_decide_eq_true hjp
        have hfst : ((src.nodes.getD j default).children.map (fun c => m.getD c 0),
            (cacheInsert d.cache (cacheAt src.cache (src.nodes.getD j default).fn)).1)
            = (((src.nodes.getD i default).children.map (fun c => m.getD c 0)), (cacheInsert d.cache (cacheAt src.cache (src.nodes.getD i default).fn)).1) := congrArg Prod.fst hje
        have hch : (src.nodes.getD j default).children.map (fun c => m.getD c 0)
            = ((src.nodes.getD i default).children.map (fun c => m.getD c 0)) := congrArg Prod.fst hfst
        have hlit : (cacheInsert d.cache
              (cacheAt src.cache (src.nodes.getD j default).fn)).1
            = (cacheInsert d.cache (cacheAt src.cache (src.nodes.getD i default).fn)).1 := congrArg Prod.snd hfst
        have htt : (cacheAt src.cache (src.nodes.getD i default).fn) = cacheAt src.cache (src.nodes.getD j default).fn :=
          lit_inj d.cache _ _ (hintern j hjg.1 hjlt hjg.2) hlit.symm
        have hcheq : (src.nodes.getD j default).children
            = (src.nodes.getD i default).children := by
          refine map_inj_on (fun c => m.getD c 0) (fun x => x < i)
            (fun x y hx hy hf => m_inj_on src i m hm0 hm1 hmpi hmgate x y hx hy hf)
            _ _ ?_ ?_ hch
          · intro c hc
            exact lt_trans (hwf j (lt_trans hjlt hi) c hc) hjlt
          · intro c hc
            exact hwf i hi c hc
        exact hdup j (lt_trans hjlt hi) i hi hjg.1 hjg.2 hg.1 hg.2
          (Nat.ne_of_lt hjlt) hcheq htt.symm
    have hmiss2 : ({ d with cache := (cacheInsert d.cache (cacheAt src.cache (src.nodes.getD i default).fn)).2 } : KlutNtk).hash.lookup (((src.nodes.getD i default).children.map (fun c => m.getD c 0)), (cacheInsert d.cache (cacheAt src.cache (src.nodes.getD i default).fn)).1) = none :=
      hmiss
    have hcn : _create_node { d with cache := (cacheInsert d.cache (cacheAt src.cache (src.nodes.getD i default).fn)).2 } ((src.nodes.getD i default).children.map (fun c => m.getD c 0)) (cacheInsert d.cache (cacheAt src.cache (src.nodes.getD i default).fn)).1
        = (d.nodes.length,
           { nodes := ((src.nodes.getD i default).children.map (fun c => m.getD c 0)).foldl bumpFanout (d.nodes ++ [(⟨((src.nodes.getD i default).children.map (fun c => m.getD c 0)), (cacheInsert d.cache (cacheAt src.cache (src.nodes.getD i default).fn)).1, 0⟩ : KNode)])
             inputs := d.inputs
             outputs := d.outputs
             hash := d.hash ++ [((((src.nodes.getD i default).children.map (fun c => m.getD c 0)), (cacheInsert d.cache (cacheAt src.cache (src.nodes.getD i default).fn)).1), d.nodes.length)]
             cache := (cacheInsert d.cache (cacheAt src.cache (src.nodes.getD i default).fn)).2 }) := by
      unfold _create_node
      rw [hmiss2]
    have hcl : clone_node d src i ((src.nodes.getD i default).children.map (fun c => m.getD c 0))
        = (d.nodes.length,
           { nodes := ((src.nodes.getD i default).children.map (fun c => m.getD c 0)).foldl bumpFanout (d.nodes ++ [(⟨((src.nodes.getD i default).children.map (fun c => m.getD c 0)), (cacheInsert d.cache (cacheAt src.cache (src.nodes.getD i default).fn)).1, 0⟩ : KNode)])
             inputs := d.inputs
             outputs := d.outputs
             hash := d.hash ++ [((((src.nodes.getD i default).children.map (fun c => m.getD c 0)), (cacheInsert d.cache (cacheAt src.cache (src.nodes.getD i default).fn)).1), d.nodes.length)]
             cache := (cacheInsert d.cache (cacheAt src.cache (src.nodes.getD i default).fn)).2 }) := hcn
    have hstep : gateStep src (d, m) i
        = ({ nodes := ((src.nodes.getD i default).children.map (fun c => m.getD c 0)).foldl bumpFanout (d.nodes ++ [(⟨((src.nodes.getD i default).children.map (fun c => m.getD c 0)), (cacheInsert d.cache (cacheAt src.cache (src.nodes.getD i default).fn)).1, 0⟩ : KNode)])
             inputs := d.inputs
             outputs := d.outputs
             hash := d.hash ++ [((((src.nodes.getD i default).children.map (fun c => m.getD c 0)), (cacheInsert d.cache (cacheAt src.cache (src.nodes.getD i default).fn)).1), d.nodes.length)]
             cache := (cacheInsert d.cache (cacheAt src.cache (src.nodes.getD i default).fn)).2 },
           m.set i d.nodes.length) := by
      unfold gateStep
      rw [if_pos hg]
      show ((clone_node d src i ((src.nodes.getD i default).children.map (fun c => m.getD c 0))).2, m.set i (clone_node d src i ((src.nodes.getD i default).children.map (fun c => m.getD c 0))).1) = _
      rw [hcl]
    rw [hstep]
    refine ⟨?_, ?_, ?_, ?_, ?_, ?_, ?_, ?_, ?_, ?_, ?_, ?_⟩
    · show (((src.nodes.getD i default).children.map (fun c => m.getD c 0)).foldl bumpFanout (d.nodes ++ [(⟨((src.nodes.getD i default).children.map (fun c => m.getD c 0)), (cacheInsert d.cache (cacheAt src.cache (src.nodes.getD i default).fn)).1, 0⟩ : KNode)])).length = 2 + src.inputs.length + gidx src (i + 1)
      rw [foldBump_length, List.length_append, List.length_singleton, hlen,
        gidx_succ, if_pos hg]
      omega
    · exact hin
    · exact hout
    · exact (cacheInsert_wf d.cache (cacheAt src.cache (src.nodes.getD i default).fn) hcwf1 hcwf2).1
    · exact (cacheInsert_wf d.cache (cacheAt src.cache (src.nodes.getD i default).fn) hcwf1 hcwf2).2
    · show (m.set i d.nodes.length).length = src.nodes.length
      rw [List.length_set]
      exact hmlen
    · show (m.set i d.nodes.length).getD 0 0 = 0
      rw [CutGraph.getD_set_ne m i 0 d.nodes.length 0 (by omega)]
      exact hm0
    · show (m.set i d.nodes.length).getD 1 0 = 1
      rw [CutGraph.getD_set_ne m i 1 d.nodes.length 0 (by omega)]
      exact hm1
    · intro k hk
      show (m.set i d.nodes.length).getD (src.inputs.getD k 0) 0 = 2 + k
      rw [CutGraph.getD_set_ne m i (src.inputs.getD k 0) d.nodes.length 0
        (fun he => hg.2 (by rw [he]; exact CutGraph.getD_mem src.inputs k 0 hk))]
      exact hmpi k hk
    · intro j hj1 hj2 hj3
      show (m.set i d.nodes.length).getD j 0 = 2 + src.inputs.length + gidx src j
      by_cases hji : j = i
      · rw [hji, CutGraph.getD_set_self m i d.nodes.length 0 (by rw [hmlen]; exact hi)]
        exact hlen
      · rw [CutGraph.getD_set_ne m i j d.nodes.length 0 (fun he => hji he.symm)]
        exact hmgate j hj1 (by omega) hj3
    · show d.hash ++ [((((src.nodes.getD i default).children.map (fun c => m.getD c 0)), (cacheInsert d.cache (cacheAt src.cache (src.nodes.getD i default).fn)).1), d.nodes.length)]
        = ((List.range (i + 1)).filter (fun j => decide (2 ≤ j ∧ j ∉ src.inputs))).map
          (fun j => (((src.nodes.getD j default).children.map
              (fun c => (m.set i d.nodes.length).getD c 0),
            (cacheInsert (cacheInsert d.cache (cacheAt src.cache (src.nodes.getD i default).fn)).2 (cacheAt src.cache (src.nodes.getD j default).fn)).1),
            (m.set i d.nodes.length).getD j 0))
      have hfr : (List.range (i + 1)).filter (fun j => decide (2 ≤ j ∧ j ∉ src.inputs))
          = (List.range i).filter (fun j => decide (2 ≤ j ∧ j ∉ src.inputs)) ++ [i] := by
        rw [List.range_succ, List.filter_append, List.filter_singleton,
          show decide (2 ≤ i ∧ i ∉ src.inputs) = true from decide_eq_true hg]
        rfl
      rw [hfr, List.map_append]
      have hold : ((List.range i).filter (fun j => decide (2 ≤ j ∧ j ∉ src.inputs))).map
          (fun j => (((src.nodes.getD j default).children.map
              (fun c => (m.set i d.nodes.length).getD c 0),
            (cacheInsert (cacheInsert d.cache (cacheAt src.cache (src.nodes.getD i default).fn)).2 (cacheAt src.cache (src.nodes.getD j default).fn)).1),
            (m.set i d.nodes.length).getD j 0))
          = d.hash := by
        rw [hhash]
        refine map_congr_mem _ _ _ ?_
        intro j hj
        rcases List.mem_filter.mp hj with ⟨hjr, hjp⟩
        have hjlt : j < i := List.mem_range.mp hjr
        have hjg : 2 ≤ j ∧ j ∉ src.inputs := of_decide_eq_true hjp
        have hchm : (src.nodes.getD j default).children.map
            (fun c => (m.set i d.nodes.length).getD c 0)
            = (src.nodes.getD j default).children.map (fun c => m.getD c 0) := by
          refine map_congr_mem _ _ _ ?_
          intro c hc
          have hci : c < j := hwf j (lt_trans hjlt hi) c hc
          exact CutGraph.getD_set_ne m i c d.nodes.length 0 (by omega)
        have hlits : (cacheInsert (cacheInsert d.cache (cacheAt src.cache (src.nodes.getD i default).fn)).2
              (cacheAt src.cache (src.nodes.getD j default).fn)).1
            = (cacheInsert d.cache (cacheAt src.cache (src.nodes.getD j default).fn)).1 :=
          lit_stable d.cache (cacheAt src.cache (src.nodes.getD i default).fn) _ (hintern j hjg.1 hjlt hjg.2)
        have hval : (m.set i d.nodes.length).getD j 0 = m.getD j 0 :=
          CutGraph.getD_set_ne m i j d.nodes.length 0 (by omega)
        rw [hchm, hlits, hval]
      have hnew : List.map
          (fun j => (((src.nodes.getD j default).children.map
              (fun c => (m.set i d.nodes.length).getD c 0),
            (cacheInsert (cacheInsert d.cache (cacheAt src.cache (src.nodes.getD i default).fn)).2 (cacheAt src.cache (src.nodes.getD j default).fn)).1),
            (m.set i d.nodes.length).getD j 0)) [i]
          = [((((src.nodes.getD i default).children.map (fun c => m.getD c 0)), (cacheInsert d.cache (cacheAt src.cache (src.nodes.getD i default).fn)).1), d.nodes.length)] := by
        rw [List.map_cons, List.map_nil]
        have hchm : (src.nodes.getD i default).children.map
            (fun c => (m.set i d.nodes.length).getD c 0)
            = ((src.nodes.getD i default).children.map (fun c => m.getD c 0)) := by
          refine map_congr_mem _ _ _ ?_
          intro c hc
          have hci : c < i := hwf i hi c hc
          exact CutGraph.getD_set_ne m i c d.nodes.length 0 (by omega)
        have hlits : (cacheInsert (cacheInsert d.cache (cacheAt src.cache (src.nodes.getD i default).fn)).2 (cacheAt src.cache (src.nodes.getD i default).fn)).1 = (cacheInsert d.cache (cacheAt src.cache (src.nodes.getD i default).fn)).1 :=
          congrArg Prod.fst (cacheInsert_idem d.cache (cacheAt src.cache (src.nodes.getD i default).fn))
        have hval : (m.set i d.nodes.length).getD i 0 = d.nodes.length :=
          CutGraph.getD_set_self m i d.nodes.length 0 (by rw [hmlen]; exact hi)
        rw [hchm, hlits, hval]
      rw [hold, hnew]
    · intro j hj1 hj2 hj3
      show interned (cacheInsert d.cache (cacheAt src.cache (src.nodes.getD i default).fn)).2 (cacheAt src.cache (src.nodes.getD j default).fn)
      by_cases hji : j = i
      · rw [hji]
        exact interned_insert_self d.cache (cacheAt src.cache (src.nodes.getD i default).fn)
      · exact interned_insert_mono d.cache (cacheAt src.cache (src.nodes.getD i default).fn) _ (hintern j hj1 (by omega) hj3)

end Klut

namespace Klut

theorem cleanupFold_inv (src : KlutNtk) (h2 : 2 ≤ src.nodes.length)
    (hnd : src.inputs.Nodup)
    (hinr : ∀ x ∈ src.inputs, 2 ≤ x ∧ x < src.nodes.length)
    (hwf : ∀ j, j < src.nodes.length →
      ∀ c ∈ (src.nodes.getD j default).children, c < j)
    (hdup : ∀ j1, j1 < src.nodes.length → ∀ j2, j2 < src.nodes.length →
      2 ≤ j1 → j1 ∉ src.inputs → 2 ≤ j2 → j2 ∉ src.inputs → j1 ≠ j2 →
      (src.nodes.getD j1 default).children = (src.nodes.getD j2 default).children →
      cacheAt src.cache (src.nodes.getD j1 default).fn
        ≠ cacheAt src.cache (src.nodes.getD j2 default).fn) :
    CFInv src src.nodes.length (cleanupFold src).1 (cleanupFold src).2 := by
  have hgen : ∀ i, i ≤ src.nodes.length →
      CFInv src i
        ((List.range i).foldl (gateStep src)
          (addPis klutInit src.inputs.length, initMap src)).1
        ((List.range i).foldl (gateStep src)
          (addPis klutInit src.inputs.length, initMap src)).2 := by
    intro i
    induction i with
    | zero =>
      intro _
      exact CFInv_init src h2 hnd hinr
    | succ k ih =>
      intro hk
      rw [foldRange_succ]
      exact CFInv_step src hwf hdup k (by omega)
        ((List.range k).foldl (gateStep src)
          (addPis klutInit src.inputs.length, initMap src)).1
        ((List.range k).foldl (gateStep src)
          (addPis klutInit src.inputs.length, initMap src)).2
        (ih (by omega))
  exact hgen src.nodes.length (le_refl _)

theorem foldPo_len : ∀ (fs : List Nat) (n : KlutNtk),
    (fs.foldl create_po n).nodes.length = n.nodes.length
  | [], _ => rfl
  | f :: fs, n => by
    rw [List.foldl_cons, foldPo_len fs (create_po n f)]
    show (bumpFanout n.nodes f).length = n.nodes.length
    exact length_bumpFanout n.nodes f

theorem foldPo_inputs : ∀ (fs : List Nat) (n : KlutNtk),
    (fs.foldl create_po n).inputs = n.inputs
  | [], _ => rfl
  | f :: fs, n => by
    rw [List.foldl_cons, foldPo_inputs fs (create_po n f)]
    rfl

theorem foldPo_outputs : ∀ (fs : List Nat) (n : KlutNtk),
    (fs.foldl create_po n).outputs = n.outputs ++ fs
  | [], n => (List.append_nil n.outputs).symm
  | f :: fs, n => by
    rw [List.foldl_cons, foldPo_outputs fs (create_po n f)]
    show (n.outputs ++ [f]) ++ fs = n.outputs ++ f :: fs
    rw [List.append_assoc, List.singleton_append]

theorem getD_map_range (f : Nat → Nat) (n k : Nat) (hk : k < n) :
    ((List.range n).map f).getD k 0 = f k := by
  rw [List.getD_eq_getElem _ _ (by rw [List.length_map, List.length_range]; exact hk)]
  rw [List.getElem_map, List.getElem_range]

end Klut

namespace Klut

/-- Witness network for the amended claim C7: PIs 2 and 3, gate 4 = AND(2,3),
a PO on 4; clean, acyclic, and free of duplicate gates. -/
def c7wNet : KlutNtk :=
  create_po
    (create_node (create_pi (create_pi klutInit).2).2 [2, 3]
      [false, false, false, true]).2
    4

end Klut

/-- Claim C7, counterexample to the stated form: `srcC7` is already free of
dangling nodes (every non-constant node has a fanout count of at least 1, so
the cleanup pass has nothing to remove) and well formed (fanins point to
smaller indices), yet `cleanup_dangling` returns a network of a different
size: the destination network's structural hashing merges gates 5 and 6,
which `substitute_node(4, 3)` left behind as structural duplicates. -/
theorem C7_cleanup_counterexample :
    (∀ j, j < Klut.srcC7.nodes.length → 2 ≤ j →
      1 ≤ (Klut.srcC7.nodes.getD j default).fanout) ∧
    (∀ j, j < Klut.srcC7.nodes.length →
      ∀ c ∈ (Klut.srcC7.nodes.getD j default).children, c < j) ∧
    Klut.srcC7.nodes.length = 7 ∧
    (Klut.cleanup_dangling Klut.srcC7).nodes.length = 6 ∧
    (Klut.cleanup_dangling Klut.srcC7).nodes.length ≠ Klut.srcC7.nodes.length :=
  ⟨by decide, by decide, by decide, by decide, by decide⟩

/-- Claim C7 (amended): for every network that is already free of dangling
nodes AND in which no two distinct gates carry the same children list and the
same function — duplicates `substitute_node` can leave behind, which the
rebuilding pass merges through destination-side structural hashing — with
duplicate-free in-range primary inputs and fanins pointing to smaller
indices, `cleanup_dangling` returns an isomorphic network: same size, same
number and order of primary inputs (the k-th source PI is mapped to the k-th
destination PI), and same number and order of primary outputs (the output
list is exactly the image of the source output list under the old-to-new
map; k-LUT signals carry no complement polarity). -/
theorem C7_cleanup_dangling (src : Klut.KlutNtk)
    (h2 : 2 ≤ src.nodes.length) (hnd : src.inputs.Nodup)
    (hinr : ∀ x ∈ src.inputs, 2 ≤ x ∧ x < src.nodes.length)
    (hwf : ∀ j, j < src.nodes.length →
      ∀ c ∈ (src.nodes.getD j default).children, c < j)
    (hclean : ∀ j, j < src.nodes.length → 2 ≤ j →
      1 ≤ (src.nodes.getD j default).fanout)
    (hdup : ∀ j1, j1 < src.nodes.length → ∀ j2, j2 < src.nodes.length →
      2 ≤ j1 → j1 ∉ src.inputs → 2 ≤ j2 → j2 ∉ src.inputs → j1 ≠ j2 →
      (src.nodes.getD j1 default).children = (src.nodes.getD j2 default).children →
      Klut.cacheAt src.cache (src.nodes.getD j1 default).fn
        ≠ Klut.cacheAt src.cache (src.nodes.getD j2 default).fn) :
    (Klut.cleanup_dangling src).nodes.length = src.nodes.length ∧
    (Klut.cleanup_dangling src).inputs.length = src.inputs.length ∧
    (∀ k, k < src.inputs.length →
      (Klut.cleanup_dangling src).inputs.getD k 0
        = (Klut.cleanupFold src).2.getD (src.inputs.getD k 0) 0) ∧
    (Klut.cleanup_dangling src).outputs
      = src.outputs.map (fun f => (Klut.cleanupFold src).2.getD f 0) := by
  have hinv := Klut.cleanupFold_inv src h2 hnd hinr hwf hdup
  unfold Klut.cleanup_dangling
  refine ⟨?_, ?_, ?_, ?_⟩
  · rw [Klut.foldPo_len, hinv.hlen]
    exact (Klut.size_partition src h2 hnd hinr).symm
  · rw [Klut.foldPo_inputs, hinv.hin, List.length_map, List.length_range]
  · intro k hk
    rw [Klut.foldPo_inputs, hinv.hin, hinv.hmpi k hk, Klut.getD_map_range _ _ _ hk]
  · rw [Klut.foldPo_outputs, hinv.hout]
    exact List.nil_append _

set_option synthInstance.maxSize 20000 in
/-- Witness for the amended claim C7 on the concrete clean, duplicate-free
network `c7wNet`, with every hypothesis discharged by evaluation. -/
theorem C7_cleanup_dangling_witness :
    (Klut.cleanup_dangling Klut.c7wNet).nodes.length = Klut.c7wNet.nodes.length ∧
    (Klut.cleanup_dangling Klut.c7wNet).inputs.length = Klut.c7wNet.inputs.length ∧
    (∀ k, k < Klut.c7wNet.inputs.length →
      (Klut.cleanup_dangling Klut.c7wNet).inputs.getD k 0
        = (Klut.cleanupFold Klut.c7wNet).2.getD (Klut.c7wNet.inputs.getD k 0) 0) ∧
    (Klut.cleanup_dangling Klut.c7wNet).outputs
      = Klut.c7wNet.outputs.map (fun f => (Klut.cleanupFold Klut.c7wNet).2.getD f 0) :=
  C7_cleanup_dangling Klut.c7wNet (by decide) (by decide) (by decide) (by decide)
    (by decide) (by decide)
